import Mathlib

/-!
# RLdb: the debuggee's hook, prompt loop, breakpoint index and value encoding

A shallow embedding of `trunk/debugger/Debugger.c`, and of the decoding of a
string value and the parsing of the command line in `controller/Controller.c`
(namespace `Controller`).

* Lua tables that the debugger keeps in the registry (`breakpoints` and the
  per-path line tables) are finite maps, written as association lists with
  unique keys.
* The socket is a script: `recvs` holds the results of the coming `RecvCmd`
  calls, `sends` the outcomes of the coming send operations, and `out` logs
  every frame handed to the socket together with the outcome of the send.
* `int` is 32 bits wide (the source stores pointers in `unsigned int`);
  arithmetic on `level` wraps.
* The Lua state seen by the inspection commands is the record `LuaVM`; a
  string value is its address and its bytes, any other collectable value its
  address.
-/

namespace RLdb

/-! ## Machine integers -/

/-- Largest value of a C `int`. -/
def INT_MAX : Int := 2147483647

/-- Smallest value of a C `int`. -/
def INT_MIN : Int := -2147483648

/-- Reduction of an integer to the 32-bit two's-complement range. -/
def toInt32 (x : Int) : Int := (x + 2147483648) % 4294967296 - 2147483648

/-! ## Lua tables -/

/-- Lua table with keys `κ` and non-nil values `ν`. -/
abbrev Tbl (κ ν : Type) := List (κ × ν)

namespace Tbl

variable {κ ν : Type} [DecidableEq κ]

/-- Raw read, as `lua_rawget`: `none` stands for nil. -/
def rawget : Tbl κ ν → κ → Option ν
  | [], _ => none
  | (k', v) :: t, k => if k' = k then some v else rawget t k

/-- Removal of a key, the effect of storing nil. -/
def erase : Tbl κ ν → κ → Tbl κ ν
  | [], _ => []
  | (k', v) :: t, k => if k' = k then erase t k else (k', v) :: erase t k

/-- Overwrite of the value of a key, appending the key when it is new. -/
def insert : Tbl κ ν → κ → ν → Tbl κ ν
  | [], k, v => [(k, v)]
  | (k', v') :: t, k, v => if k' = k then (k, v) :: t else (k', v') :: insert t k v

/-- Raw write, as `lua_rawset`: storing nil removes the key. -/
def rawset (t : Tbl κ ν) (k : κ) : Option ν → Tbl κ ν
  | none => erase t k
  | some v => insert t k v

/-- Result of `lua_next` from the nil key: false exactly on the empty table. -/
def hasNext (t : Tbl κ ν) : Bool := !t.isEmpty

/-- Keys of the table. -/
def keys (t : Tbl κ ν) : List κ := t.map Prod.fst

end Tbl

/-! ## Session record and wire -/

/-- Resume mode, the `CMD` enumeration. -/
inductive CMD
  | STEP
  | OVER
  | FINISH
  | RUN
  deriving DecidableEq, Repr

/-- Hook events the VM delivers under the installed mask (never the count event). -/
inductive Event
  | LUA_HOOKCALL
  | LUA_HOOKRET
  | LUA_HOOKLINE
  | LUA_HOOKTAILRET
  deriving DecidableEq, Repr

/-- Fields of `lua_Debug` that the debugger reads for the running function. -/
structure lua_Debug where
  event : Event
  short_src : String
  currentline : Int
  deriving DecidableEq, Repr

/-- Modelled from the spec: the frames of the wire protocol (Protocol.h is not
part of the sources): `BR\n<path>\n<line>\n`, `QT\n\n`, `OK\n<payload>` and
`ER\n<free text>`. -/
inductive Frame
  | BR (src : String) (line : Int)
  | QT
  | OK (payload : String)
  | ER (text : String)
  deriving DecidableEq, Repr

/-- Sentinel socket handle of Socket.h. -/
def INVALID_SOCKET : Int := -1

/-- A Lua number (`LUA_NUMBER`), identified by the bit pattern of its machine
representation. -/
structure LuaNumber where
  bits : Nat
  deriving DecidableEq, Repr

/-- Value descriptor: the VM's value kinds, reference kinds carrying their
identity (the pointer `lua_topointer` or `lua_touserdata` returns), strings
their address and bytes. -/
inductive Value
  | nil
  | boolean (b : Bool)
  | number (n : LuaNumber)
  | string (addr : Nat) (bytes : List Nat)
  | table (p : Nat)
  | function (p : Nat)
  | userdata (p : Nat)
  | lightuserdata (p : Nat)
  | thread (p : Nat)
  deriving DecidableEq, Repr

/-- The `DebuggerInfo` struct. -/
structure DebuggerInfo where
  s : Int
  cmd : CMD
  level : Int
  deriving DecidableEq, Repr

/-- Everything the hook reads and writes: the `debugger` registry table
(`info`, `breakpoints`, `cacheValue`), the hook mask of the Lua state, and the
connection. The mark `lost` is set by a command handler that does not return:
a failed assertion or a fault ends the process, or a Lua error unwinds the
hook; such a handler writes no frame, and its return code has no meaning. -/
structure World where
  info : DebuggerInfo
  breakpoints : Tbl String (Tbl Int Bool)
  cacheValue : Option Value
  hookmask : Nat
  recvs : List (Option String)
  sends : List Bool
  out : List (Frame × Bool)
  lost : Bool := false
  deriving DecidableEq, Repr

/-- Mask bit of call events (lua.h). -/
def LUA_MASKCALL : Nat := 1

/-- Mask bit of return events (lua.h). -/
def LUA_MASKRET : Nat := 2

/-- Mask bit of line events (lua.h). -/
def LUA_MASKLINE : Nat := 4

/-- State left by `luaopen_RLdb` after a successful connect on socket `s`. -/
def luaopen_RLdb (s : Int) (recvs : List (Option String)) (sends : List Bool) : World :=
  { info := { s := s, cmd := CMD.STEP, level := 0 },
    breakpoints := [],
    cacheValue := none,
    hookmask := LUA_MASKLINE ||| LUA_MASKCALL ||| LUA_MASKRET,
    recvs := recvs,
    sends := sends,
    out := [],
    lost := false }

/-- Process environment and build constants: `PROT_MAX_ARGS` and
`PROT_MAX_STR_LEN` of Protocol.h and `_MAX_PATH`, the result of `getcwd`, the
files `_access` finds, the bytes that follow an unterminated path buffer in
memory, the value an uninitialised `fields` pointer of `watch` happens to hold
(`none` is the null pointer), the C library's `strtod` (the number read and
the unread rest, the whole input when nothing converts), and the rendering of
a number by the `%N` directive of the missing SocketBuf (per the spec: decimal,
integer or floating chosen at run time). -/
structure Env where
  PROT_MAX_ARGS : Nat
  MAX_PATH : Nat
  cwd : Option String
  access : String → Bool
  junk : String
  PROT_MAX_STR_LEN : Nat
  junkFields : Option String
  strtod : List Char → LuaNumber × List Char
  fmtNumber : LuaNumber → String

/-- One send operation on socket `s`: it fails on the invalid socket, otherwise
it takes the next scripted outcome (success when the script is exhausted). -/
def send (s : Int) (w : World) (f : Frame) : Int × World :=
  if s = INVALID_SOCKET then (-1, { w with out := w.out ++ [(f, false)] })
  else
    match w.sends with
    | [] => (0, { w with out := w.out ++ [(f, true)] })
    | ok :: rest =>
      (if ok then 0 else -1, { w with sends := rest, out := w.out ++ [(f, ok)] })

/-- Modelled from the spec: `SendBreak` of the missing Protocol.h writes the
frame `BR\n<path>\n<line>\n`. -/
def SendBreak (s : Int) (w : World) (src : String) (line : Int) : Int × World :=
  send s w (Frame.BR src line)

/-- Modelled from the spec: `SendErr` of the missing Protocol.h writes the
frame `ER\n<free text>`. -/
def SendErr (s : Int) (w : World) (text : String) : Int × World :=
  send s w (Frame.ER text)

/-- Modelled from the spec: `SendOK` of the missing Protocol.h writes `OK\n`
followed by what the writer printed, flushed as one response. -/
def SendOK (s : Int) (w : World) (payload : String) : Int × World :=
  send s w (Frame.OK payload)

/-- Result of a handler that does not return: no frame is handed to the
socket and the state bears the mark `lost`; the code has no meaning. -/
def lose (w : World) : Int × World :=
  (0, { w with lost := true })

/-! ## Path canonicalisation -/

/-- Linux `_fullpath`: `none` is the null result. In the relative branch a
result that does not fit leaves the current directory in the buffer (followed,
when the slash overwrote the terminator, by whatever bytes come next). -/
def _fullpath (env : Env) (relPath : String) (maxLen : Nat) : Option String :=
  if relPath.front = '/' then
    if relPath.utf8ByteSize ≤ maxLen - 1 then some relPath else none
  else
    match env.cwd with
    | none => none
    | some cwd =>
      if maxLen < cwd.utf8ByteSize + 1 then none
      else
        let len := cwd.utf8ByteSize
        let rlen := relPath.utf8ByteSize
        let slash : Bool := cwd.back ≠ '/' ∧ len < maxLen ∧ rlen ≠ 0
        let len1 := if slash then len + 1 else len
        if len1 + rlen < maxLen then
          some (cwd ++ (if slash then "/" else "") ++ relPath)
        else
          some (if slash then cwd ++ "/" ++ env.junk else cwd)

/-! ## libc number parsing (32-bit `long`) -/

/-- Character class `isspace` in the C locale. -/
def isspace (c : Char) : Bool :=
  c = ' ' || c = '\t' || c = '\n' || c = '\x0b' || c = '\x0c' || c = '\r'

/-- Value of a digit character in bases up to 36. -/
def digitValue (c : Char) : Option Nat :=
  if '0' ≤ c ∧ c ≤ '9' then some (c.toNat - 48)
  else if 'a' ≤ c ∧ c ≤ 'z' then some (c.toNat - 87)
  else if 'A' ≤ c ∧ c ≤ 'Z' then some (c.toNat - 55)
  else none

/-- Accumulation of the longest prefix of digits of the base. -/
def readDigits (base : Nat) : List Char → Nat → Nat
  | [], acc => acc
  | c :: cs, acc =>
    match digitValue c with
    | some d => if d < base then readDigits base cs (acc * base + d) else acc
    | none => acc

/-- The call `strtol(str, NULL, 10)`: leading white space, an optional sign,
decimal digits, clamped to the range of `long`; 0 when there is no digit. -/
def strtol (str : String) : Int :=
  match str.toList.dropWhile isspace with
  | '-' :: r => max INT_MIN (-(readDigits 10 r 0 : Int))
  | '+' :: r => min INT_MAX (readDigits 10 r 0 : Int)
  | cs => min INT_MAX (readDigits 10 cs 0 : Int)

/-- Unsigned magnitude read by `strtoul(str, NULL, 0)` after the sign: a `0x`
prefix selects base 16, a leading `0` base 8, anything else base 10. -/
def readAuto : List Char → Nat
  | '0' :: 'x' :: c :: r =>
    if (digitValue c).any (· < 16) then readDigits 16 (c :: r) 0 else 0
  | '0' :: 'X' :: c :: r =>
    if (digitValue c).any (· < 16) then readDigits 16 (c :: r) 0 else 0
  | '0' :: r => readDigits 8 r 0
  | cs => readDigits 10 cs 0

/-- The call `strtoul(str, NULL, 0)` with a 32-bit `unsigned long`: clamped to
`ULONG_MAX`, a minus sign negates modulo 2^32. -/
def strtoul (str : String) : Nat :=
  match str.toList.dropWhile isspace with
  | '-' :: r =>
    if 4294967295 < readAuto r then 4294967295 else (4294967296 - readAuto r) % 4294967296
  | '+' :: r => min 4294967295 (readAuto r)
  | cs => min 4294967295 (readAuto cs)

/-- Lowercase hexadecimal rendering padded with zeros to eight digits (`%08x`). -/
def hex8 (n : Nat) : String :=
  let ds := Nat.toDigits 16 n
  String.mk (List.replicate (8 - ds.length) '0' ++ ds)

/-! ## Command reception -/

/-- Loop of `getCmd` over the unread part `p` of the buffer, `argv` holding the
arguments found so far. The result is the returned count (-2 when the closing
quote is missing) and the argument array. The first argument bounds the number
of iterations; every iteration that continues consumes a character. -/
def getCmdLoop (maxArgs : Nat) : Nat → List Char → List String → Int × List String
  | 0, _, argv => (argv.length, argv)
  | fuel + 1, p, argv =>
    if p = [] ∨ maxArgs ≤ argv.length then (argv.length, argv)
    else
      match p.dropWhile (· = ' ') with
      | '"' :: q =>
        if '"' ∈ q then
          getCmdLoop maxArgs fuel ((q.dropWhile (· ≠ '"')).tail)
            (argv ++ [String.mk (q.takeWhile (· ≠ '"'))])
        else (-2, argv ++ [String.mk q])
      | p1 =>
        if p1.dropWhile (· ≠ ' ') = [] then
          ((argv.length : Int) + 1, argv ++ [String.mk (p1.takeWhile (· ≠ ' '))])
        else
          getCmdLoop maxArgs fuel ((p1.dropWhile (· ≠ ' ')).tail)
            (argv ++ [String.mk (p1.takeWhile (· ≠ ' '))])

/-- Tokenisation done by `getCmd` on a received command line (the bytes before
the terminating NUL). -/
def getCmd (maxArgs : Nat) (line : String) : Int × List String :=
  getCmdLoop maxArgs (line.length + 1) (line.toList.takeWhile (· ≠ '\x00')) []

/-! ## Inspection commands

The inspection commands read the paused VM through the Lua C API; `LuaVM`
holds what those calls return. The text printed by the writer of `ps` is taken
from it as it is; the listings `ll`, `lu`, `lg` and `watch` with its
value-graph walk and its writer are translated from the source. -/

/-- Key built by a typed selector of a field path and handed to `lua_gettable`. -/
inductive Key
  | number (n : LuaNumber)
  | string (s : String)
  | boolean (b : Bool)
  | lightuserdata (p : Nat)
  deriving DecidableEq, Repr

/-- Fields of `lua_Debug` filled by `lua_getinfo` with `">S"` for a function. -/
structure FuncInfo where
  what : String
  short_src : String
  linedefined : Int
  lastlinedefined : Int
  deriving DecidableEq, Repr

/-- The paused VM as the inspection commands see it. `getstack n` is the
success of `lua_getstack` at level `n` (0 is the frame of the hook); `func n`
is the function of the frame at level `n`, as `lua_getinfo` with `"f"` pushes
it, `fenv n` the identity of its environment table and `debugger` the identity
of the `debugger` table of the registry; `ps` is the text printed by the stack
writer, and `memory addr len` the `len` bytes read at an address, `none` when
the read faults and the process ends.
`stack` holds the stack slots of the running function as the hook finds them
(index 1 first, below the `debugger` table the hook pushes); `locals n` and
`upvalues n` are the (name, value) pairs `lua_getlocal` and `lua_getupvalue`
yield for the frame at level `n`, in slot order; `getglobal n name` is the
result of `lua_gettable` on the environment of that frame's function;
`getmetatable` is the metatable of a value, if any; `next p` lists the pairs
of the table with identity `p` in the order of `lua_next`; `gettable p k` is
the result of `lua_gettable` on that table; `objlen`, `funcInfo` and `status`
give the size of a userdata, the description of a function and the status of
a thread. -/
structure LuaVM where
  getstack : Int → Bool
  func : Int → Value
  fenv : Int → Nat
  debugger : Nat
  ps : String
  memory : Nat → Nat → Option String
  stack : List Value
  locals : Int → List (String × Value)
  upvalues : Int → List (String × Value)
  getglobal : Int → String → Value
  getmetatable : Value → Option Value
  next : Nat → List (Value × Value)
  gettable : Nat → Key → Value
  objlen : Nat → Nat
  funcInfo : Nat → FuncInfo
  status : Nat → Int

/-- Command `ps`. -/
def printStack (vm : LuaVM) (s : Int) (w : World) : Int × World :=
  SendOK s w vm.ps

/-! ### Variable encoding -/

/-- Lowercase hexadecimal digit of a value below 16. -/
def hexDigit (d : Nat) : Char :=
  if d < 10 then Char.ofNat (48 + d) else Char.ofNat (87 + d)

/-- Two lowercase hexadecimal digits of a byte. -/
def hexByte (b : Nat) : List Char :=
  [hexDigit (b / 16 % 16), hexDigit (b % 16)]

/-- Modelled from the spec: the directive `%Q` of the missing SocketBuf with
its two arguments, a buffer and a length: the first `n` bytes hex-encoded with
lowercase digits, two characters per byte. -/
def hexDump (bytes : List Nat) (n : Int) : String :=
  String.mk ((bytes.take n.toNat).flatMap hexByte)

/-- The function `printVar`: the optional name line, then the value line. The
length of a string is read through `(unsigned int *)&len` into an `int`. -/
def printVar (env : Env) (name : Option String) (v : Value) : String :=
  (match name with
    | some n => n ++ "\n"
    | none => "") ++
  match v with
  | Value.string addr bytes =>
    let len : Int := toInt32 bytes.length
    let truncLen : Int := if len > env.PROT_MAX_STR_LEN then env.PROT_MAX_STR_LEN else len
    "s0x" ++ hex8 addr ++ ":" ++ toString len ++ ":" ++ toString truncLen ++ ":" ++
      hexDump bytes truncLen ++ "\n"
  | Value.number n => "n" ++ env.fmtNumber n ++ "\n"
  | Value.table p => "t0x" ++ hex8 p ++ "\n"
  | Value.function p => "f0x" ++ hex8 p ++ "\n"
  | Value.userdata p => "u0x" ++ hex8 p ++ "\n"
  | Value.lightuserdata p => "U0x" ++ hex8 p ++ "\n"
  | Value.boolean b => "b" ++ (if b then "1" else "0") ++ "\n"
  | Value.thread p => "d0x" ++ hex8 p ++ "\n"
  | Value.nil => "l\n"

/-- The writer `w` of the WATCH reply: the value line, then for every kind but
nil the metatable flag and the tail of the kind. -/
def w (env : Env) (vm : LuaVM) (v : Value) : String :=
  let hasMeta : String := if (vm.getmetatable v).isSome then "1" else "0"
  printVar env none v ++
  match v with
  | Value.table p =>
    hasMeta ++ "\n" ++ String.join ((vm.next p).map fun kv =>
      printVar env none kv.1 ++ printVar env none kv.2)
  | Value.userdata p => hasMeta ++ "\n" ++ toString (toInt32 (vm.objlen p)) ++ "\n"
  | Value.function p =>
    hasMeta ++ "\n" ++ (vm.funcInfo p).what ++ "\n" ++ (vm.funcInfo p).short_src ++ "\n" ++
      toString (vm.funcInfo p).linedefined ++ "\n" ++
      toString (vm.funcInfo p).lastlinedefined ++ "\n"
  | Value.number _ => hasMeta ++ "\n"
  | Value.string _ _ => hasMeta ++ "\n"
  | Value.boolean _ => hasMeta ++ "\n"
  | Value.lightuserdata _ => hasMeta ++ "\n"
  | Value.thread p => hasMeta ++ "\n" ++ toString (vm.status p) ++ "\n"
  | Value.nil => ""

/-! ### Listings -/

/-- The Lua stack, top first. -/
abbrev Stack := List Value

/-- The stack when a command handler runs: the `debugger` table, pushed by the
hook, on top of the slots of the running function. -/
def luaStack (vm : LuaVM) : Stack :=
  Value.table vm.debugger :: vm.stack.reverse

/-- The writer `ll` over the pairs `lua_getlocal` yields for the frame and the
Lua stack: each value is pushed, printed under its name unless the name begins
with `(`, and popped. The result is the text and the stack left. -/
def ll (env : Env) (locals : List (String × Value)) (L : Stack) : String × Stack :=
  locals.foldl
    (fun acc e =>
      ((if e.1.toList.headD '\x00' ≠ '(' then
          acc.1 ++ printVar env (some e.1) ((e.2 :: acc.2).headD Value.nil)
        else acc.1),
        (e.2 :: acc.2).drop 1))
    ("", L)

/-- The writer `lu` over the pairs `lua_getupvalue` yields for the function on
top of the stack: each value is pushed, printed under its name, and popped. -/
def lu (env : Env) (upvalues : List (String × Value)) (L : Stack) : String × Stack :=
  upvalues.foldl
    (fun acc e =>
      (acc.1 ++ printVar env (some e.1) ((e.2 :: acc.2).headD Value.nil),
        (e.2 :: acc.2).drop 1))
    ("", L)

/-- Character class `isalpha` in the C locale. -/
def isalpha (c : Char) : Bool :=
  ('a' ≤ c ∧ c ≤ 'z') ∨ ('A' ≤ c ∧ c ≤ 'Z')

/-- Character class `isdigit`. -/
def isdigit (c : Char) : Bool :=
  '0' ≤ c ∧ c ≤ '9'

/-- Character class `isalnum` in the C locale. -/
def isalnum (c : Char) : Bool :=
  isalpha c || isdigit c

/-- The function `isID` on a C string (the characters before its NUL). -/
def isID : List Char → Bool
  | [] => false
  | c :: cs =>
    (isalpha c || c = '_') && (cs.dropWhile fun d => isalnum d || d = '_').isEmpty

/-- Text that `lua_tolstring` gives for a key that passes `lua_isstring`: the
bytes of a string, the rendering of a number; `none` for any other key. -/
def keyText (env : Env) : Value → Option (List Char)
  | Value.string _ bytes => some (bytes.map Char.ofNat)
  | Value.number n => some (env.fmtNumber n).toList
  | _ => none

/-- One round of the loop of `lg`, from the text and the stack so far:
`lua_next` replaces the key on the stack by the next key and its value, the
pair is printed when the key passes `lua_isstring`, its text has no NUL inside
and is an identifier, and the value is popped. -/
def lgStep (env : Env) (acc : String × Stack) (kv : Value × Value) : String × Stack :=
  ((match keyText env kv.1 with
    | some name =>
      if (name.takeWhile (· ≠ '\x00')).length = name.length ∧
          isID (name.takeWhile (· ≠ '\x00')) = true then
        acc.1 ++ printVar env (some (String.mk (name.takeWhile (· ≠ '\x00'))))
          ((kv.2 :: kv.1 :: acc.2.drop 1).headD Value.nil)
      else acc.1
    | none => acc.1),
    (kv.2 :: kv.1 :: acc.2.drop 1).drop 1)

/-- The key is the string with the given text. -/
def isStringKey (name : List Char) : Value → Bool
  | Value.string _ bytes => decide (bytes.map Char.ofNat = name)
  | _ => false

/-- Loop of `lg` over the pairs of the table in the order of `lua_next`, from
the text and the stack so far. A number key is turned into its text in place
by `lua_tolstring`, so the next `lua_next` is called with a string: it goes on
behind the pair that has this string for its key, when one follows (the first
argument holds the text looked for, and the pairs up to that one are passed
over), and otherwise it raises `invalid key to 'next'`, or starts again from
an earlier pair without end: the writer does not return, which `none` in the
place of the stack stands for. At the end of the table the last `lua_next`
pops the key. -/
def lgLoop (env : Env) :
    Option (List Char) → List (Value × Value) → String × Stack → String × Option Stack
  | none, [], acc => (acc.1, some (acc.2.drop 1))
  | some _, [], acc => (acc.1, none)
  | some name, kv :: rest, acc =>
    if isStringKey name kv.1 = true then lgLoop env none rest acc
    else lgLoop env (some name) rest acc
  | none, kv :: rest, acc =>
    lgLoop env
      (match kv.1 with
        | Value.number n => some (env.fmtNumber n).toList
        | _ => none)
      rest (lgStep env acc kv)

/-- The writer `lg` over the pairs of the environment table and the Lua stack
with that table on top: a nil key is pushed and the loop runs. The result is
the text printed and the stack left, `none` when the writer does not return. -/
def lg (env : Env) (pairs : List (Value × Value)) (L : Stack) : String × Option Stack :=
  lgLoop env none pairs ("", Value.nil :: L)

/-- Command `ll`. -/
def listLocals (env : Env) (vm : LuaVM) (argv : List String) (argc : Int) (s : Int)
    (w : World) : Int × World :=
  let level : Int := if argc > 0 then strtol (argv.getD 0 "") else 1
  let level := toInt32 (level - 1)
  if level ≠ 0 then
    if !vm.getstack level then
      SendErr s w ("No local variable info available at stack level " ++
        toString (toInt32 (level + 1)) ++ ".")
    else SendOK s w (ll env (vm.locals level) (luaStack vm)).1
  else SendOK s w (ll env (vm.locals 0) (luaStack vm)).1

/-- Command `lu`. -/
def listUpVars (env : Env) (vm : LuaVM) (argv : List String) (argc : Int) (s : Int)
    (w : World) : Int × World :=
  let level : Int := if argc > 0 then strtol (argv.getD 0 "") else 1
  let level := toInt32 (level - 1)
  if level ≠ 0 then
    if !vm.getstack level then
      SendErr s w ("No up variable info available at stack level " ++
        toString (toInt32 (level + 1)) ++ ".")
    else SendOK s w (lu env (vm.upvalues level) (vm.func level :: luaStack vm)).1
  else SendOK s w (lu env (vm.upvalues 0) (vm.func 0 :: luaStack vm)).1

/-- Tail of `listGlobals` once the frame is chosen: `lua_getinfo` pushes the
function of the frame and `lua_getfenv` its environment, a table; for a level
without a function (a lost tail call, as every negative level is) both push
nil and the assertion `lua_istable(L, -1)` fails. The reply is sent when the
writer has returned. -/
def listGlobalsAt (env : Env) (vm : LuaVM) (level : Int) (s : Int) (w : World) :
    Int × World :=
  match vm.func level with
  | Value.function _ =>
    match (lg env (vm.next (vm.fenv level))
        (Value.table (vm.fenv level) :: vm.func level :: luaStack vm)).2 with
    | some _ =>
      SendOK s w (lg env (vm.next (vm.fenv level))
        (Value.table (vm.fenv level) :: vm.func level :: luaStack vm)).1
    | none => lose w
  | _ => lose w

/-- Command `lg`. -/
def listGlobals (env : Env) (vm : LuaVM) (argv : List String) (argc : Int) (s : Int)
    (w : World) : Int × World :=
  let level : Int := if argc > 0 then strtol (argv.getD 0 "") else 1
  let level := toInt32 (level - 1)
  if level ≠ 0 then
    if !vm.getstack level then
      SendErr s w ("No global variable info available at stack level " ++
        toString (toInt32 (level + 1)) ++ ".")
    else listGlobalsAt env vm level s w
  else listGlobalsAt env vm 0 s w

/-! ### Number parsing with an end pointer -/

/-- Longest prefix of digits of the base: its value and the unread rest. -/
def scanDigits (base : Nat) : List Char → Nat → Nat × List Char
  | [], acc => (acc, [])
  | c :: cs, acc =>
    match digitValue c with
    | some d => if d < base then scanDigits base cs (acc * base + d) else (acc, c :: cs)
    | none => (acc, c :: cs)

/-- Magnitude read with base 0 (`0x` prefix: 16, leading `0`: 8, else 10) and
the unread rest; `none` when no digit converts. -/
def scanAuto : List Char → Option (Nat × List Char)
  | '0' :: x :: c :: r =>
    if (x = 'x' ∨ x = 'X') ∧ (digitValue c).any (· < 16) then some (scanDigits 16 (c :: r) 0)
    else some (scanDigits 8 (x :: c :: r) 0)
  | '0' :: r => some (scanDigits 8 r 0)
  | c :: r => if (digitValue c).any (· < 10) then some (scanDigits 10 (c :: r) 0) else none
  | [] => none

/-- The call `strtoul(str, &end, 0)` with a 32-bit `unsigned long`: the value
and the text from `end` on (the whole input when nothing converts). -/
def strtoulEnd (str : List Char) : Nat × List Char :=
  match str.dropWhile isspace with
  | '-' :: r =>
    match scanAuto r with
    | some (m, rest) =>
      (if 4294967295 < m then 4294967295 else (4294967296 - m) % 4294967296, rest)
    | none => (0, str)
  | '+' :: r =>
    match scanAuto r with
    | some (m, rest) => (min 4294967295 m, rest)
    | none => (0, str)
  | cs =>
    match scanAuto cs with
    | some (m, rest) => (min 4294967295 m, rest)
    | none => (0, str)

/-- The call `strtol(str, &end, 0)` with a 32-bit `long`: the value and the
text from `end` on (the whole input when nothing converts). -/
def strtolEnd (str : List Char) : Int × List Char :=
  match str.dropWhile isspace with
  | '-' :: r =>
    match scanAuto r with
    | some (m, rest) => (max INT_MIN (-(m : Int)), rest)
    | none => (0, str)
  | '+' :: r =>
    match scanAuto r with
    | some (m, rest) => (min INT_MAX (m : Int), rest)
    | none => (0, str)
  | cs =>
    match scanAuto cs with
    | some (m, rest) => (min INT_MAX (m : Int), rest)
    | none => (0, str)

/-! ### Root and field resolution of WATCH -/

/-- The test `!strncmp(p, name, nameLen)` on C strings. -/
def strncmpEq (p name : String) (nameLen : Nat) : Bool :=
  p.toList.take nameLen == name.toList.take nameLen

/-- The function `lookupVar`: `some none` is the result 0, `some (some v)`
the value it pushes. In scope `l` every local is visited and the last match is
kept, in scope `u` the first match ends the search, in scope `g` the name is
looked up in the environment of the function; for a level without a function
(a lost tail call) `lua_getinfo` and `lua_getfenv` push nil, the assertion
`lua_istable(L, -1)` fails and the call does not return: the result `none`. -/
def lookupVar (vm : LuaVM) (level : Int) (scope : Char) (name : String) (nameLen : Nat) :
    Option (Option Value) :=
  if level ≠ 1 ∧ !vm.getstack (level - 1) then some none
  else if scope = 'l' then
    some ((vm.locals (level - 1)).foldl
      (fun found e => if strncmpEq e.1 name nameLen then some e.2 else found) none)
  else if scope = 'u' then
    some (((vm.upvalues (level - 1)).find? fun e => strncmpEq e.1 name nameLen).map Prod.snd)
  else
    match vm.func (level - 1) with
    | Value.function _ =>
      if vm.getglobal (level - 1) (String.mk (name.toList.take nameLen)) = Value.nil then
        some none
      else some (some (vm.getglobal (level - 1) (String.mk (name.toList.take nameLen))))
    | _ => none

/-- The function `nextField`: the selector that follows the leading `|` and
the text from its end on; `none` is the result 0. -/
def nextField : List Char → Option (List Char × List Char)
  | '|' :: 's' :: '\'' :: r =>
    if '\'' ∈ r then
      if ((r.dropWhile (· ≠ '\'')).tail.head? = some '|' ∨ (r.dropWhile (· ≠ '\'')).tail = []) then
        some ('s' :: '\'' :: (r.takeWhile (· ≠ '\'') ++ ['\'']), (r.dropWhile (· ≠ '\'')).tail)
      else none
    else none
  | '|' :: c :: r => some (c :: r.takeWhile (· ≠ '|'), r.dropWhile (· ≠ '|'))
  | _ => none

/-- The function `getFieldValueByPtr`: the first value of the table, in the
order of `lua_next`, whose pointer (for a string its address) is `ptr`. -/
def getFieldValueByPtr (vm : LuaVM) (p : Nat) (ptr : Nat) : Option Value :=
  ((vm.next p).find? fun kv =>
    match kv.2 with
    | Value.table q => q = ptr
    | Value.function q => q = ptr
    | Value.thread q => q = ptr
    | Value.userdata q => q = ptr
    | Value.lightuserdata q => q = ptr
    | Value.string addr _ => addr = ptr
    | _ => false).map Prod.snd

/-- The function `getFieldValue` on the table with identity `p` and a selector:
`none` is the result 0, otherwise the value it pushes (nil included). -/
def getFieldValue (env : Env) (vm : LuaVM) (p : Nat) : List Char → Option Value
  | 'n' :: r =>
    if (env.strtod r).2 ≠ [] then none else some (vm.gettable p (Key.number (env.strtod r).1))
  | 's' :: '\'' :: r => some (vm.gettable p (Key.string (String.mk r.dropLast)))
  | 'b' :: r =>
    if (strtolEnd r).2 ≠ [] then none
    else some (vm.gettable p (Key.boolean (decide ((strtolEnd r).1 ≠ 0))))
  | 'U' :: r =>
    if (strtoulEnd r).2 ≠ [] then none
    else some (vm.gettable p (Key.lightuserdata (strtoulEnd r).1))
  | c :: r =>
    if c = 't' ∨ c = 'u' ∨ c = 'f' ∨ c = 'd' then
      if (strtoulEnd r).2 ≠ [] then none else getFieldValueByPtr vm p (strtoulEnd r).1
    else none
  | [] => none

/-- Loop of `lookupField` from the current value and the unread field path:
the value and the path left when the loop ends. The first argument bounds the
number of iterations; every iteration that continues consumes a selector. -/
def lookupFieldLoop (env : Env) (vm : LuaVM) : Nat → Value → List Char → Value × List Char
  | 0, cur, field => (cur, field)
  | fuel + 1, cur, field =>
    match nextField field with
    | none => (cur, field)
    | some (sub, rest) =>
      if sub.head? = some 'm' then
        match vm.getmetatable cur with
        | none => (cur, field)
        | some m => lookupFieldLoop env vm fuel m rest
      else
        match cur with
        | Value.table p =>
          match getFieldValue env vm p sub with
          | none => (cur, field)
          | some v => lookupFieldLoop env vm fuel v rest
        | _ => (cur, field)

/-- The function `lookupField`. On an empty path the assertion
`field && *field` fails and the call does not return: the result `none`.
Otherwise `some none` is the result 0 and `some (some v)` the value left on
top; a path walked to its end or down to a final `|` succeeds. -/
def lookupField (env : Env) (vm : LuaVM) (v : Value) (field : String) :
    Option (Option Value) :=
  if field = "" then none
  else if (lookupFieldLoop env vm field.length v field.toList).2 ≠ [] ∧
      (lookupFieldLoop env vm field.length v field.toList).2 ≠ ['|'] then some none
  else some (some (lookupFieldLoop env vm field.length v field.toList).1)

/-- Tail of `watch` once the root is on the stack: walk the field path if
there is one, send the reply, and store the resolved value in `cacheValue`
when asked to remember it (a nil value clears the field). When `lookupField`
does not return, neither does `watch`. -/
def watchReply (env : Env) (vm : LuaVM) (root : Value) (fields : Option String)
    (remember : Bool) (s : Int) (w : World) : Int × World :=
  match (match fields with
    | some f => lookupField env vm root f
    | none => some (some root)) with
  | none => lose w
  | some none => SendErr s w "Field is not found!"
  | some (some v) =>
    if remember then
      ((SendOK s w (RLdb.w env vm v)).1,
        { (SendOK s w (RLdb.w env vm v)).2 with
          cacheValue := if v = Value.nil then none else some v })
    else SendOK s w (RLdb.w env vm v)

/-- Command `w`. With three arguments or more the root is looked up by level,
scope and name (the text before the first `|`); the scope argument passes when
it is the one character `l`, `u` or `g`. Otherwise the root is `cacheValue`,
and the nil test is made on stack index 1, the first slot of the running
function (the `debugger` table when it has none). When `lookupVar` does not
return, neither does `watch`. -/
def watch (env : Env) (vm : LuaVM) (argv : List String) (argc : Int) (s : Int) (w : World) :
    Int × World :=
  if argc ≥ 3 then
    if strtol (argv.getD 0 "") < 1 ∨ (argv.getD 1 "").length > 1 ∨
        ¬ ((argv.getD 1 "").front = 'l' ∨ (argv.getD 1 "").front = 'u' ∨
          (argv.getD 1 "").front = 'g') then
      SendErr s w "Invalid argument!"
    else
      match lookupVar vm (strtol (argv.getD 0 "")) (argv.getD 1 "").front (argv.getD 2 "")
          (((argv.getD 2 "").toList.takeWhile (· ≠ '|')).length) with
      | none => lose w
      | some none => SendErr s w "Variable is not found!"
      | some (some v) =>
        watchReply env vm v
          (if '|' ∈ (argv.getD 2 "").toList then
            some (String.mk ((argv.getD 2 "").toList.dropWhile (· ≠ '|')))
           else none)
          (decide (argc > 3 ∧ argv.getD 3 "" = "r")) s w
  else
    if vm.stack.head? = some Value.nil then SendErr s w "Variable is not found!"
    else
      watchReply env vm (w.cacheValue.getD Value.nil)
        (if argc > 0 then some (argv.getD 0 "") else env.junkFields)
        (decide (argc > 1 ∧ argv.getD 1 "" = "r")) s w

/-! ### The Lua stack during WATCH

The functions of WATCH once more, with the Lua stack explicit: every push and
pop of the source is carried out on a `Stack`. -/

/-- The call `lua_replace(L, -2)`. -/
def lua_replace2 : Stack → Stack
  | a :: _ :: r => a :: r
  | L => L

/-- The call `lua_replace(L, -3)`. -/
def lua_replace3 : Stack → Stack
  | a :: b :: _ :: r => b :: a :: r
  | L => L

/-- The call `lua_remove(L, -2)`. -/
def lua_remove2 : Stack → Stack
  | a :: _ :: r => a :: r
  | L => L

/-- The call `lua_insert(L, -2)`. -/
def lua_insert2 : Stack → Stack
  | a :: b :: r => b :: a :: r
  | L => L

/-- The value `lua_pushliteral(L, "cacheValue")` pushes (its address plays no
part). -/
def cacheValueKey : Value :=
  Value.string 0 ("cacheValue".toList.map Char.toNat)

/-- Loop of `lookupVar` in scope `u` over the upvalues left and the stack: the
value is pushed; a match ends the loop with the value on the stack, otherwise
the value is popped. -/
def upvalueLoop (name : String) (nameLen : Nat) : List (String × Value) → Stack → Bool × Stack
  | [], L => (false, L)
  | e :: es, L =>
    if strncmpEq e.1 name nameLen then (true, e.2 :: L)
    else upvalueLoop name nameLen es ((e.2 :: L).drop 1)

/-- The function `lookupVar` on the stack: the result and the stack left. In
scope `l` a nil place holder is pushed and replaced by every matching local;
in scope `u` the function is pushed and removed after the loop; in scope `g`
the function, its environment (a table, or the assertion fails: `none`) and
the name are pushed and `lua_gettable` puts the value in the place of the
name. -/
def lookupVarStack (vm : LuaVM) (level : Int) (scope : Char) (name : String) (nameLen : Nat)
    (L : Stack) : Option (Bool × Stack) :=
  if level ≠ 1 ∧ !vm.getstack (level - 1) then some (false, L)
  else if scope = 'l' then
    let r := (vm.locals (level - 1)).foldl
      (fun (acc : Bool × Stack) e =>
        if strncmpEq e.1 name nameLen then (true, lua_replace2 (e.2 :: acc.2))
        else (acc.1, (e.2 :: acc.2).drop 1))
      (false, Value.nil :: L)
    if r.1 then some r else some (false, r.2.drop 1)
  else if scope = 'u' then
    let r := upvalueLoop name nameLen (vm.upvalues (level - 1)) (vm.func (level - 1) :: L)
    if r.1 then some (true, lua_remove2 r.2) else some (false, r.2.drop 1)
  else
    match vm.func (level - 1) with
    | Value.function _ =>
      let L4 := vm.getglobal (level - 1) (String.mk (name.toList.take nameLen)) ::
        Value.table (vm.fenv (level - 1)) :: vm.func (level - 1) :: L
      if L4.headD Value.nil = Value.nil then some (false, L4.drop 3)
      else some (true, (lua_replace3 L4).drop 1)
    | _ => none

/-- Loop of `lookupField` on the stack, the current value on top: the
metatable or the field is pushed and `lua_replace(L, -2)` puts it in the place
of the current value. -/
def lookupFieldLoopStack (env : Env) (vm : LuaVM) : Nat → Stack → List Char → Stack × List Char
  | 0, L, field => (L, field)
  | fuel + 1, L, field =>
    match nextField field with
    | none => (L, field)
    | some (sub, rest) =>
      if sub.head? = some 'm' then
        match vm.getmetatable (L.headD Value.nil) with
        | none => (L, field)
        | some m => lookupFieldLoopStack env vm fuel (lua_replace2 (m :: L)) rest
      else
        match L.headD Value.nil with
        | Value.table p =>
          match getFieldValue env vm p sub with
          | none => (L, field)
          | some v => lookupFieldLoopStack env vm fuel (lua_replace2 (v :: L)) rest
        | _ => (L, field)

/-- The function `lookupField` on the stack: the top is copied by
`lua_pushvalue(L, -1)`, the loop walks the path on the copy, and the copy is
popped when the path is not walked to its end; `none` when the assertion on
the path fails. -/
def lookupFieldStack (env : Env) (vm : LuaVM) (field : String) (L : Stack) :
    Option (Bool × Stack) :=
  if field = "" then none
  else if
      (lookupFieldLoopStack env vm field.length (L.headD Value.nil :: L) field.toList).2 ≠ [] ∧
      (lookupFieldLoopStack env vm field.length (L.headD Value.nil :: L) field.toList).2 ≠ ['|']
  then
    some (false,
      (lookupFieldLoopStack env vm field.length (L.headD Value.nil :: L) field.toList).1.drop 1)
  else
    some (true,
      (lookupFieldLoopStack env vm field.length (L.headD Value.nil :: L) field.toList).1)

/-- Tail of `watch` on the stack, the root on top: the field walk, the reply,
and then either the store into `cacheValue` (`lua_pushliteral`, `lua_insert`,
`lua_rawset` on index -4 or -3, and one more pop when there were fields) or
the pops. The store reaches the session when the table at that index is the
`debugger` table. When `lookupField` does not return, neither does `watch`,
and the stack given is the one `watch` was entered with, the root taken off. -/
def watchTailStack (env : Env) (vm : LuaVM) (fields : Option String) (remember : Bool)
    (s : Int) (w : World) (L : Stack) : (Int × World) × Stack :=
  match fields with
  | some f =>
    match lookupFieldStack env vm f L with
    | none => (lose w, L.drop 1)
    | some r =>
      if r.1 = false then (SendErr s w "Field is not found!", r.2.drop 1)
      else if remember then
        (((SendOK s w (RLdb.w env vm (r.2.headD Value.nil))).1,
          if (lua_insert2 (cacheValueKey :: r.2)).getD 3 Value.nil = Value.table vm.debugger then
            { (SendOK s w (RLdb.w env vm (r.2.headD Value.nil))).2 with
              cacheValue :=
                if r.2.headD Value.nil = Value.nil then none
                else some (r.2.headD Value.nil) }
          else (SendOK s w (RLdb.w env vm (r.2.headD Value.nil))).2),
          ((lua_insert2 (cacheValueKey :: r.2)).drop 2).drop 1)
      else (SendOK s w (RLdb.w env vm (r.2.headD Value.nil)), r.2.drop 2)
  | none =>
    if remember then
      (((SendOK s w (RLdb.w env vm (L.headD Value.nil))).1,
        if (lua_insert2 (cacheValueKey :: L)).getD 2 Value.nil = Value.table vm.debugger then
          { (SendOK s w (RLdb.w env vm (L.headD Value.nil))).2 with
            cacheValue :=
              if L.headD Value.nil = Value.nil then none else some (L.headD Value.nil) }
        else (SendOK s w (RLdb.w env vm (L.headD Value.nil))).2),
        (lua_insert2 (cacheValueKey :: L)).drop 2)
    else (SendOK s w (RLdb.w env vm (L.headD Value.nil)), L.drop 1)

/-- The function `watch` on the stack: the reply, the session and the stack
left. In the cached form `lua_rawget(L, -2)` reads `cacheValue` from the table
on top (the session's when that is the `debugger` table) and the nil test
looks at index 1, the bottom of the stack. When `lookupVar` does not return,
neither does `watch`, and the stack given is the one it was entered with. -/
def watchStack (env : Env) (vm : LuaVM) (argv : List String) (argc : Int) (s : Int)
    (w : World) (L : Stack) : (Int × World) × Stack :=
  if argc ≥ 3 then
    if strtol (argv.getD 0 "") < 1 ∨ (argv.getD 1 "").length > 1 ∨
        ¬ ((argv.getD 1 "").front = 'l' ∨ (argv.getD 1 "").front = 'u' ∨
          (argv.getD 1 "").front = 'g') then
      (SendErr s w "Invalid argument!", L)
    else
      match lookupVarStack vm (strtol (argv.getD 0 "")) (argv.getD 1 "").front
          (argv.getD 2 "") (((argv.getD 2 "").toList.takeWhile (· ≠ '|')).length) L with
      | none => (lose w, L)
      | some r =>
        if r.1 = false then (SendErr s w "Variable is not found!", r.2)
        else
          watchTailStack env vm
            (if '|' ∈ (argv.getD 2 "").toList then
              some (String.mk ((argv.getD 2 "").toList.dropWhile (· ≠ '|')))
             else none)
            (decide (argc > 3 ∧ argv.getD 3 "" = "r")) s w r.2
  else
    if ((if L.headD Value.nil = Value.table vm.debugger then w.cacheValue.getD Value.nil
        else Value.nil) :: L).getLast? = some Value.nil then
      (SendErr s w "Variable is not found!",
        ((if L.headD Value.nil = Value.table vm.debugger then w.cacheValue.getD Value.nil
          else Value.nil) :: L).drop 1)
    else
      watchTailStack env vm
        (if argc > 0 then some (argv.getD 0 "") else env.junkFields)
        (decide (argc > 1 ∧ argv.getD 1 "" = "r")) s w
        ((if L.headD Value.nil = Value.table vm.debugger then w.cacheValue.getD Value.nil
          else Value.nil) :: L)

/-- Command `e`: not implemented, it reports -2 and writes nothing. -/
def exec (_argv : List String) (_argc : Int) (_s : Int) (w : World) : Int × World :=
  (-2, w)

/-- Command `m`. The bytes are read at the address the command names; where
that read faults the process ends and nothing is sent. -/
def watchMemory (vm : LuaVM) (argv : List String) (argc : Int) (s : Int) (w : World) :
    Int × World :=
  if argc < 2 ∨ strtoul (argv.getD 0 "") = 0 ∨ strtoul (argv.getD 1 "") = 0
      ∨ (strtoul (argv.getD 0 "") + strtoul (argv.getD 1 "")) % 4294967296
          < strtoul (argv.getD 0 "") then
    SendErr s w "Invalid argument!"
  else
    match vm.memory (strtoul (argv.getD 0 "")) (strtoul (argv.getD 1 "")) with
    | none => lose w
    | some bytes =>
      send s w (Frame.OK (hex8 (strtoul (argv.getD 1 "")) ++ "\n" ++ bytes))

/-! ### The payload of WATCH line by line -/

/-- The value line that `printVar` writes for a value, without its newline. -/
def valueLine (env : Env) (v : Value) : String :=
  match v with
  | Value.string addr bytes =>
    "s0x" ++ hex8 addr ++ ":" ++ toString (toInt32 bytes.length) ++ ":" ++
      toString (if toInt32 bytes.length > env.PROT_MAX_STR_LEN then (env.PROT_MAX_STR_LEN : Int)
        else toInt32 bytes.length) ++ ":" ++
      hexDump bytes (if toInt32 bytes.length > env.PROT_MAX_STR_LEN then
        (env.PROT_MAX_STR_LEN : Int) else toInt32 bytes.length)
  | Value.number n => "n" ++ env.fmtNumber n
  | Value.table p => "t0x" ++ hex8 p
  | Value.function p => "f0x" ++ hex8 p
  | Value.userdata p => "u0x" ++ hex8 p
  | Value.lightuserdata p => "U0x" ++ hex8 p
  | Value.boolean b => "b" ++ (if b then "1" else "0")
  | Value.thread p => "d0x" ++ hex8 p
  | Value.nil => "l"

/-- The kind tag, the first character of the value line that `printVar`
writes for a value. -/
def kindTag : Value → Char
  | Value.string _ _ => 's'
  | Value.number _ => 'n'
  | Value.table _ => 't'
  | Value.function _ => 'f'
  | Value.userdata _ => 'u'
  | Value.lightuserdata _ => 'U'
  | Value.boolean _ => 'b'
  | Value.thread _ => 'd'
  | Value.nil => 'l'

/-- The lines that the writer `w` hands to `SB_Print`, in order, each without
its newline. -/
def wLines (env : Env) (vm : LuaVM) (v : Value) : List String :=
  valueLine env v ::
    match v with
    | Value.nil => []
    | Value.table p =>
      (if (vm.getmetatable v).isSome then "1" else "0") ::
        (vm.next p).flatMap fun kv => [valueLine env kv.1, valueLine env kv.2]
    | Value.userdata p =>
      [if (vm.getmetatable v).isSome then "1" else "0", toString (toInt32 (vm.objlen p))]
    | Value.function p =>
      [if (vm.getmetatable v).isSome then "1" else "0", (vm.funcInfo p).what,
        (vm.funcInfo p).short_src, toString (vm.funcInfo p).linedefined,
        toString (vm.funcInfo p).lastlinedefined]
    | Value.thread p =>
      [if (vm.getmetatable v).isSome then "1" else "0", toString (vm.status p)]
    | _ => [if (vm.getmetatable v).isSome then "1" else "0"]

/-! ## Connection set-up -/

/-- The call `atoi(str)`. -/
def atoi (str : String) : Int :=
  strtol str

/-- The address and the port that `luaopen_RLdb` hands to `Connect`, from the
value of the environment variable REMOTE_LDB (`none` when it is not set): the
first 63 characters are split at the first `:`, and the port text goes through
`atoi` and the cast to `unsigned short`. -/
def remoteEndpoint (REMOTE_LDB : Option String) : String × Nat :=
  match REMOTE_LDB with
  | none => ("127.0.0.1", 2679)
  | some v =>
    if ':' ∈ (v.toList.takeWhile (· ≠ '\x00')).take 63 then
      if ((v.toList.takeWhile (· ≠ '\x00')).take 63).head? ≠ some ':' then
        (String.mk (((v.toList.takeWhile (· ≠ '\x00')).take 63).takeWhile (· ≠ ':')),
          if ((((v.toList.takeWhile (· ≠ '\x00')).take 63).dropWhile (· ≠ ':')).tail) ≠ [] then
            (atoi (String.mk ((((v.toList.takeWhile (· ≠ '\x00')).take 63).dropWhile
              (· ≠ ':')).tail)) % 65536).toNat
          else 2679)
      else
        ("127.0.0.1",
          (atoi (String.mk (((v.toList.takeWhile (· ≠ '\x00')).take 63).tail)) % 65536).toNat)
    else (String.mk ((v.toList.takeWhile (· ≠ '\x00')).take 63), 2679)

/-! ## Breakpoint index -/

/-- Table operations of `setBreakPoint` on the canonical path: fetch the line
table of the path (creating and storing an empty one when the path is new),
store `true` or nil under the line, and on deletion drop the path entry when
its table has become empty. -/
def storeBreakPoint (bps : Tbl String (Tbl Int Bool)) (path : String) (line : Int)
    (del : Bool) : Tbl String (Tbl Int Bool) :=
  let t : Tbl Int Bool := (Tbl.rawget bps path).getD []
  let bps1 := if (Tbl.rawget bps path).isNone then Tbl.rawset bps path (some []) else bps
  let t1 := Tbl.rawset t line (if del then none else some true)
  let bps2 := Tbl.rawset bps1 path (some t1)
  if del ∧ !Tbl.hasNext t1 then Tbl.rawset bps2 path none else bps2

/-- Commands `sb` (`del = false`) and `db` (`del = true`). -/
def setBreakPoint (env : Env) (src : String) (argv : List String) (argc : Int)
    (del : Bool) (s : Int) (w : World) : Int × World :=
  if argc < 2 ∨ strtol (argv.getD 1 "") ≤ 0 then SendErr s w "Invalid argument!"
  else
    match _fullpath env (if argv.getD 0 "" = "." then src else argv.getD 0 "")
        env.MAX_PATH with
    | none => SendErr s w "Invalid path!"
    | some path =>
      if !env.access path then SendErr s w "Invalid path!"
      else
        let bps := storeBreakPoint w.breakpoints path (strtol (argv.getD 1 "")) del
        SendOK s { w with breakpoints := bps } ""

/-- Keys of a table sorted by `table.sort`, as collected by `sortKey`. -/
def sortKey {κ ν : Type} [LinearOrder κ] (t : Tbl κ ν) : List κ :=
  (Tbl.keys t).insertionSort (· ≤ ·)

/-- Pairs visited by the writer `lb`: every path in sorted order, and for each
the lines of its table in sorted order. -/
def lbPairs (bps : Tbl String (Tbl Int Bool)) : List (String × Int) :=
  (sortKey bps).flatMap fun path =>
    (sortKey ((Tbl.rawget bps path).getD [])).map fun line => (path, line)

/-- Text printed by the writer `lb`: `<path>\n<line>\n` for every visited pair. -/
def lb (bps : Tbl String (Tbl Int Bool)) : String :=
  String.join ((lbPairs bps).map fun e => e.1 ++ "\n" ++ toString e.2 ++ "\n")

/-- Command `lb`. -/
def listBreakPoints (s : Int) (w : World) : Int × World :=
  SendOK s w (lb w.breakpoints)

/-! ## Prompt loop, breakpoint check and hook -/

/-- Outcome of one command of the prompt loop, before the loop decides what to
do next: leave the loop with a resume mode, or carry on with the return code
and state left by the handler. -/
inductive Dispatch
  | resume (cmd : CMD) (w : World)
  | handled (r : Int × World)

/-- The chain of handlers of `prompt` for the commands that do not resume. -/
def handle (env : Env) (vm : LuaVM) (ar : lua_Debug) (s : Int) (pCmd : String)
    (pArgv : List String) (argc : Int) (w : World) : Int × World :=
  if pCmd = "ll" then listLocals env vm pArgv argc s w
  else if pCmd = "lu" then listUpVars env vm pArgv argc s w
  else if pCmd = "lg" then listGlobals env vm pArgv argc s w
  else if pCmd = "w" then watch env vm pArgv argc s w
  else if pCmd = "ps" then printStack vm s w
  else if pCmd = "sb" then setBreakPoint env ar.short_src pArgv argc false s w
  else if pCmd = "db" then setBreakPoint env ar.short_src pArgv argc true s w
  else if pCmd = "lb" then listBreakPoints s w
  else if pCmd = "e" then exec pArgv argc s w
  else if pCmd = "m" then watchMemory vm pArgv argc s w
  else SendErr s w "Invalid command!"

/-- Body of the loop of `prompt` after a successful `getCmd`: the dispatch on
the first argument. `argc` is the value returned by `getCmd`. -/
def dispatch (env : Env) (vm : LuaVM) (ar : lua_Debug) (s : Int)
    (argc : Int) (argv : List String) (w : World) : Dispatch :=
  if argc = 0 then Dispatch.handled (SendErr s w "Invalid command!")
  else if argv.getD 0 "" = "s" then Dispatch.resume CMD.STEP w
  else if argv.getD 0 "" = "o" then Dispatch.resume CMD.OVER w
  else if argv.getD 0 "" = "f" then Dispatch.resume CMD.FINISH w
  else if argv.getD 0 "" = "r" then
    if !Tbl.hasNext w.breakpoints then Dispatch.resume CMD.RUN { w with hookmask := 0 }
    else Dispatch.resume CMD.RUN w
  else Dispatch.handled (handle env vm ar s (argv.getD 0 "") argv.tail (argc - 1) w)

/-- The handler whose result is `r` did not return: it left the mark `lost` on
a state that did not bear it. -/
def abandoned (w : World) (r : Int × World) : Bool :=
  r.2.lost && !w.lost

/-- The `while (1)` loop of `prompt`, by recursion on the pending results of
`RecvCmd`: a failed or missing reception ends the loop with -1, a resume
command stores the mode in `info->cmd` and ends it with 0, a handler that
reports a negative code ends it with -1, anything else reads the next
command. A handler that does not return ends the run of the loop: no code is
tested, `info->cmd` is not written and nothing more is read or sent; the
state it left, with the mark `lost`, stands for that. -/
def promptLoop (env : Env) (vm : LuaVM) (ar : lua_Debug) (s : Int) :
    List (Option String) → World → Int × World
  | [], w => (-1, { w with recvs := [] })
  | none :: rest, w => (-1, { w with recvs := rest })
  | some line :: rest, w =>
    if s = INVALID_SOCKET then (-1, { w with recvs := some line :: rest })
    else
      match dispatch env vm ar s (getCmd env.PROT_MAX_ARGS line).1
          (getCmd env.PROT_MAX_ARGS line).2 w with
      | Dispatch.resume cmd w1 =>
        (0, { w1 with info := { w1.info with cmd := cmd }, recvs := rest })
      | Dispatch.handled r =>
        if abandoned w r = true then (0, { r.2 with recvs := rest })
        else if r.1 < 0 then (-1, { r.2 with recvs := rest })
        else promptLoop env vm ar s rest r.2

/-- The function `prompt`: announce the break, then serve commands until a
resume command arrives. -/
def prompt (env : Env) (vm : LuaVM) (ar : lua_Debug) (w : World) : Int × World :=
  if (SendBreak w.info.s w ar.short_src ar.currentline).1 < 0 then
    (-1, (SendBreak w.info.s w ar.short_src ar.currentline).2)
  else
    promptLoop env vm ar w.info.s
      (SendBreak w.info.s w ar.short_src ar.currentline).2.recvs
      (SendBreak w.info.s w ar.short_src ar.currentline).2

/-- Membership test of `checkBreakPoint`: the canonical path of the current
source is a key of `breakpoints` and its table holds the current line. -/
def breakpointHit (env : Env) (ar : lua_Debug) (w : World) : Bool :=
  match _fullpath env ar.short_src env.MAX_PATH with
  | none => false
  | some path =>
    match Tbl.rawget w.breakpoints path with
    | some t => (Tbl.rawget t ar.currentline).isSome
    | none => false

/-- The function `checkBreakPoint`. -/
def checkBreakPoint (env : Env) (vm : LuaVM) (ar : lua_Debug) (w : World) : Int × World :=
  match _fullpath env ar.short_src env.MAX_PATH with
  | some path =>
    let breakpoint : Bool :=
      match Tbl.rawget w.breakpoints path with
      | some t => (Tbl.rawget t ar.currentline).isSome
      | none => false
    if breakpoint then prompt env vm ar { w with info := { w.info with level := 0 } }
    else (0, w)
  | none => (0, w)

/-- The function `hook`. -/
def hook (env : Env) (vm : LuaVM) (ar : lua_Debug) (w : World) : World :=
  match ar.event with
  | Event.LUA_HOOKLINE =>
    let r : Int × World :=
      match w.info.cmd with
      | CMD.STEP => prompt env vm ar { w with info := { w.info with level := 0 } }
      | CMD.OVER =>
        if w.info.level = 0 then prompt env vm ar w else checkBreakPoint env vm ar w
      | CMD.FINISH => (0, w)
      | CMD.RUN => checkBreakPoint env vm ar w
    if r.1 < 0 then
      { r.2 with hookmask := 0, info := { r.2.info with s := INVALID_SOCKET } }
    else r.2
  | Event.LUA_HOOKCALL =>
    { w with info := { w.info with level := toInt32 (w.info.level + 1) } }
  | _ =>
    if w.info.level ≠ 0 then
      { w with info := { w.info with level := toInt32 (w.info.level - 1) } }
    else w

/-- Mask bit under which the VM delivers an event. -/
def maskOf : Event → Nat
  | Event.LUA_HOOKCALL => LUA_MASKCALL
  | Event.LUA_HOOKRET => LUA_MASKRET
  | Event.LUA_HOOKTAILRET => LUA_MASKRET
  | Event.LUA_HOOKLINE => LUA_MASKLINE

/-- One hook call as the VM makes it: the environment and VM view at that
moment and the activation record. -/
structure HookCall where
  env : Env
  vm : LuaVM
  ar : lua_Debug

/-- Delivery of an event by the VM: the hook runs only when the mask installed
by `lua_sethook` contains the event. -/
def deliver (c : HookCall) (w : World) : World :=
  if w.hookmask &&& maskOf c.ar.event ≠ 0 then hook c.env c.vm c.ar w else w

/-- State after a sequence of events delivered by the VM. -/
def run (w : World) (cs : List HookCall) : World :=
  cs.foldl (fun w c => deliver c w) w

/-- State after a sequence of hook invocations (the hook called on every event). -/
def hooks (w : World) (cs : List HookCall) : World :=
  cs.foldl (fun w c => hook c.env c.vm c.ar w) w

/-! ## Vocabulary of the properties -/

/-- Synchronous replies: `OK` and `ER` frames. -/
def Frame.isReply : Frame → Bool
  | Frame.OK _ => true
  | Frame.ER _ => true
  | _ => false

/-- Asynchronous break announcements. -/
def Frame.isBreak : Frame → Bool
  | Frame.BR _ _ => true
  | _ => false

/-- The current source canonicalises to a key of `breakpoints` whose line table
holds the current line. -/
def AtBreakpoint (env : Env) (ar : lua_Debug) (w : World) : Prop :=
  ∃ path t, _fullpath env ar.short_src env.MAX_PATH = some path ∧
    Tbl.rawget w.breakpoints path = some t ∧ (Tbl.rawget t ar.currentline).isSome = true

/-- Condition under which a line event is to stop and prompt. -/
def ShouldPrompt (env : Env) (ar : lua_Debug) (w : World) : Prop :=
  w.info.cmd = CMD.STEP ∨ (w.info.cmd = CMD.OVER ∧ w.info.level = 0) ∨
    ((w.info.cmd = CMD.OVER ∨ w.info.cmd = CMD.RUN) ∧ AtBreakpoint env ar w)

/-- The hook announced a break for the event: the first thing it handed to the
socket is the `BR` frame of the current source and line. -/
def Prompted (env : Env) (vm : LuaVM) (ar : lua_Debug) (w : World) : Prop :=
  ∃ ok rest, (hook env vm ar w).out =
    w.out ++ (Frame.BR ar.short_src ar.currentline, ok) :: rest

/-- The state with `level` reset to 0. -/
def World.resetLevel (w : World) : World :=
  { w with info := { w.info with level := 0 } }

/-- The detach done by the hook after a failed prompt. -/
def World.detach (w : World) : World :=
  { w with hookmask := 0, info := { w.info with s := INVALID_SOCKET } }

/-- Shape of the state after a handler that sent one reply. -/
def Replied (w : World) (r : Int × World) : Prop :=
  ∃ f ok sends' bps' cache', Frame.isReply f = true ∧
    r = ((if ok = true then 0 else -1),
      { w with sends := sends', out := w.out ++ [(f, ok)], breakpoints := bps',
               cacheValue := cache' })

/-- Guarantees of a run of the prompt loop from `w` with result `r`: the return
code is 0 or -1, the socket handle and `level` are untouched, `cmd` is
untouched when the loop fails, and only reply frames are handed to the socket. -/
structure LoopOutcome (w : World) (r : Int × World) : Prop where
  code : r.1 = 0 ∨ r.1 = -1
  sock : r.2.info.s = w.info.s
  level : r.2.info.level = w.info.level
  cmd : r.1 < 0 → r.2.info.cmd = w.info.cmd
  out : ∃ l, r.2.out = w.out ++ l ∧ ∀ x ∈ l, Frame.isReply x.1 = true

/-- What the hook does with the result of a prompt: detach after a failure. -/
def afterPrompt (r : Int × World) : World :=
  if r.1 < 0 then r.2.detach else r.2

/-- The state with `level` set to a given value. -/
def World.withLevel (w : World) (d : Int) : World :=
  { w with info := { w.info with level := d } }

/-- Well-nested sequences at depth `d`: every return closes an open call, line
events occur only inside a call (depth above 0), and all calls are closed at
the end. -/
def nested : Nat → List HookCall → Bool
  | d, [] => d == 0
  | d, c :: cs =>
    match c.ar.event with
    | Event.LUA_HOOKCALL => nested (d + 1) cs
    | Event.LUA_HOOKLINE => decide (0 < d) && nested d cs
    | _ => decide (0 < d) && nested (d - 1) cs

/-- One `sb` or `db` command as `prompt` hands it to `setBreakPoint`: the
environment, the source of the paused frame, the arguments and the socket. -/
structure BreakCmd where
  env : Env
  src : String
  argv : List String
  argc : Int
  del : Bool
  s : Int

/-- State after a sequence of `sb`/`db` commands. -/
def breakCmds (w : World) (cs : List BreakCmd) : World :=
  cs.foldl (fun w c => (setBreakPoint c.env c.src c.argv c.argc c.del c.s w).2) w

/-- No key of the table maps to an empty line table. -/
def NoEmptyTable (bps : Tbl String (Tbl Int Bool)) : Prop :=
  ∀ p t, Tbl.rawget bps p = some t → t ≠ []

/-- Membership of a (path, line) pair in the breakpoints table: the path is a
key and its line table holds the line. -/
def hasBreakpoint (bps : Tbl String (Tbl Int Bool)) (path : String) (line : Int) : Bool :=
  match Tbl.rawget bps path with
  | some t => (Tbl.rawget t line).isSome
  | none => false

/-- The reply `setBreakPoint` is to send for its arguments. -/
def setBreakPointReply (env : Env) (src : String) (argv : List String) (argc : Int) : Frame :=
  if argc < 2 ∨ strtol (argv.getD 1 "") ≤ 0 then Frame.ER "Invalid argument!"
  else
    match _fullpath env (if argv.getD 0 "" = "." then src else argv.getD 0 "")
        env.MAX_PATH with
    | none => Frame.ER "Invalid path!"
    | some path => if !env.access path then Frame.ER "Invalid path!" else Frame.OK ""

/-- Well-formedness of the representation of the breakpoints table: a Lua
table holds each key once, both the path table and every line table. -/
def BreakpointsWF (bps : Tbl String (Tbl Int Bool)) : Prop :=
  (Tbl.keys bps).Nodup ∧ ∀ e ∈ bps, (Tbl.keys e.2).Nodup

/-- Lexicographic order on (path, line) pairs: paths as strings, lines as
integers. -/
def pairLt (a b : String × Int) : Prop :=
  a.1 < b.1 ∨ (a.1 = b.1 ∧ a.2 < b.2)

/-! ## The controller: decoding of a string value -/

namespace Controller

/-- Value of a `char` of the wire text (signed, 8 bits). -/
def charVal (c : Char) : Int :=
  if c.toNat % 256 < 128 then (c.toNat % 256 : Nat) else ((c.toNat % 256 : Nat) : Int) - 256

/-- The function `output`: the first `length` characters go to the standard
output, here the list of the bytes written. -/
def output (str : List Char) (length : Int) : List Nat :=
  (str.take length.toNat).map fun c => c.toNat % 256

/-- The call `fputs(text, stdout)`. -/
def fputs (text : String) : List Nat :=
  text.toList.map fun c => c.toNat % 256

/-- The macro `dec`: value of a lowercase hexadecimal digit. -/
def dec (ch : Char) : Int :=
  if charVal ch ≥ 48 ∧ charVal ch ≤ 57 then charVal ch - 48 else charVal ch - 97 + 10

/-- The macro `decode` followed by `fputc`: two digits combined into a `char`,
written as an unsigned byte. -/
def decode (s0 s1 : Char) : Nat :=
  (Int.lor (dec s0 * 16) (dec s1) % 256).toNat

/-- The function `outputEncStr` on the C string at `str` and a length: the
bytes written, `none` when it reads past the terminator of the string. -/
def outputEncStr : List Char → Int → Option (List Nat)
  | c0 :: c1 :: rest, length =>
    if 0 < length then (outputEncStr rest (length - 2)).map (decode c0 c1 :: ·) else some []
  | [c0], length =>
    if 0 < length then (if length ≤ 2 then some [decode c0 '\x00'] else none) else some []
  | [], length => if 0 < length then none else some []

/-- The function `outputStr` on the C string at `str` (the text of the value
after its kind tag, up to the terminator of the buffer) and the length of the
value: the return code and the bytes written. The three fields before the hex
text end at the first `:` found by `strchr`, which may not lie past the end
of the value; the hex text must be twice as long as the third field says. -/
def outputStr (str : List Char) (length : Int) : Option (Int × List Nat) :=
  let f1 := str.takeWhile (· ≠ ':')
  let s1 := (str.dropWhile (· ≠ ':')).tail
  let n1 : Int := length - (f1.length + 1)
  let f2 := s1.takeWhile (· ≠ ':')
  let s2 := (s1.dropWhile (· ≠ ':')).tail
  let n2 : Int := n1 - (f2.length + 1)
  let f3 := s2.takeWhile (· ≠ ':')
  let s3 := (s2.dropWhile (· ≠ ':')).tail
  let n3 : Int := n2 - (f3.length + 1)
  let o1 := output str f1.length ++ fputs " Length:"
  let o2 := o1 ++ output s1 f2.length ++ fputs " Truncated-to:"
  let o3 := o2 ++ output s2 f3.length ++ fputs " Content:"
  if ':' ∉ str ∨ (f1.length : Int) > length then some (-1, [])
  else if ':' ∉ s1 ∨ (f2.length : Int) > n1 then some (-1, o1)
  else if ':' ∉ s2 ∨ (f3.length : Int) > n2 then some (-1, o2)
  else if n3 ≠ toInt32 (strtol (String.mk s2) * 2) then some (-1, o3)
  else (outputEncStr s3 n3).map fun bytes => (0, o3 ++ bytes)

end Controller

/-! ## The controller: the command line -/

namespace Controller

/-- Most tokens `extractArgs` stores. -/
def MAX_ARGS : Nat := 8

/-- Loop of `extractArgs` over the unread part `p` of the line (the characters
before its terminating NUL), `argv` holding the tokens found so far. The result
is the returned count (-1 when a closing quote is missing) and the tokens;
`none` when the scan moves past the terminating NUL. A token that does not
start with `"` ends at the next white space, which is overwritten by NUL; one
that does ends after the next `"`, and the character after that quote is
overwritten by NUL and skipped without a look at it. The first argument bounds
the number of rounds; every round that goes on consumes a character. -/
def extractArgsLoop : Nat → List Char → List String → Option (Int × List String)
  | 0, _, argv => some (argv.length, argv)
  | fuel + 1, p, argv =>
    if p = [] ∨ MAX_ARGS ≤ argv.length then some (argv.length, argv)
    else
      match p.dropWhile isspace with
      | [] => some (argv.length, argv)
      | '"' :: q =>
        if '"' ∈ q then
          match (q.dropWhile (· ≠ '"')).tail with
          | [] => none
          | _ :: rest =>
            extractArgsLoop fuel rest
              (argv ++ [String.mk ('"' :: (q.takeWhile (· ≠ '"') ++ ['"']))])
        else some (-1, argv ++ [String.mk ('"' :: q)])
      | c :: q =>
        extractArgsLoop fuel ((c :: q).dropWhile fun d => !isspace d).tail
          (argv ++ [String.mk ((c :: q).takeWhile fun d => !isspace d)])

/-- The function `extractArgs` on an input line. -/
def extractArgs (buf : String) : Option (Int × List String) :=
  extractArgsLoop (buf.length + 1) (buf.toList.takeWhile (· ≠ '\x00')) []

/-- The enumeration `CmdType`. -/
inductive CmdType
  | CMD_INVALID
  | CMD_STEP
  | CMD_OVER
  | CMD_RUN
  | CMD_LISTL
  | CMD_LISTU
  | CMD_LISTG
  | CMD_PRINTSTACK
  | CMD_WATCH
  | CMD_EXEC
  | CMD_SETB
  | CMD_DELB
  | CMD_LISTB
  | CMD_MEMORY
  | CMD_HELP
  deriving DecidableEq, Repr

/-- The function `allDigits`: no character of the string is left after its
leading digits. -/
def allDigits (str : String) : Bool :=
  (str.toList.dropWhile isdigit).isEmpty

/-- Character `str[i]` of a C string, the terminating NUL at its end. -/
def charAt (str : String) (i : Nat) : Char :=
  str.toList.getD i '\x00'

/-- The function `validateArgs` on the tokens of a line and their count. -/
def validateArgs (argv : List String) (argc : Int) : CmdType :=
  if argc > 0 then
    if argv.getD 0 "" = "s" then
      if argc = 1 then CmdType.CMD_STEP else CmdType.CMD_INVALID
    else if argv.getD 0 "" = "o" then
      if argc = 1 then CmdType.CMD_OVER else CmdType.CMD_INVALID
    else if argv.getD 0 "" = "r" then
      if argc = 1 then CmdType.CMD_RUN else CmdType.CMD_INVALID
    else if argv.getD 0 "" = "ll" then
      if argc = 2 ∧ allDigits (argv.getD 1 "") = true then CmdType.CMD_LISTL
      else CmdType.CMD_INVALID
    else if argv.getD 0 "" = "lu" then
      if argc = 2 ∧ allDigits (argv.getD 1 "") = true then CmdType.CMD_LISTU
      else CmdType.CMD_INVALID
    else if argv.getD 0 "" = "lg" then
      if argc = 2 ∧ allDigits (argv.getD 1 "") = true then CmdType.CMD_LISTG
      else CmdType.CMD_INVALID
    else if argv.getD 0 "" = "w" then
      if argc > 1 then
        if allDigits (argv.getD 1 "") = true ∧ argc > 3 ∧ charAt (argv.getD 2 "") 1 = '\x00' ∧
            (charAt (argv.getD 2 "") 0 = 'l' ∨ charAt (argv.getD 2 "") 0 = 'u' ∨
              charAt (argv.getD 2 "") 0 = 'g') then
          if argc = 5 then
            if charAt (argv.getD 4 "") 0 = 'r' ∧ charAt (argv.getD 4 "") 1 = '\x00' then
              CmdType.CMD_WATCH
            else CmdType.CMD_INVALID
          else if argc = 4 then CmdType.CMD_WATCH
          else CmdType.CMD_INVALID
        else if charAt (argv.getD 1 "") 0 = '|' then
          if argc = 3 then
            if charAt (argv.getD 2 "") 0 = 'r' ∧ charAt (argv.getD 2 "") 1 = '\x00' then
              CmdType.CMD_WATCH
            else CmdType.CMD_INVALID
          else if argc = 2 then CmdType.CMD_WATCH
          else CmdType.CMD_INVALID
        else CmdType.CMD_INVALID
      else CmdType.CMD_INVALID
    else if argv.getD 0 "" = "ps" then
      if argc = 1 then CmdType.CMD_PRINTSTACK else CmdType.CMD_INVALID
    else if argv.getD 0 "" = "sb" then
      if argc = 3 ∧ allDigits (argv.getD 2 "") = true then CmdType.CMD_SETB
      else CmdType.CMD_INVALID
    else if argv.getD 0 "" = "db" then
      if argc = 3 ∧ allDigits (argv.getD 2 "") = true then CmdType.CMD_DELB
      else CmdType.CMD_INVALID
    else if argv.getD 0 "" = "lb" then
      if argc = 1 then CmdType.CMD_LISTB else CmdType.CMD_INVALID
    else if argv.getD 0 "" = "m" then
      if argc = 3 then
        if (strtoulEnd (argv.getD 1 "").toList).2 = [] ∧
            (strtoulEnd (argv.getD 2 "").toList).2 = [] then CmdType.CMD_MEMORY
        else CmdType.CMD_INVALID
      else CmdType.CMD_INVALID
    else if argv.getD 0 "" = "h" then CmdType.CMD_HELP
    else CmdType.CMD_INVALID
  else CmdType.CMD_INVALID

end Controller

/-! ## The controller: requests and replies -/

namespace Controller

/-- The array `g_cmds`, indexed by `CmdType`. -/
def g_cmds : List String :=
  ["s", "o", "r", "ll", "lu", "lg", "ps", "w", "e", "sb", "db", "lb", "m", "h"]

/-- Value of an enumerator of `CmdType`. -/
def CmdType.toInt : CmdType → Int
  | CmdType.CMD_INVALID => -1
  | CmdType.CMD_STEP => 0
  | CmdType.CMD_OVER => 1
  | CmdType.CMD_RUN => 2
  | CmdType.CMD_LISTL => 3
  | CmdType.CMD_LISTU => 4
  | CmdType.CMD_LISTG => 5
  | CmdType.CMD_PRINTSTACK => 6
  | CmdType.CMD_WATCH => 7
  | CmdType.CMD_EXEC => 8
  | CmdType.CMD_SETB => 9
  | CmdType.CMD_DELB => 10
  | CmdType.CMD_LISTB => 11
  | CmdType.CMD_MEMORY => 12
  | CmdType.CMD_HELP => 13

/-- Size of the line buffers of the controller. -/
def CMD_LINE : Nat := 1024

/-- The function `sendCmd`: the bytes it hands to `SendData`, the name
`g_cmds[t]`, then a space and the token for each further token, then the
terminating NUL; `none` when `t` is no index of `g_cmds` or the text does not
fit the buffer `cmdline`. -/
def sendCmd (t : CmdType) (argv : List String) (argc : Int) : Option (List Char) :=
  if t.toInt < 0 ∨
      CMD_LINE ≤ ((g_cmds.getD t.toInt.toNat "").toList ++
        ((argv.take argc.toNat).drop 1).flatMap fun a => ' ' :: a.toList).length then none
  else
    some ((g_cmds.getD t.toInt.toNat "").toList ++
      (((argv.take argc.toNat).drop 1).flatMap fun a => ' ' :: a.toList) ++ ['\x00'])

/-- What one round of the inner loop of `mainloop` does with an input line. -/
inductive Step
  | invalid
  | help
  | send (t : CmdType) (bytes : Option (List Char))
  deriving DecidableEq, Repr

/-- One round of the inner loop of `mainloop` on the line read by `fgets`: the
message `Invalid command!`, the help text, or the call of `sendCmd` with the
bytes it writes to the socket; `none` when `extractArgs` leaves the line. -/
def mainloopStep (buf : String) : Option Step :=
  match extractArgs buf with
  | none => none
  | some r =>
    if r.1 < 1 ∨ validateArgs r.2 r.1 = CmdType.CMD_INVALID then some Step.invalid
    else if validateArgs r.2 r.1 = CmdType.CMD_HELP then some Step.help
    else some (Step.send (validateArgs r.2 r.1) (sendCmd (validateArgs r.2 r.1) r.2 r.1))

/-- The function `waitForBreakOrQuit` on the message that `SB_Read` left in
the line buffer (`none` when the read failed or the message is not complete):
the return code and, for a break, the file and the line text. -/
def waitForBreakOrQuit (lbuf : Option (List Char)) : Int × Option (String × String) :=
  match lbuf with
  | none => (-1, none)
  | some p =>
    if p.take 3 = ['B', 'R', '\n'] then
      if '\n' ∈ p.drop 3 then
        if '\n' ∈ ((p.drop 3).dropWhile (· ≠ '\n')).tail then
          (1, some (String.mk ((p.drop 3).takeWhile (· ≠ '\n')),
            String.mk ((((p.drop 3).dropWhile (· ≠ '\n')).tail).takeWhile (· ≠ '\n'))))
        else (-1, none)
      else (-1, none)
    else if p = ['Q', 'T', '\n', '\n'] then (0, none)
    else (-1, none)

/-- The function `typestr`. -/
def typestr (t : Char) : String :=
  if t = 's' then "STR"
  else if t = 'n' then "NUM"
  else if t = 't' then "TAB"
  else if t = 'f' then "FNC"
  else if t = 'u' then "URD"
  else if t = 'U' then "LUD"
  else if t = 'b' then "BLN"
  else if t = 'l' then "NIL"
  else if t = 'd' then "THD"
  else ""

/-- The function `printVar` of the controller on the C string at `str` and
the length of the value line: the return code and the bytes written. -/
def printVar (str : List Char) (length : Int) : Option (Int × List Nat) :=
  if typestr (str.headD '\x00') = "" then some (-1, [])
  else if str.headD '\x00' = 's' then
    match outputStr str.tail (length - 1) with
    | none => none
    | some r =>
      if r.1 < 0 then
        some (-1, fputs ("Type:" ++ typestr (str.headD '\x00') ++ " \tValue:") ++ r.2)
      else some (0, fputs ("Type:" ++ typestr (str.headD '\x00') ++ " \tValue:") ++ r.2)
  else if str.headD '\x00' = 'l' then
    some (0, fputs ("Type:" ++ typestr (str.headD '\x00') ++ " \tValue:") ++ fputs "nil")
  else
    some (0, fputs ("Type:" ++ typestr (str.headD '\x00') ++ " \tValue:") ++
      output str.tail (length - 1))

/-- The enumeration `State_w`; the value 0, which the parser stores when
nothing more may follow, is `none` of `Option State_w`. -/
inductive State_w
  | W_VAR
  | W_META
  | W_KEY
  | W_VAL
  | W_SIZE
  | W_WHAT
  | W_SRC
  | W_FIRSTLINE
  | W_LASTLINE
  | W_STATUS
  deriving DecidableEq, Repr

/-- The structure `Arg_w`. -/
structure Arg_w where
  st : Option State_w
  st2 : Option State_w
  deriving DecidableEq, Repr

/-- The line parser `w` of the controller on its state, the C string at
`word` and the length of the line: the return code, the state and the bytes
written. -/
def w (args : Arg_w) (word : List Char) (length : Int) : Option (Int × Arg_w × List Nat) :=
  match args.st with
  | some State_w.W_KEY =>
    match printVar word length with
    | none => none
    | some r =>
      if r.1 < 0 then
        some (-3, args, fputs "--------------------------------------------------\n" ++ r.2)
      else
        some (0, { args with st := some State_w.W_VAL },
          fputs "--------------------------------------------------\n" ++ r.2 ++ fputs "\n")
  | some State_w.W_VAL =>
    match printVar word length with
    | none => none
    | some r =>
      if r.1 < 0 then some (-3, args, r.2)
      else some (0, { args with st := some State_w.W_KEY }, r.2 ++ fputs "\n")
  | some State_w.W_VAR =>
    match printVar word length with
    | none => none
    | some r =>
      if r.1 < 0 then some (-3, args, r.2)
      else
        some (0,
          { st := some State_w.W_META,
            st2 :=
              if word.headD '\x00' = 't' then some State_w.W_KEY
              else if word.headD '\x00' = 'u' then some State_w.W_SIZE
              else if word.headD '\x00' = 'f' then some State_w.W_WHAT
              else if word.headD '\x00' = 'd' then some State_w.W_STATUS
              else none },
          r.2 ++ fputs "\n")
  | some State_w.W_META =>
    if length ≠ 1 then some (-3, args, [])
    else
      some (0, { args with st := args.st2 },
        if word.headD '\x00' = '1' then fputs "HasMetatable:Yes\n"
        else fputs "HasMetatable:No\n")
  | some State_w.W_SIZE =>
    some (0, { args with st := none }, fputs "Size:" ++ output word length ++ fputs "\n")
  | some State_w.W_WHAT =>
    some (0, { args with st := some State_w.W_SRC }, fputs "What:" ++ output word length)
  | some State_w.W_SRC =>
    some (0, { args with st := some State_w.W_FIRSTLINE },
      fputs " \tFile:" ++ output word length)
  | some State_w.W_FIRSTLINE =>
    some (0, { args with st := some State_w.W_LASTLINE },
      fputs " \tLineDefined:" ++ output word length)
  | some State_w.W_LASTLINE =>
    some (0, { args with st := none },
      fputs " \tLastLine:" ++ output word length ++ fputs "\n")
  | some State_w.W_STATUS =>
    some (0, { args with st := none }, fputs "Status:" ++ output word length ++ fputs "\n")
  | none => some (-3, args, [])

/-- Modelled from the spec: `SB_ReadAndParse` of the missing SocketBuf with the
delimiter `\n` and the parser `w`: the lines of the payload are handed to the
parser one after the other, each at its place in the buffer (the line, its
newline and the rest of the payload), until the parser reports a code other
than 0, which is the result; 0 at the end of the payload. -/
def parseW : Arg_w → List String → Option (Int × Arg_w)
  | args, [] => some (0, args)
  | args, line :: rest =>
    match w args (line.toList ++ '\n' :: (rest.flatMap fun l => l.toList ++ ['\n']))
        line.length with
    | none => none
    | some r => if r.1 ≠ 0 then some (r.1, r.2.1) else parseW r.2.1 rest

/-- The function `watch` of the controller on the lines of the payload. -/
def watch (lines : List String) : Option (Int × Arg_w) :=
  parseW { st := some State_w.W_VAR, st2 := none } lines

end Controller

/-! ## The controller: tokens on the wire -/

namespace Controller

/-- A token as `extractArgs` stores it: plain text, or text between quotes. -/
inductive Token
  | plain (cs : List Char)
  | quoted (body : List Char)
  deriving DecidableEq, Repr

/-- Text of a token as the controller holds it in `argv`. -/
def Token.text : Token → String
  | Token.plain cs => String.mk cs
  | Token.quoted body => String.mk ('"' :: (body ++ ['"']))

/-- Text of a token with the delimiting quotes removed. -/
def Token.arg : Token → String
  | Token.plain cs => String.mk cs
  | Token.quoted body => String.mk body

/-- Shape of the tokens of `extractArgs`: a plain token is not empty, does not
start with `"` and holds no white space; a quoted token holds no `"` between
its quotes; none holds a NUL. -/
def Token.WF : Token → Prop
  | Token.plain cs =>
    cs ≠ [] ∧ cs.head? ≠ some '"' ∧ ∀ d ∈ cs, isspace d = false ∧ d ≠ '\x00'
  | Token.quoted body => '"' ∉ body ∧ '\x00' ∉ body

/-- The tokens joined by single spaces. -/
def wire : List Token → List Char
  | [] => []
  | [t] => t.text.toList
  | t :: ts => t.text.toList ++ ' ' :: wire ts

end Controller

/-! ## The payload of WATCH on the side of the controller -/

namespace Controller

/-- Modelled from the spec: the lines that `SB_ReadAndParse` of the missing
SocketBuf finds in a payload with the delimiter `\n`: the text before each
newline, in order; text after the last newline is no line. -/
def payloadLines : List Char → List String
  | [] => []
  | c :: cs =>
    if c = '\n' then "" :: payloadLines cs
    else
      match payloadLines cs with
      | [] => []
      | l :: ls => String.mk (c :: l.toList) :: ls

end Controller

/-- The value line of a value keeps within the limits of the wire: a string
has fewer than 2^31 bytes, so that its length fits the `int` of `printVar`,
and the text of a number holds no newline. -/
def valueFits (env : Env) : Value → Bool
  | Value.string _ bytes => decide (bytes.length < 2147483648)
  | Value.number n => decide ('\n' ∉ (env.fmtNumber n).toList)
  | _ => true

/-- The payload that the writer `w` emits for a value keeps within the limits
of the wire: the value line does, the value lines of the keys and the values
of a table do, and neither `what` nor `short_src` of a function holds a
newline. -/
def watchFits (env : Env) (vm : LuaVM) (v : Value) : Bool :=
  valueFits env v &&
    match v with
    | Value.table p => (vm.next p).all fun kv => valueFits env kv.1 && valueFits env kv.2
    | Value.function p =>
      decide ('\n' ∉ (vm.funcInfo p).what.toList ∧ '\n' ∉ (vm.funcInfo p).short_src.toList)
    | _ => true

/-- The WATCH command carries the `r` suffix: the argument after the name in
the addressed form, after the field path in the cached form. -/
def watchRemember (argv : List String) (argc : Int) : Bool :=
  if argc ≥ 3 then decide (argc > 3 ∧ argv.getD 3 "" = "r")
  else decide (argc > 1 ∧ argv.getD 1 "" = "r")

/-- Field path of a WATCH command, if it has one. -/
def watchFields (env : Env) (argv : List String) (argc : Int) : Option String :=
  if argc ≥ 3 then
    if '|' ∈ (argv.getD 2 "").toList then
      some (String.mk ((argv.getD 2 "").toList.dropWhile (· ≠ '|')))
    else none
  else if argc > 0 then some (argv.getD 0 "") else env.junkFields

/-- Root of a WATCH command: the variable looked up in the addressed form, the
cached value (nil when there is none) in the cached form. -/
def watchRoot (vm : LuaVM) (argv : List String) (argc : Int) (w : World) : Option Value :=
  if argc ≥ 3 then
    (lookupVar vm (strtol (argv.getD 0 "")) (argv.getD 1 "").front (argv.getD 2 "")
      (((argv.getD 2 "").toList.takeWhile (· ≠ '|')).length)).join
  else some (w.cacheValue.getD Value.nil)

/-- Value reached from a root by a field path, the root itself when there is
no field path. -/
def watchWalk (env : Env) (vm : LuaVM) (root : Value) : Option String → Option Value
  | some f => (lookupField env vm root f).join
  | none => some root

/-- Resolved value of a WATCH command: the value reached from its root by its
field path. -/
def watchResolved (env : Env) (vm : LuaVM) (argv : List String) (argc : Int) (w : World) :
    Option Value :=
  match watchRoot vm argv argc w with
  | none => none
  | some root => watchWalk env vm root (watchFields env argv argc)

/-- An environment for the examples: a Linux host with the script directory
`/home/u`, every file present, strings truncated to 256 bytes. -/
def sampleEnv : Env :=
  { PROT_MAX_ARGS := 8, MAX_PATH := 4096, cwd := some "/home/u",
    access := fun _ => true, junk := "", PROT_MAX_STR_LEN := 256, junkFields := none,
    strtod := fun cs => (⟨0⟩, cs), fmtNumber := fun n => toString n.bits }

/-- A VM view for the examples: one local `x = 42` in the paused frame. -/
def sampleVM : LuaVM :=
  { getstack := fun n => n == 1, func := fun _ => Value.function 4096, fenv := fun _ => 8192,
    debugger := 12288, ps := "", memory := fun _ _ => some "",
    stack := [Value.number ⟨42⟩], locals := fun _ => [("x", Value.number ⟨42⟩)],
    upvalues := fun _ => [], getglobal := fun _ _ => Value.nil,
    getmetatable := fun _ => none, next := fun _ => [], gettable := fun _ _ => Value.nil,
    objlen := fun _ => 0, funcInfo := fun _ => ⟨"Lua", "foo.lua", 1, 9⟩,
    status := fun _ => 0 }

/-- A VM view whose paused frame has the one local `xy = 7`. -/
def prefixVM : LuaVM :=
  { sampleVM with locals := fun _ => [("xy", Value.number ⟨7⟩)] }

/-- A VM view whose paused frame has the one local `x`, holding nil. -/
def nilLocalVM : LuaVM :=
  { sampleVM with stack := [Value.nil], locals := fun _ => [("x", Value.nil)] }

/-- A VM view whose paused frame has the one local `t`, the table at address
16, which holds the single pair `"f"` ↦ the function at address 32. -/
def tableVM : LuaVM :=
  { sampleVM with
    locals := fun _ => [("t", Value.table 16)],
    next := fun p => if p = 16 then [(Value.string 48 [102], Value.function 32)] else [],
    gettable := fun p k =>
      if p = 16 ∧ k = Key.string "f" then Value.function 32 else Value.nil }

/-- A VM view that answers `lua_getstack` as Lua 5.1 does: besides the live
level 1, every negative level is taken for a lost tail call and reported as
found; such a level has no function and one slot, a temporary. -/
def tailCallVM : LuaVM :=
  { sampleVM with
    getstack := fun n => decide (n < 0) || n == 1,
    func := fun n => if n < 0 then Value.nil else Value.function 4096,
    locals := fun n =>
      if n = 0 then [("x", Value.number ⟨42⟩)]
      else if n < 0 then [("(*temporary)", Value.nil)] else [] }

/-- A VM view whose level 1, above the paused frame, is a lost tail call:
`lua_getstack` finds it and it has no function. -/
def lostCallVM : LuaVM :=
  { sampleVM with func := fun n => if n = 1 then Value.nil else Value.function 4096 }

/-- A VM view in which no address asked for by `m` is readable. -/
def faultVM : LuaVM :=
  { sampleVM with memory := fun _ _ => none }

/-- A VM view whose environment table, at address 8192, holds the single pair
`7` ↦ `1`, with a number for its key. -/
def numberKeyVM : LuaVM :=
  { sampleVM with
    next := fun p => if p = 8192 then [(Value.number ⟨7⟩, Value.number ⟨1⟩)] else [] }

/-- An environment whose number rendering gives `inf` for the number with the
bits of +infinity, as `%.14g` does with glibc. -/
def infEnv : Env :=
  { sampleEnv with
    fmtNumber := fun n => if n.bits = 9218868437227405312 then "inf" else toString n.bits }

/-- A VM view whose functions come from a chunk named `=a\nb`, as
`loadstring(code, "=a\nb")` makes one: `short_src` is the name after the `=`. -/
def chunkNameVM : LuaVM :=
  { sampleVM with funcInfo := fun _ => ⟨"Lua", "a\nb", 1, 1⟩ }

/-- A line event of the examples. -/
def lineAt (src : String) (line : Int) : HookCall :=
  { env := sampleEnv, vm := sampleVM,
    ar := { event := Event.LUA_HOOKLINE, short_src := src, currentline := line } }

/-- A call event of the examples. -/
def callEvent : HookCall :=
  { env := sampleEnv, vm := sampleVM,
    ar := { event := Event.LUA_HOOKCALL, short_src := "foo.lua", currentline := -1 } }

/-- A return event of the examples. -/
def returnEvent : HookCall :=
  { env := sampleEnv, vm := sampleVM,
    ar := { event := Event.LUA_HOOKRET, short_src := "foo.lua", currentline := -1 } }

/-! ## Lemmas on the handlers and the prompt loop -/

theorem send_eq (s : Int) (w : World) (f : Frame) :
    ∃ ok sends', send s w f =
      ((if ok = true then 0 else -1), { w with sends := sends', out := w.out ++ [(f, ok)] }) := by
  unfold send
  by_cases h : s = INVALID_SOCKET
  · exact ⟨false, w.sends, by simp [h]⟩
  · cases hs : w.sends with
    | nil => exact ⟨true, [], by simp [h, hs]⟩
    | cons ok rest => exact ⟨ok, rest, by simp [h, hs]⟩

theorem send_lost (s : Int) (w : World) (f : Frame) : (send s w f).2.lost = w.lost := by
  obtain ⟨ok, sends', h⟩ := send_eq s w f
  rw [h]

theorem abandoned_send (s : Int) (w : World) (f : Frame) : abandoned w (send s w f) = false := by
  unfold abandoned
  rw [send_lost]
  cases w.lost <;> rfl

theorem abandoned_self (w : World) (c : Int) : abandoned w (c, w) = false := by
  unfold abandoned
  cases w.lost <;> rfl

theorem send_replied (s : Int) (w : World) (f : Frame) (hf : f.isReply = true) :
    Replied w (send s w f) := by
  obtain ⟨ok, sends', h⟩ := send_eq s w f
  exact ⟨f, ok, sends', w.breakpoints, w.cacheValue, hf, h⟩

theorem SendErr_replied (s : Int) (w : World) (t : String) : Replied w (SendErr s w t) :=
  send_replied s w (Frame.ER t) rfl

theorem SendOK_replied (s : Int) (w : World) (t : String) : Replied w (SendOK s w t) :=
  send_replied s w (Frame.OK t) rfl

theorem listLocals_replied (env : Env) (vm : LuaVM) (argv : List String) (argc s : Int)
    (w : World) : Replied w (listLocals env vm argv argc s w) := by
  unfold listLocals
  simp only
  split_ifs <;> first | exact SendErr_replied _ _ _ | exact SendOK_replied _ _ _

theorem listUpVars_replied (env : Env) (vm : LuaVM) (argv : List String) (argc s : Int)
    (w : World) : Replied w (listUpVars env vm argv argc s w) := by
  unfold listUpVars
  simp only
  split_ifs <;> first | exact SendErr_replied _ _ _ | exact SendOK_replied _ _ _

theorem listGlobalsAt_replied (env : Env) (vm : LuaVM) (level s : Int) (w : World) :
    Replied w (listGlobalsAt env vm level s w) ∨ listGlobalsAt env vm level s w = lose w := by
  unfold listGlobalsAt
  cases vm.func level with
  | function p =>
    simp only
    cases (lg env (vm.next (vm.fenv level))
        (Value.table (vm.fenv level) :: Value.function p :: luaStack vm)).2 with
    | none => exact Or.inr rfl
    | some L => exact Or.inl (SendOK_replied _ _ _)
  | nil => exact Or.inr rfl
  | boolean b => exact Or.inr rfl
  | number n => exact Or.inr rfl
  | string a bs => exact Or.inr rfl
  | table p => exact Or.inr rfl
  | userdata p => exact Or.inr rfl
  | lightuserdata p => exact Or.inr rfl
  | thread p => exact Or.inr rfl

theorem listGlobals_replied (env : Env) (vm : LuaVM) (argv : List String) (argc s : Int)
    (w : World) :
    Replied w (listGlobals env vm argv argc s w) ∨ listGlobals env vm argv argc s w = lose w := by
  unfold listGlobals
  simp only
  split_ifs <;>
    first
    | exact Or.inl (SendErr_replied _ _ _)
    | exact listGlobalsAt_replied _ _ _ _ _

theorem printStack_replied (vm : LuaVM) (s : Int) (w : World) :
    Replied w (printStack vm s w) := SendOK_replied _ _ _

theorem listBreakPoints_replied (s : Int) (w : World) :
    Replied w (listBreakPoints s w) := SendOK_replied _ _ _

theorem watchMemory_replied (vm : LuaVM) (argv : List String) (argc s : Int) (w : World) :
    Replied w (watchMemory vm argv argc s w) ∨ watchMemory vm argv argc s w = lose w := by
  unfold watchMemory
  split_ifs
  · exact Or.inl (SendErr_replied _ _ _)
  · cases vm.memory (strtoul (argv.getD 0 "")) (strtoul (argv.getD 1 "")) with
    | none => exact Or.inr rfl
    | some bytes => exact Or.inl (send_replied _ _ _ rfl)

theorem watchReply_replied (env : Env) (vm : LuaVM) (root : Value) (fields : Option String)
    (remember : Bool) (s : Int) (w : World) :
    Replied w (watchReply env vm root fields remember s w) ∨
      watchReply env vm root fields remember s w = lose w := by
  unfold watchReply
  split
  · exact Or.inr rfl
  · exact Or.inl (SendErr_replied _ _ _)
  · rename_i v _
    by_cases hr : remember = true
    · rw [if_pos hr]
      obtain ⟨ok, sends', h⟩ := send_eq s w (Frame.OK (RLdb.w env vm v))
      refine Or.inl ⟨Frame.OK (RLdb.w env vm v), ok, sends', w.breakpoints,
        if v = Value.nil then none else some v, rfl, ?_⟩
      simp only [SendOK, h]
    · rw [if_neg hr]
      exact Or.inl (SendOK_replied _ _ _)

theorem watch_replied (env : Env) (vm : LuaVM) (argv : List String) (argc s : Int)
    (w : World) :
    Replied w (watch env vm argv argc s w) ∨ watch env vm argv argc s w = lose w := by
  unfold watch
  by_cases h3 : argc ≥ 3
  · rw [if_pos h3]
    split_ifs
    · exact Or.inl (SendErr_replied _ _ _)
    · generalize lookupVar vm _ _ _ _ = lv
      cases lv with
      | none => exact Or.inr rfl
      | some o =>
        cases o with
        | none => exact Or.inl (SendErr_replied _ _ _)
        | some v => exact watchReply_replied _ _ _ _ _ _ _
    · generalize lookupVar vm _ _ _ _ = lv
      cases lv with
      | none => exact Or.inr rfl
      | some o =>
        cases o with
        | none => exact Or.inl (SendErr_replied _ _ _)
        | some v => exact watchReply_replied _ _ _ _ _ _ _
  · rw [if_neg h3]
    by_cases hn : vm.stack.head? = some Value.nil
    · rw [if_pos hn]; exact Or.inl (SendErr_replied _ _ _)
    · rw [if_neg hn]; exact watchReply_replied _ _ _ _ _ _ _

theorem SendOK_bps_replied (s : Int) (w : World) (bps : Tbl String (Tbl Int Bool))
    (t : String) : Replied w (SendOK s { w with breakpoints := bps } t) := by
  obtain ⟨ok, sends', h⟩ := send_eq s { w with breakpoints := bps } (Frame.OK t)
  exact ⟨Frame.OK t, ok, sends', bps, w.cacheValue, rfl, by simpa [SendOK] using h⟩

theorem setBreakPoint_replied (env : Env) (src : String) (argv : List String) (argc : Int)
    (del : Bool) (s : Int) (w : World) :
    Replied w (setBreakPoint env src argv argc del s w) := by
  unfold setBreakPoint
  generalize (if argv.getD 0 "" = "." then src else argv.getD 0 "") = file
  by_cases h1 : argc < 2 ∨ strtol (argv.getD 1 "") ≤ 0
  · rw [if_pos h1]; exact SendErr_replied _ _ _
  · rw [if_neg h1]
    cases hp : _fullpath env file env.MAX_PATH with
    | none => exact SendErr_replied _ _ _
    | some path =>
      by_cases h2 : (!env.access path) = true
      · simp only [if_pos h2]; exact SendErr_replied _ _ _
      · simp only [if_neg h2]; exact SendOK_bps_replied _ _ _ _

theorem handle_cases (env : Env) (vm : LuaVM) (ar : lua_Debug) (s : Int) (pCmd : String)
    (pArgv : List String) (argc : Int) (w : World) :
    (pCmd = "e" ∧ handle env vm ar s pCmd pArgv argc w = (-2, w)) ∨
    (pCmd ≠ "e" ∧ Replied w (handle env vm ar s pCmd pArgv argc w)) ∨
    ((pCmd = "lg" ∨ pCmd = "w" ∨ pCmd = "m") ∧
      handle env vm ar s pCmd pArgv argc w = lose w) := by
  unfold handle
  by_cases h1 : pCmd = "ll"
  · rw [if_pos h1]
    exact Or.inr (Or.inl ⟨by rw [h1]; decide, listLocals_replied _ _ _ _ _ _⟩)
  rw [if_neg h1]
  by_cases h2 : pCmd = "lu"
  · rw [if_pos h2]
    exact Or.inr (Or.inl ⟨by rw [h2]; decide, listUpVars_replied _ _ _ _ _ _⟩)
  rw [if_neg h2]
  by_cases h3 : pCmd = "lg"
  · rw [if_pos h3]
    rcases listGlobals_replied env vm pArgv argc s w with h | h
    · exact Or.inr (Or.inl ⟨by rw [h3]; decide, h⟩)
    · exact Or.inr (Or.inr ⟨Or.inl h3, h⟩)
  rw [if_neg h3]
  by_cases h4 : pCmd = "w"
  · rw [if_pos h4]
    rcases watch_replied env vm pArgv argc s w with h | h
    · exact Or.inr (Or.inl ⟨by rw [h4]; decide, h⟩)
    · exact Or.inr (Or.inr ⟨Or.inr (Or.inl h4), h⟩)
  rw [if_neg h4]
  by_cases h5 : pCmd = "ps"
  · rw [if_pos h5]; exact Or.inr (Or.inl ⟨by rw [h5]; decide, printStack_replied _ _ _⟩)
  rw [if_neg h5]
  by_cases h6 : pCmd = "sb"
  · rw [if_pos h6]
    exact Or.inr (Or.inl ⟨by rw [h6]; decide, setBreakPoint_replied _ _ _ _ _ _ _⟩)
  rw [if_neg h6]
  by_cases h7 : pCmd = "db"
  · rw [if_pos h7]
    exact Or.inr (Or.inl ⟨by rw [h7]; decide, setBreakPoint_replied _ _ _ _ _ _ _⟩)
  rw [if_neg h7]
  by_cases h8 : pCmd = "lb"
  · rw [if_pos h8]; exact Or.inr (Or.inl ⟨by rw [h8]; decide, listBreakPoints_replied _ _⟩)
  rw [if_neg h8]
  by_cases h9 : pCmd = "e"
  · rw [if_pos h9]; exact Or.inl ⟨h9, rfl⟩
  rw [if_neg h9]
  by_cases h10 : pCmd = "m"
  · rw [if_pos h10]
    rcases watchMemory_replied vm pArgv argc s w with h | h
    · exact Or.inr (Or.inl ⟨h9, h⟩)
    · exact Or.inr (Or.inr ⟨Or.inr (Or.inr h10), h⟩)
  rw [if_neg h10]
  exact Or.inr (Or.inl ⟨h9, SendErr_replied _ _ _⟩)

theorem Replied.kept {w : World} {r : Int × World} (h : Replied w r) :
    abandoned w r = false := by
  obtain ⟨f, ok, sends', bps', cache', hf, rfl⟩ := h
  unfold abandoned
  show (w.lost && !w.lost) = false
  cases w.lost <;> rfl

theorem Replied.frame {w : World} {r : Int × World} (h : Replied w r) :
    r.2.info = w.info ∧ r.2.hookmask = w.hookmask ∧ r.2.recvs = w.recvs ∧
      ∃ f ok, Frame.isReply f = true ∧ r.2.out = w.out ++ [(f, ok)] ∧
        (r.1 < 0 ↔ ok = false) := by
  obtain ⟨f, ok, sends', bps', cache', hf, rfl⟩ := h
  refine ⟨rfl, rfl, rfl, f, ok, hf, rfl, ?_⟩
  cases ok <;> simp

/-- Effect of the handler chain on everything but the tables: `info`, the hook
mask and the pending receptions are untouched and at most one frame, a reply,
is handed to the socket. -/
theorem handle_frame (env : Env) (vm : LuaVM) (ar : lua_Debug) (s : Int) (pCmd : String)
    (pArgv : List String) (argc : Int) (w : World) :
    (handle env vm ar s pCmd pArgv argc w).2.info = w.info ∧
    (handle env vm ar s pCmd pArgv argc w).2.hookmask = w.hookmask ∧
    ∃ l, (handle env vm ar s pCmd pArgv argc w).2.out = w.out ++ l ∧
      ∀ x ∈ l, Frame.isReply x.1 = true := by
  rcases handle_cases env vm ar s pCmd pArgv argc w with ⟨_, h⟩ | ⟨_, h⟩ | ⟨_, h⟩
  · rw [h]; exact ⟨rfl, rfl, [], by simp, by simp⟩
  · obtain ⟨h1, h2, _, f, ok, hf, hout, _⟩ := h.frame
    exact ⟨h1, h2, [(f, ok)], hout, by simpa using hf⟩
  · rw [h]; exact ⟨rfl, rfl, [], by simp [lose], by simp⟩

/-- The forms a dispatch can take: a resume command (the hook mask cleared or
not), the unimplemented `e`, a handler that sent one reply, or a handler that
did not return. -/
theorem dispatch_cases (env : Env) (vm : LuaVM) (ar : lua_Debug) (s : Int)
    (argc : Int) (argv : List String) (w : World) :
    (∃ cmd, dispatch env vm ar s argc argv w = Dispatch.resume cmd w) ∨
    (∃ cmd, dispatch env vm ar s argc argv w = Dispatch.resume cmd { w with hookmask := 0 }) ∨
    dispatch env vm ar s argc argv w = Dispatch.handled (-2, w) ∨
    (∃ r, Replied w r ∧ dispatch env vm ar s argc argv w = Dispatch.handled r) ∨
    dispatch env vm ar s argc argv w = Dispatch.handled (lose w) := by
  unfold dispatch
  by_cases h0 : argc = 0
  · rw [if_pos h0]
    exact Or.inr (Or.inr (Or.inr (Or.inl ⟨_, SendErr_replied s w "Invalid command!", rfl⟩)))
  rw [if_neg h0]
  by_cases h1 : argv.getD 0 "" = "s"
  · rw [if_pos h1]; exact Or.inl ⟨_, rfl⟩
  rw [if_neg h1]
  by_cases h2 : argv.getD 0 "" = "o"
  · rw [if_pos h2]; exact Or.inl ⟨_, rfl⟩
  rw [if_neg h2]
  by_cases h3 : argv.getD 0 "" = "f"
  · rw [if_pos h3]; exact Or.inl ⟨_, rfl⟩
  rw [if_neg h3]
  by_cases h4 : argv.getD 0 "" = "r"
  · rw [if_pos h4]
    by_cases h5 : (!Tbl.hasNext w.breakpoints) = true
    · rw [if_pos h5]; exact Or.inr (Or.inl ⟨_, rfl⟩)
    · rw [if_neg h5]; exact Or.inl ⟨_, rfl⟩
  rw [if_neg h4]
  rcases handle_cases env vm ar s (argv.getD 0 "") argv.tail (argc - 1) w with
    ⟨_, h⟩ | ⟨_, h⟩ | ⟨_, h⟩
  · rw [h]; exact Or.inr (Or.inr (Or.inl rfl))
  · exact Or.inr (Or.inr (Or.inr (Or.inl ⟨_, h, rfl⟩)))
  · rw [h]; exact Or.inr (Or.inr (Or.inr (Or.inr rfl)))

theorem promptLoop_cons (env : Env) (vm : LuaVM) (ar : lua_Debug) (s : Int)
    (hs : s ≠ INVALID_SOCKET) (line : String) (rest : List (Option String)) (w : World) :
    promptLoop env vm ar s (some line :: rest) w =
      match dispatch env vm ar s (getCmd env.PROT_MAX_ARGS line).1
          (getCmd env.PROT_MAX_ARGS line).2 w with
      | Dispatch.resume cmd w1 =>
        (0, { w1 with info := { w1.info with cmd := cmd }, recvs := rest })
      | Dispatch.handled r =>
        if abandoned w r = true then (0, { r.2 with recvs := rest })
        else if r.1 < 0 then (-1, { r.2 with recvs := rest })
        else promptLoop env vm ar s rest r.2 := by
  rw [promptLoop, if_neg hs]

theorem abandoned_lose (w : World) : abandoned w (lose w) = !w.lost := rfl

theorem promptLoop_spec (env : Env) (vm : LuaVM) (ar : lua_Debug) (s : Int) :
    ∀ (recvs : List (Option String)) (w : World),
      LoopOutcome w (promptLoop env vm ar s recvs w) := by
  intro recvs
  induction recvs with
  | nil => intro w; exact ⟨Or.inr rfl, rfl, rfl, fun _ => rfl, [], by simp [promptLoop], by simp⟩
  | cons r rest ih =>
    intro w
    cases r with
    | none => exact ⟨Or.inr rfl, rfl, rfl, fun _ => rfl, [], by simp [promptLoop], by simp⟩
    | some line =>
      by_cases hs : s = INVALID_SOCKET
      · rw [promptLoop, if_pos hs]
        exact ⟨Or.inr rfl, rfl, rfl, fun _ => rfl, [], by simp, by simp⟩
      · rw [promptLoop_cons env vm ar s hs]
        rcases dispatch_cases env vm ar s (getCmd env.PROT_MAX_ARGS line).1
          (getCmd env.PROT_MAX_ARGS line).2 w with ⟨c, h⟩ | ⟨c, h⟩ | h | ⟨r, hr, h⟩ | h
        · rw [h]
          refine ⟨Or.inl rfl, rfl, rfl, ?_, [], by simp, by simp⟩
          intro hh
          exact absurd (show (0 : Int) < 0 from hh) (by decide)
        · rw [h]
          refine ⟨Or.inl rfl, rfl, rfl, ?_, [], by simp, by simp⟩
          intro hh
          exact absurd (show (0 : Int) < 0 from hh) (by decide)
        · rw [h]
          simp only [abandoned_self, Bool.false_eq_true, if_false]
          exact ⟨Or.inr rfl, rfl, rfl, fun _ => rfl, [], by simp, by simp⟩
        · rw [h]
          obtain ⟨h1, _, _, f, ok, hf, hout, _⟩ := hr.frame
          simp only [hr.kept, Bool.false_eq_true, if_false]
          by_cases hlt : r.1 < 0
          · simp only [if_pos hlt]
            exact ⟨Or.inr rfl, by rw [← h1], by rw [← h1], fun _ => by rw [← h1],
              [(f, ok)], hout, by simpa using hf⟩
          · simp only [if_neg hlt]
            have := ih r.2
            refine ⟨this.code, by rw [this.sock, h1], by rw [this.level, h1],
              fun h => by rw [this.cmd h, h1], ?_⟩
            obtain ⟨l, hl, hall⟩ := this.out
            refine ⟨(f, ok) :: l, by rw [hl, hout]; simp, ?_⟩
            intro x hx
            rcases List.mem_cons.1 hx with rfl | hx
            · exact hf
            · exact hall x hx
        · rw [h]
          simp only [abandoned_lose]
          cases hl : w.lost with
          | false =>
            simp only [Bool.not_false, if_true]
            refine ⟨Or.inl rfl, rfl, rfl, ?_, [], by simp [lose], by simp⟩
            intro hh
            exact absurd (show (0 : Int) < 0 from hh) (by decide)
          | true =>
            simp only [Bool.not_true, Bool.false_eq_true, if_false]
            have hlt : ¬ (lose w).1 < 0 := by
              show ¬ (0 : Int) < 0
              decide
            rw [if_neg hlt]
            have := ih (lose w).2
            exact ⟨this.code, this.sock, this.level, this.cmd, this.out⟩

theorem prompt_spec (env : Env) (vm : LuaVM) (ar : lua_Debug) (w : World) :
    ((prompt env vm ar w).1 = 0 ∨ (prompt env vm ar w).1 = -1) ∧
    (prompt env vm ar w).2.info.s = w.info.s ∧
    (prompt env vm ar w).2.info.level = w.info.level ∧
    ((prompt env vm ar w).1 < 0 → (prompt env vm ar w).2.info.cmd = w.info.cmd) ∧
    ∃ ok l, (prompt env vm ar w).2.out =
        w.out ++ (Frame.BR ar.short_src ar.currentline, ok) :: l ∧
      ∀ x ∈ l, Frame.isReply x.1 = true := by
  obtain ⟨ok, sends', hsend⟩ := send_eq w.info.s w (Frame.BR ar.short_src ar.currentline)
  unfold prompt SendBreak
  rw [hsend]
  by_cases hlt : (if ok = true then (0 : Int) else -1) < 0
  · rw [if_pos hlt]
    exact ⟨Or.inr rfl, rfl, rfl, fun _ => rfl, ok, [], by simp, by simp⟩
  · rw [if_neg hlt]
    have := promptLoop_spec env vm ar w.info.s w.recvs
      { w with sends := sends', out := w.out ++ [(Frame.BR ar.short_src ar.currentline, ok)] }
    obtain ⟨l, hl, hall⟩ := this.out
    exact ⟨this.code, this.sock, this.level, this.cmd, ok, l, by rw [hl]; simp, hall⟩

theorem breakpointHit_iff (env : Env) (ar : lua_Debug) (w : World) :
    breakpointHit env ar w = true ↔ AtBreakpoint env ar w := by
  unfold breakpointHit AtBreakpoint
  cases hp : _fullpath env ar.short_src env.MAX_PATH with
  | none => simp
  | some path =>
    cases ht : Tbl.rawget w.breakpoints path with
    | none => simp [ht]
    | some t => simp [ht]

theorem checkBreakPoint_eq (env : Env) (vm : LuaVM) (ar : lua_Debug) (w : World) :
    checkBreakPoint env vm ar w =
      if breakpointHit env ar w = true then prompt env vm ar w.resetLevel else (0, w) := by
  unfold checkBreakPoint breakpointHit World.resetLevel
  cases hp : _fullpath env ar.short_src env.MAX_PATH with
  | none => simp
  | some path => simp only

theorem resetLevel_of_level_zero (w : World) (h : w.info.level = 0) : w.resetLevel = w := by
  cases w with
  | mk info bps cache mask recvs sends out lost =>
    cases info with
    | mk s cmd level =>
      simp only [World.resetLevel] at *
      subst h
      rfl

/-- The two outcomes of the hook on a line event. -/
theorem hook_line (env : Env) (vm : LuaVM) (ar : lua_Debug) (w : World)
    (hline : ar.event = Event.LUA_HOOKLINE) :
    (ShouldPrompt env ar w →
      hook env vm ar w = afterPrompt (prompt env vm ar w.resetLevel)) ∧
    (¬ ShouldPrompt env ar w → hook env vm ar w = w) := by
  have hbp := breakpointHit_iff env ar w
  have hcb := checkBreakPoint_eq env vm ar w
  obtain ⟨⟨s, cmd, level⟩, bps, cache, mask, recvs, sends, out, lost⟩ := w
  unfold hook
  rw [hline]
  cases cmd with
  | STEP => exact ⟨fun _ => rfl, fun h => absurd (Or.inl rfl) h⟩
  | OVER =>
    by_cases hl : level = 0
    · subst hl
      exact ⟨fun _ => rfl, fun h => absurd (Or.inr (Or.inl ⟨rfl, rfl⟩)) h⟩
    · dsimp only
      rw [if_neg hl, hcb]
      by_cases hb : breakpointHit env ar
          ⟨⟨s, CMD.OVER, level⟩, bps, cache, mask, recvs, sends, out, lost⟩ = true
      · rw [if_pos hb]
        exact ⟨fun _ => rfl, fun h => absurd (Or.inr (Or.inr ⟨Or.inl rfl, hbp.1 hb⟩)) h⟩
      · rw [if_neg hb]
        refine ⟨fun h => ?_, fun _ => rfl⟩
        rcases h with h | ⟨_, h⟩ | ⟨_, h⟩
        · exact CMD.noConfusion h
        · exact absurd h hl
        · exact absurd (hbp.2 h) hb
  | FINISH =>
    refine ⟨fun h => ?_, fun _ => rfl⟩
    rcases h with h | ⟨h, _⟩ | ⟨h | h, _⟩ <;> exact CMD.noConfusion h
  | RUN =>
    dsimp only
    rw [hcb]
    by_cases hb : breakpointHit env ar
        ⟨⟨s, CMD.RUN, level⟩, bps, cache, mask, recvs, sends, out, lost⟩ = true
    · rw [if_pos hb]
      exact ⟨fun _ => rfl, fun h => absurd (Or.inr (Or.inr ⟨Or.inr rfl, hbp.1 hb⟩)) h⟩
    · rw [if_neg hb]
      refine ⟨fun h => ?_, fun _ => rfl⟩
      rcases h with h | ⟨h, _⟩ | ⟨_, h⟩
      · exact CMD.noConfusion h
      · exact CMD.noConfusion h
      · exact absurd (hbp.2 h) hb

theorem afterPrompt_out (r : Int × World) : (afterPrompt r).out = r.2.out := by
  unfold afterPrompt World.detach
  split_ifs <;> rfl

theorem afterPrompt_level (r : Int × World) : (afterPrompt r).info.level = r.2.info.level := by
  unfold afterPrompt World.detach
  split_ifs <;> rfl

/-- On a line event a break is announced exactly under the prompt condition. -/
theorem prompted_iff (env : Env) (vm : LuaVM) (ar : lua_Debug) (w : World)
    (hline : ar.event = Event.LUA_HOOKLINE) :
    Prompted env vm ar w ↔ ShouldPrompt env ar w := by
  constructor
  · intro hp
    by_contra hn
    obtain ⟨ok, rest, h⟩ := hp
    rw [(hook_line env vm ar w hline).2 hn] at h
    have := congrArg List.length h
    simp at this
  · intro hs
    obtain ⟨_, _, _, _, ok, l, hout, _⟩ := prompt_spec env vm ar w.resetLevel
    refine ⟨ok, l, ?_⟩
    rw [(hook_line env vm ar w hline).1 hs, afterPrompt_out, hout]
    rfl

theorem afterPrompt_recvs (r : Int × World) : (afterPrompt r).recvs = r.2.recvs := by
  unfold afterPrompt World.detach
  split_ifs <;> rfl

theorem send_up (s : Int) (w : World) (f : Frame) (h : ¬ (send s w f).1 < 0) :
    s ≠ INVALID_SOCKET := by
  intro hs
  apply h
  unfold send
  rw [if_pos hs]
  show (-1 : Int) < 0
  decide

theorem send_recvs (s : Int) (w : World) (f : Frame) : (send s w f).2.recvs = w.recvs := by
  obtain ⟨ok, sends', h⟩ := send_eq s w f
  rw [h]

/-- The command loop on a socket that is up consumes at least one pending
reception: what it leaves is the list it started from without its first `k`
entries, for some `k` above 0. -/
theorem promptLoop_recvs (env : Env) (vm : LuaVM) (ar : lua_Debug) (s : Int)
    (hs : s ≠ INVALID_SOCKET) :
    ∀ (recvs : List (Option String)) (w : World),
      ∃ k, 0 < k ∧ (promptLoop env vm ar s recvs w).2.recvs = recvs.drop k := by
  intro recvs
  induction recvs with
  | nil => intro w; exact ⟨1, Nat.one_pos, by simp [promptLoop]⟩
  | cons r rest ih =>
    intro w
    cases r with
    | none => exact ⟨1, Nat.one_pos, by simp [promptLoop]⟩
    | some line =>
      rw [promptLoop_cons env vm ar s hs]
      cases dispatch env vm ar s (getCmd env.PROT_MAX_ARGS line).1
          (getCmd env.PROT_MAX_ARGS line).2 w with
      | resume cmd w1 => exact ⟨1, Nat.one_pos, rfl⟩
      | handled r =>
        dsimp only
        by_cases ha : abandoned w r = true
        · rw [if_pos ha]
          exact ⟨1, Nat.one_pos, rfl⟩
        · rw [if_neg ha]
          by_cases hr : r.1 < 0
          · rw [if_pos hr]
            exact ⟨1, Nat.one_pos, rfl⟩
          · rw [if_neg hr]
            obtain ⟨k, _, h⟩ := ih r.2
            exact ⟨k + 1, Nat.succ_pos k, by rw [h]; rfl⟩

/-- C1 (amended): on a line event the hook announces a break (hands the BR
frame of the current source and line to the socket, the first action of
`prompt`) exactly when `cmd` is STEP, or `cmd` is OVER at level 0, or `cmd` is
OVER or RUN and the canonical current path is a key of `breakpoints` whose line
table holds the current line; otherwise it returns with the state untouched.
When it announces a break it finishes from the result of `prompt` run with
`level` reset to 0: if the send of BR succeeded, the frame is in the output as
sent, `prompt` is the command loop on the pending receptions from the state
the send left, and at least one reception is consumed; if the send of BR
failed, the loop is not entered: nothing is received, the output is the one
frame that failed, and the hook detaches. -/
theorem hook_prompts_iff (env : Env) (vm : LuaVM) (ar : lua_Debug) (w : World)
    (hline : ar.event = Event.LUA_HOOKLINE) :
    (Prompted env vm ar w ↔
      (w.info.cmd = CMD.STEP ∨ (w.info.cmd = CMD.OVER ∧ w.info.level = 0) ∨
        ((w.info.cmd = CMD.OVER ∨ w.info.cmd = CMD.RUN) ∧
          ∃ path t, _fullpath env ar.short_src env.MAX_PATH = some path ∧
            Tbl.rawget w.breakpoints path = some t ∧
            (Tbl.rawget t ar.currentline).isSome = true))) ∧
    (¬ Prompted env vm ar w → hook env vm ar w = w) ∧
    (Prompted env vm ar w →
      hook env vm ar w = afterPrompt (prompt env vm ar w.resetLevel) ∧
      (¬ (SendBreak w.info.s w.resetLevel ar.short_src ar.currentline).1 < 0 →
        (∃ l, (hook env vm ar w).out =
          w.out ++ (Frame.BR ar.short_src ar.currentline, true) :: l) ∧
        prompt env vm ar w.resetLevel =
          promptLoop env vm ar w.info.s w.recvs
            (SendBreak w.info.s w.resetLevel ar.short_src ar.currentline).2 ∧
        ∃ k, 0 < k ∧ (hook env vm ar w).recvs = w.recvs.drop k) ∧
      ((SendBreak w.info.s w.resetLevel ar.short_src ar.currentline).1 < 0 →
        prompt env vm ar w.resetLevel =
          (-1, (SendBreak w.info.s w.resetLevel ar.short_src ar.currentline).2) ∧
        hook env vm ar w =
          (SendBreak w.info.s w.resetLevel ar.short_src ar.currentline).2.detach ∧
        (hook env vm ar w).out =
          w.out ++ [(Frame.BR ar.short_src ar.currentline, false)] ∧
        (hook env vm ar w).recvs = w.recvs)) := by
  refine ⟨prompted_iff env vm ar w hline,
    fun hn => (hook_line env vm ar w hline).2
      (fun hs => hn ((prompted_iff env vm ar w hline).2 hs)), fun hp => ?_⟩
  have hh := (hook_line env vm ar w hline).1 ((prompted_iff env vm ar w hline).1 hp)
  have hrec : (SendBreak w.info.s w.resetLevel ar.short_src ar.currentline).2.recvs =
      w.recvs := send_recvs _ _ _
  obtain ⟨ok, sends', hsend⟩ :=
    send_eq w.info.s w.resetLevel (Frame.BR ar.short_src ar.currentline)
  refine ⟨hh, fun hok => ?_, fun hbad => ?_⟩
  · have hp1 : prompt env vm ar w.resetLevel =
        promptLoop env vm ar w.info.s w.recvs
          (SendBreak w.info.s w.resetLevel ar.short_src ar.currentline).2 := by
      have h1 : prompt env vm ar w.resetLevel =
          promptLoop env vm ar w.info.s
            (SendBreak w.info.s w.resetLevel ar.short_src ar.currentline).2.recvs
            (SendBreak w.info.s w.resetLevel ar.short_src ar.currentline).2 := by
        unfold prompt
        exact if_neg hok
      rw [h1, hrec]
    have hok1 : ok = true := by
      cases ok with
      | true => rfl
      | false =>
        exfalso
        apply hok
        rw [SendBreak, hsend]
        show (-1 : Int) < 0
        decide
    refine ⟨?_, hp1, ?_⟩
    · obtain ⟨l, hl, _⟩ := (promptLoop_spec env vm ar w.info.s w.recvs
        (SendBreak w.info.s w.resetLevel ar.short_src ar.currentline).2).out
      refine ⟨l, ?_⟩
      rw [hh, afterPrompt_out, hp1, hl, SendBreak, hsend, hok1]
      simp only [List.append_assoc, List.singleton_append]
      rfl
    · obtain ⟨k, hk, h⟩ := promptLoop_recvs env vm ar w.info.s (send_up _ _ _ hok) w.recvs
        (SendBreak w.info.s w.resetLevel ar.short_src ar.currentline).2
      exact ⟨k, hk, by rw [hh, afterPrompt_recvs, hp1, h]⟩
  · have hp1 : prompt env vm ar w.resetLevel =
        (-1, (SendBreak w.info.s w.resetLevel ar.short_src ar.currentline).2) := by
      unfold prompt
      exact if_pos hbad
    have hok1 : ok = false := by
      cases ok with
      | false => rfl
      | true =>
        exfalso
        rw [SendBreak, hsend] at hbad
        have h0 : ¬ (0 : Int) < 0 := by decide
        exact h0 hbad
    have hd : hook env vm ar w =
        (SendBreak w.info.s w.resetLevel ar.short_src ar.currentline).2.detach := by
      rw [hh, hp1]
      rfl
    refine ⟨hp1, hd, ?_, ?_⟩
    · rw [hd, SendBreak, hsend, hok1]
      rfl
    · rw [hd]
      exact hrec

theorem isBreak_of_isReply (f : Frame) (h : f.isReply = true) : f.isBreak = false := by
  cases f <;> simp_all [Frame.isReply, Frame.isBreak]

/-- C1 (amended) at a concrete input: the first line event after loading
(cmd = STEP) announces a break and the hook finishes from the result of
`prompt`. -/
theorem hook_prompts_iff_witness :
    (lineAt "foo.lua" 3).ar.event = Event.LUA_HOOKLINE ∧
    Prompted sampleEnv sampleVM (lineAt "foo.lua" 3).ar (luaopen_RLdb 3 [some "s"] []) ∧
    hook sampleEnv sampleVM (lineAt "foo.lua" 3).ar (luaopen_RLdb 3 [some "s"] []) =
      afterPrompt (prompt sampleEnv sampleVM (lineAt "foo.lua" 3).ar
        (luaopen_RLdb 3 [some "s"] []).resetLevel) :=
  ⟨rfl, (hook_prompts_iff sampleEnv sampleVM (lineAt "foo.lua" 3).ar
    (luaopen_RLdb 3 [some "s"] []) rfl).1.2 (Or.inl rfl),
    ((hook_prompts_iff sampleEnv sampleVM (lineAt "foo.lua" 3).ar
      (luaopen_RLdb 3 [some "s"] []) rfl).2.2
      ((prompted_iff sampleEnv sampleVM (lineAt "foo.lua" 3).ar
        (luaopen_RLdb 3 [some "s"] []) rfl).2 (Or.inl rfl))).1⟩

/-- C1 fails on this input: on the first line event after loading `cmd` is
STEP, so the condition holds, but the send of BR fails: `prompt` returns -1
before its loop, the pending command `s` is not received, and the hook
detaches; from a send that succeeds the loop receives the command. -/
theorem break_send_failure_skips_loop :
    (luaopen_RLdb 3 [some "s"] [false]).info.cmd = CMD.STEP ∧
    prompt sampleEnv sampleVM (lineAt "foo.lua" 3).ar
        (luaopen_RLdb 3 [some "s"] [false]).resetLevel =
      (-1, { luaopen_RLdb 3 [some "s"] [] with
        info := { s := 3, cmd := CMD.STEP, level := 0 },
        out := [(Frame.BR "foo.lua" 3, false)] }) ∧
    (hook sampleEnv sampleVM (lineAt "foo.lua" 3).ar
      (luaopen_RLdb 3 [some "s"] [false])).out = [(Frame.BR "foo.lua" 3, false)] ∧
    (hook sampleEnv sampleVM (lineAt "foo.lua" 3).ar
      (luaopen_RLdb 3 [some "s"] [false])).recvs = [some "s"] ∧
    (hook sampleEnv sampleVM (lineAt "foo.lua" 3).ar
      (luaopen_RLdb 3 [some "s"] [false])).info.s = INVALID_SOCKET ∧
    (hook sampleEnv sampleVM (lineAt "foo.lua" 3).ar
      (luaopen_RLdb 3 [some "s"] [false])).hookmask = 0 ∧
    (hook sampleEnv sampleVM (lineAt "foo.lua" 3).ar
      (luaopen_RLdb 3 [some "s"] [true])).out = [(Frame.BR "foo.lua" 3, true)] ∧
    (hook sampleEnv sampleVM (lineAt "foo.lua" 3).ar
      (luaopen_RLdb 3 [some "s"] [true])).recvs = [] := by
  decide

/-- C4: whenever a line event prompts, `prompt` (whose first action sends the
BR frame) runs in the state with `level` reset to 0, and `level` is 0 when the
hook returns. -/
theorem prompt_at_level_zero (env : Env) (vm : LuaVM) (ar : lua_Debug) (w : World)
    (hline : ar.event = Event.LUA_HOOKLINE) (hp : ShouldPrompt env ar w) :
    hook env vm ar w = afterPrompt (prompt env vm ar w.resetLevel) ∧
    w.resetLevel.info.level = 0 ∧
    ((w.info.cmd = CMD.OVER ∧ w.info.level = 0) → w.resetLevel = w) ∧
    (hook env vm ar w).info.level = 0 := by
  have h := (hook_line env vm ar w hline).1 hp
  refine ⟨h, rfl, fun hl => resetLevel_of_level_zero w hl.2, ?_⟩
  rw [h, afterPrompt_level, (prompt_spec env vm ar w.resetLevel).2.2.1]
  rfl

/-- C4 at a concrete input: a breakpoint hit under RUN at level 5. -/
theorem prompt_at_level_zero_witness :
    (hook sampleEnv sampleVM (lineAt "foo.lua" 10).ar
      { luaopen_RLdb 3 [some "s"] [] with
        info := { s := 3, cmd := CMD.RUN, level := 5 },
        breakpoints := [("/home/u/foo.lua", [(10, true)])] }).info.level = 0 :=
  (prompt_at_level_zero sampleEnv sampleVM (lineAt "foo.lua" 10).ar
    { luaopen_RLdb 3 [some "s"] [] with
      info := { s := 3, cmd := CMD.RUN, level := 5 },
      breakpoints := [("/home/u/foo.lua", [(10, true)])] } rfl
    (Or.inr (Or.inr ⟨Or.inr rfl, "/home/u/foo.lua", [(10, true)],
      by decide, by decide, by decide⟩))).2.2.2

/-- C6: on a line event the hook either leaves the state (and the socket)
untouched, or the first frame it hands to the socket is the BR frame of the
current line and nothing it writes afterwards is a BR frame. -/
theorem hook_line_one_break (env : Env) (vm : LuaVM) (ar : lua_Debug) (w : World)
    (hline : ar.event = Event.LUA_HOOKLINE) :
    hook env vm ar w = w ∨
    ∃ ok rest, (hook env vm ar w).out =
        w.out ++ (Frame.BR ar.short_src ar.currentline, ok) :: rest ∧
      ∀ x ∈ rest, Frame.isBreak x.1 = false := by
  by_cases hs : ShouldPrompt env ar w
  · right
    obtain ⟨_, _, _, _, ok, l, hout, hall⟩ := prompt_spec env vm ar w.resetLevel
    refine ⟨ok, l, ?_, fun x hx => isBreak_of_isReply _ (hall x hx)⟩
    rw [(hook_line env vm ar w hline).1 hs, afterPrompt_out, hout]
    rfl
  · exact Or.inl ((hook_line env vm ar w hline).2 hs)

/-- C6 at a concrete input: a stop that serves two commands writes one BR frame
followed by two replies. -/
theorem hook_line_one_break_witness :
    (lineAt "foo.lua" 3).ar.event = Event.LUA_HOOKLINE ∧
    (hook sampleEnv sampleVM (lineAt "foo.lua" 3).ar
        (luaopen_RLdb 3 [some "ll 1", some "lb", some "s"] []) =
        luaopen_RLdb 3 [some "ll 1", some "lb", some "s"] [] ∨
      ∃ ok rest, (hook sampleEnv sampleVM (lineAt "foo.lua" 3).ar
          (luaopen_RLdb 3 [some "ll 1", some "lb", some "s"] [])).out =
          (luaopen_RLdb 3 [some "ll 1", some "lb", some "s"] []).out ++
            (Frame.BR "foo.lua" 3, ok) :: rest ∧
        ∀ x ∈ rest, Frame.isBreak x.1 = false) :=
  ⟨rfl, hook_line_one_break sampleEnv sampleVM (lineAt "foo.lua" 3).ar
    (luaopen_RLdb 3 [some "ll 1", some "lb", some "s"] []) rfl⟩

/-- C9: when the prompt of a line event fails, the hook returns with the hook
uninstalled (mask 0), the socket set to INVALID_SOCKET and `cmd` as it was
before the event. -/
theorem failed_prompt_detaches (env : Env) (vm : LuaVM) (ar : lua_Debug) (w : World)
    (hline : ar.event = Event.LUA_HOOKLINE) (hp : ShouldPrompt env ar w)
    (hfail : (prompt env vm ar w.resetLevel).1 < 0) :
    (hook env vm ar w).hookmask = 0 ∧
    (hook env vm ar w).info.s = INVALID_SOCKET ∧
    (hook env vm ar w).info.cmd = w.info.cmd := by
  rw [(hook_line env vm ar w hline).1 hp]
  have hc := (prompt_spec env vm ar w.resetLevel).2.2.2.1 hfail
  unfold afterPrompt
  rw [if_pos hfail]
  exact ⟨rfl, rfl, hc⟩

/-- C9 at a concrete input: the controller has gone away (no command arrives)
while the debuggee stops at a breakpoint under RUN. -/
theorem failed_prompt_detaches_witness :
    (hook sampleEnv sampleVM (lineAt "foo.lua" 10).ar
      { luaopen_RLdb 3 [] [] with
        info := { s := 3, cmd := CMD.RUN, level := 5 },
        breakpoints := [("/home/u/foo.lua", [(10, true)])] }).hookmask = 0 ∧
    (hook sampleEnv sampleVM (lineAt "foo.lua" 10).ar
      { luaopen_RLdb 3 [] [] with
        info := { s := 3, cmd := CMD.RUN, level := 5 },
        breakpoints := [("/home/u/foo.lua", [(10, true)])] }).info.s = INVALID_SOCKET ∧
    (hook sampleEnv sampleVM (lineAt "foo.lua" 10).ar
      { luaopen_RLdb 3 [] [] with
        info := { s := 3, cmd := CMD.RUN, level := 5 },
        breakpoints := [("/home/u/foo.lua", [(10, true)])] }).info.cmd = CMD.RUN :=
  failed_prompt_detaches sampleEnv sampleVM (lineAt "foo.lua" 10).ar
    { luaopen_RLdb 3 [] [] with
      info := { s := 3, cmd := CMD.RUN, level := 5 },
      breakpoints := [("/home/u/foo.lua", [(10, true)])] } rfl
    (Or.inr (Or.inr ⟨Or.inr rfl, "/home/u/foo.lua", [(10, true)],
      by decide, by decide, by decide⟩)) (by decide)

theorem toInt32_of_range (x : Int) (h1 : -2147483648 ≤ x) (h2 : x ≤ 2147483647) :
    toInt32 x = x := by
  unfold toInt32
  omega

theorem toInt32_succ (x : Int) (n : Nat) :
    toInt32 (toInt32 (x + 1) + n) = toInt32 (x + (n + 1 : Nat)) := by
  unfold toInt32
  push_cast
  omega

theorem hook_call (env : Env) (vm : LuaVM) (ar : lua_Debug) (w : World)
    (h : ar.event = Event.LUA_HOOKCALL) :
    hook env vm ar w = w.withLevel (toInt32 (w.info.level + 1)) := by
  unfold hook
  rw [h]
  rfl

theorem hook_ret (env : Env) (vm : LuaVM) (ar : lua_Debug) (w : World)
    (h : ar.event = Event.LUA_HOOKRET ∨ ar.event = Event.LUA_HOOKTAILRET) :
    hook env vm ar w =
      if w.info.level ≠ 0 then w.withLevel (toInt32 (w.info.level - 1)) else w := by
  unfold hook
  rcases h with h | h <;> rw [h] <;> rfl

theorem hooks_cons (w : World) (c : HookCall) (cs : List HookCall) :
    hooks w (c :: cs) = hooks (hook c.env c.vm c.ar w) cs := rfl

theorem hooks_append (w : World) (cs ds : List HookCall) :
    hooks w (cs ++ ds) = hooks (hooks w cs) ds := by
  unfold hooks
  rw [List.foldl_append]

/-- Under FINISH every hook event leaves `cmd`, the breakpoints and the socket
log untouched. -/
theorem finish_step (env : Env) (vm : LuaVM) (ar : lua_Debug) (w : World)
    (hf : w.info.cmd = CMD.FINISH) :
    (hook env vm ar w).info.cmd = CMD.FINISH ∧ (hook env vm ar w).out = w.out ∧
    (hook env vm ar w).breakpoints = w.breakpoints := by
  cases he : ar.event with
  | LUA_HOOKLINE =>
    have hn : ¬ ShouldPrompt env ar w := by
      intro h
      rcases h with h | ⟨h, _⟩ | ⟨h | h, _⟩ <;> rw [hf] at h <;> exact CMD.noConfusion h
    rw [(hook_line env vm ar w he).2 hn]
    exact ⟨hf, rfl, rfl⟩
  | LUA_HOOKCALL =>
    rw [hook_call env vm ar w he]
    exact ⟨hf, rfl, rfl⟩
  | LUA_HOOKRET =>
    rw [hook_ret env vm ar w (Or.inl he)]
    split_ifs
    · exact ⟨hf, rfl, rfl⟩
    · exact ⟨hf, rfl, rfl⟩
  | LUA_HOOKTAILRET =>
    rw [hook_ret env vm ar w (Or.inr he)]
    split_ifs
    · exact ⟨hf, rfl, rfl⟩
    · exact ⟨hf, rfl, rfl⟩

theorem finish_hooks (cs : List HookCall) :
    ∀ w : World, w.info.cmd = CMD.FINISH →
      (hooks w cs).info.cmd = CMD.FINISH ∧ (hooks w cs).out = w.out ∧
      (hooks w cs).breakpoints = w.breakpoints := by
  induction cs with
  | nil => intro w hf; exact ⟨hf, rfl, rfl⟩
  | cons c cs ih =>
    intro w hf
    obtain ⟨h1, h2, h3⟩ := finish_step c.env c.vm c.ar w hf
    obtain ⟨k1, k2, k3⟩ := ih _ h1
    rw [hooks_cons]
    exact ⟨k1, k2.trans h2, k3.trans h3⟩

/-- C8: while `cmd` is FINISH a line event is a no-op (no prompt; `cmd`, `level`
and the breakpoints as they were), and from such a state every sequence of hook
events keeps `cmd` at FINISH and hands nothing to the socket, so no BR frame is
sent. -/
theorem finish_is_inert (w : World) (hf : w.info.cmd = CMD.FINISH) :
    (∀ (env : Env) (vm : LuaVM) (ar : lua_Debug), ar.event = Event.LUA_HOOKLINE →
      hook env vm ar w = w ∧ ¬ Prompted env vm ar w) ∧
    ∀ cs : List HookCall, (hooks w cs).info.cmd = CMD.FINISH ∧ (hooks w cs).out = w.out ∧
      (hooks w cs).breakpoints = w.breakpoints := by
  refine ⟨fun env vm ar he => ?_, fun cs => finish_hooks cs w hf⟩
  have hn : ¬ ShouldPrompt env ar w := by
    intro h
    rcases h with h | ⟨h, _⟩ | ⟨h | h, _⟩ <;> rw [hf] at h <;> exact CMD.noConfusion h
  exact ⟨(hook_line env vm ar w he).2 hn, fun hp => hn ((prompted_iff env vm ar w he).1 hp)⟩

/-- C8 at a concrete input: after `f`, a call, two lines and a return write
nothing. -/
theorem finish_is_inert_witness :
    (hooks { luaopen_RLdb 3 [some "s"] [] with info := { s := 3, cmd := CMD.FINISH, level := 0 } }
      [callEvent, lineAt "foo.lua" 4, lineAt "foo.lua" 5, returnEvent]).out = [] :=
  ((finish_is_inert
    { luaopen_RLdb 3 [some "s"] [] with info := { s := 3, cmd := CMD.FINISH, level := 0 } }
    rfl).2 [callEvent, lineAt "foo.lua" 4, lineAt "foo.lua" 5, returnEvent]).2.1

theorem withLevel_level (w : World) (d : Int) : (w.withLevel d).info.level = d := rfl

/-- One hook event from a non-negative level below `INT_MAX`: the level stays
non-negative and grows by at most one. -/
theorem hook_level_step (env : Env) (vm : LuaVM) (ar : lua_Debug) (w : World)
    (h0 : 0 ≤ w.info.level) (h1 : w.info.level < 2147483647) :
    0 ≤ (hook env vm ar w).info.level ∧ (hook env vm ar w).info.level ≤ w.info.level + 1 := by
  cases he : ar.event with
  | LUA_HOOKLINE =>
    by_cases hs : ShouldPrompt env ar w
    · rw [(hook_line env vm ar w he).1 hs, afterPrompt_level,
        (prompt_spec env vm ar w.resetLevel).2.2.1]
      show (0 : Int) ≤ 0 ∧ (0 : Int) ≤ w.info.level + 1
      omega
    · rw [(hook_line env vm ar w he).2 hs]
      omega
  | LUA_HOOKCALL =>
    rw [hook_call env vm ar w he, withLevel_level, toInt32_of_range _ (by omega) (by omega)]
    omega
  | LUA_HOOKRET =>
    rw [hook_ret env vm ar w (Or.inl he)]
    split_ifs
    · rw [withLevel_level, toInt32_of_range _ (by omega) (by omega)]
      omega
    · omega
  | LUA_HOOKTAILRET =>
    rw [hook_ret env vm ar w (Or.inr he)]
    split_ifs
    · rw [withLevel_level, toInt32_of_range _ (by omega) (by omega)]
      omega
    · omega

theorem hooks_level_bound (cs : List HookCall) :
    ∀ (w : World) (n : Nat), 0 ≤ w.info.level → w.info.level ≤ n →
      n + cs.length ≤ 2147483647 →
      0 ≤ (hooks w cs).info.level ∧ (hooks w cs).info.level ≤ (n + cs.length : Nat) := by
  induction cs with
  | nil => intro w n h0 h1 _; exact ⟨h0, by simpa using h1⟩
  | cons c cs ih =>
    intro w n h0 h1 hn
    simp only [List.length_cons] at hn
    obtain ⟨k0, k1⟩ := hook_level_step c.env c.vm c.ar w h0 (by omega)
    have := ih (hook c.env c.vm c.ar w) (n + 1) k0 (by push_cast; omega) (by omega)
    rw [hooks_cons]
    refine ⟨this.1, ?_⟩
    have h2 := this.2
    simp only [List.length_cons]
    push_cast at h2 ⊢
    omega

/-- C2 (amended): from a state with `level = 0`, after every sequence of fewer
than 2^31 - 1 hook events `level` is at least 0 (and at most the number of
events); from the state reached, a call event increases `level` by exactly 1
and a return or tail-return event decreases it by exactly 1 unless it is 0, in
which case it stays 0, whatever `cmd` is. -/
theorem level_nonneg_below_overflow (w : World) (cs : List HookCall)
    (h0 : w.info.level = 0) (hlen : cs.length < 2147483647) :
    0 ≤ (hooks w cs).info.level ∧ (hooks w cs).info.level ≤ cs.length ∧
    ∀ (env : Env) (vm : LuaVM) (ar : lua_Debug),
      (ar.event = Event.LUA_HOOKCALL →
        (hook env vm ar (hooks w cs)).info.level = (hooks w cs).info.level + 1) ∧
      (ar.event = Event.LUA_HOOKRET ∨ ar.event = Event.LUA_HOOKTAILRET →
        (hook env vm ar (hooks w cs)).info.level =
          if (hooks w cs).info.level = 0 then 0 else (hooks w cs).info.level - 1) := by
  obtain ⟨k0, k1⟩ := hooks_level_bound cs w 0 (by omega) (by omega) (by omega)
  simp only [Nat.zero_add] at k1
  refine ⟨k0, k1, fun env vm ar => ⟨fun he => ?_, fun he => ?_⟩⟩
  · rw [hook_call env vm ar _ he, withLevel_level, toInt32_of_range _ (by omega) (by omega)]
  · rw [hook_ret env vm ar _ he]
    by_cases hz : (hooks w cs).info.level = 0
    · rw [if_neg (by simpa using hz), if_pos hz, hz]
    · rw [if_pos hz, if_neg hz, withLevel_level, toInt32_of_range _ (by omega) (by omega)]

/-- C2 (amended) at a concrete input: two calls, a line and a return after
loading leave `level` between 0 and 4. -/
theorem level_nonneg_below_overflow_witness :
    0 ≤ (hooks (luaopen_RLdb 3 [some "o"] [])
      [lineAt "foo.lua" 3, callEvent, callEvent, returnEvent]).info.level :=
  (level_nonneg_below_overflow (luaopen_RLdb 3 [some "o"] [])
    [lineAt "foo.lua" 3, callEvent, callEvent, returnEvent] rfl (by decide)).1

theorem hooks_replicate_call (n : Nat) :
    ∀ w : World, hooks w (List.replicate n callEvent) =
      if n = 0 then w else w.withLevel (toInt32 (w.info.level + n)) := by
  induction n with
  | zero => intro w; rfl
  | succ n ih =>
    intro w
    rw [List.replicate_succ, hooks_cons, ih, hook_call _ _ _ _ rfl, if_neg (Nat.succ_ne_zero n)]
    by_cases hn : n = 0
    · subst hn
      simp
    · rw [if_neg hn, withLevel_level, toInt32_succ]
      rfl

/-- C2 as stated fails: 2^31 call events after loading, none of them returned
from, leave `level` negative. -/
theorem level_negative_after_overflow :
    (hooks (luaopen_RLdb 3 [] []) (List.replicate 2147483648 callEvent)).info.level
      = -2147483648 ∧
    ¬ 0 ≤ (hooks (luaopen_RLdb 3 [] []) (List.replicate 2147483648 callEvent)).info.level := by
  rw [hooks_replicate_call, if_neg (by decide), withLevel_level]
  have : toInt32 ((luaopen_RLdb 3 [] []).info.level + (2147483648 : Nat)) = -2147483648 := by
    decide
  rw [this]
  exact ⟨rfl, by decide⟩

theorem withLevel_withLevel (w : World) (a b : Int) :
    (w.withLevel a).withLevel b = w.withLevel b := rfl

theorem withLevel_self (w : World) : w.withLevel w.info.level = w := rfl

theorem not_shouldPrompt_over (env : Env) (ar : lua_Debug) (w : World) (d : Int)
    (hc : w.info.cmd = CMD.OVER) (hd : d ≠ 0) (hb : ¬ AtBreakpoint env ar w) :
    ¬ ShouldPrompt env ar (w.withLevel d) := by
  intro h
  rcases h with h | ⟨_, h⟩ | ⟨_, h⟩
  · have : w.info.cmd = CMD.STEP := h
    rw [hc] at this
    exact CMD.noConfusion this
  · exact hd h
  · exact hb h

/-- Under OVER, a well-nested sequence started at depth `d` that hits no
breakpoint and cannot overflow `level` brings `level` back to 0 and hands
nothing to the socket at any point. -/
theorem hooks_nested (cs : List HookCall) :
    ∀ (w : World) (d : Nat), w.info.cmd = CMD.OVER → nested d cs = true →
      d + cs.length ≤ 2147483647 →
      (∀ c ∈ cs, c.ar.event = Event.LUA_HOOKLINE → ¬ AtBreakpoint c.env c.ar w) →
      hooks (w.withLevel d) cs = w.withLevel 0 ∧
      ∀ k, (hooks (w.withLevel d) (cs.take k)).out = w.out := by
  induction cs with
  | nil =>
    intro w d _ hn _ _
    have hd : d = 0 := by simpa [nested] using hn
    subst hd
    exact ⟨rfl, fun k => by simp [hooks]; rfl⟩
  | cons c cs ih =>
    intro w d hc hn hlen hb
    simp only [List.length_cons] at hlen
    have hb' : ∀ c' ∈ cs, c'.ar.event = Event.LUA_HOOKLINE → ¬ AtBreakpoint c'.env c'.ar w :=
      fun c' hc' => hb c' (List.mem_cons_of_mem _ hc')
    have key : ∀ d' : Nat, nested d' cs = true → d' + cs.length ≤ 2147483647 →
        hook c.env c.vm c.ar (w.withLevel d) = w.withLevel d' →
        hooks (w.withLevel d) (c :: cs) = w.withLevel 0 ∧
        ∀ k, (hooks (w.withLevel d) ((c :: cs).take k)).out = w.out := by
      intro d' hn' hlen' hstep
      obtain ⟨i1, i2⟩ := ih w d' hc hn' hlen' hb'
      refine ⟨by rw [hooks_cons, hstep, i1], fun k => ?_⟩
      cases k with
      | zero => rfl
      | succ k => rw [List.take_succ_cons, hooks_cons, hstep, i2 k]
    cases he : c.ar.event with
    | LUA_HOOKCALL =>
      simp only [nested, he] at hn
      refine key (d + 1) hn (by omega) ?_
      rw [hook_call _ _ _ _ he, withLevel_level, toInt32_of_range _ (by omega) (by omega),
        withLevel_withLevel]
      push_cast
      rfl
    | LUA_HOOKLINE =>
      simp only [nested, he, Bool.and_eq_true, decide_eq_true_eq] at hn
      refine key d hn.2 (by omega) ?_
      exact (hook_line c.env c.vm c.ar _ he).2
        (not_shouldPrompt_over c.env c.ar w d hc (by omega)
          (hb c (List.mem_cons_self _ _) he))
    | LUA_HOOKRET =>
      simp only [nested, he, Bool.and_eq_true, decide_eq_true_eq] at hn
      refine key (d - 1) hn.2 (by omega) ?_
      rw [hook_ret _ _ _ _ (Or.inl he), withLevel_level,
        if_pos (by omega), toInt32_of_range _ (by omega) (by omega), withLevel_withLevel]
      congr 1
      omega
    | LUA_HOOKTAILRET =>
      simp only [nested, he, Bool.and_eq_true, decide_eq_true_eq] at hn
      refine key (d - 1) hn.2 (by omega) ?_
      rw [hook_ret _ _ _ _ (Or.inr he), withLevel_level,
        if_pos (by omega), toInt32_of_range _ (by omega) (by omega), withLevel_withLevel]
      congr 1
      omega

/-- C3 (amended): with `cmd = OVER` and `level = 0`, for every well-nested
sequence of call and return events with line events only inside the nested
calls, of fewer than 2^31 events and hitting no breakpoint, nothing is handed
to the socket during the sequence (no prompt), the state after it is the state
before it (`level` is 0 again), and the next line event prompts. -/
theorem over_skips_nested_calls (w : World) (cs : List HookCall)
    (hc : w.info.cmd = CMD.OVER) (hl : w.info.level = 0) (hn : nested 0 cs = true)
    (hb : ∀ c ∈ cs, c.ar.event = Event.LUA_HOOKLINE → ¬ AtBreakpoint c.env c.ar w)
    (hlen : cs.length < 2147483648) :
    (∀ k, (hooks w (cs.take k)).out = w.out) ∧
    hooks w cs = w ∧ (hooks w cs).info.level = 0 ∧
    ∀ (env : Env) (vm : LuaVM) (ar : lua_Debug), ar.event = Event.LUA_HOOKLINE →
      Prompted env vm ar (hooks w cs) := by
  have hw : w.withLevel ((0 : Nat) : Int) = w := by
    have := withLevel_self w
    rw [hl] at this
    exact this
  obtain ⟨h1, h2⟩ := hooks_nested cs w 0 hc hn (by omega) hb
  rw [hw] at h1 h2
  have h3 : hooks w cs = w := h1.trans hw
  refine ⟨h2, h3, by rw [h3, hl], fun env vm ar he => ?_⟩
  rw [h3]
  exact (prompted_iff env vm ar w he).2 (Or.inr (Or.inl ⟨hc, hl⟩))

/-- C3 (amended) at a concrete input: stepping over a call that runs two lines. -/
theorem over_skips_nested_calls_witness :
    hooks { luaopen_RLdb 3 [some "o"] [] with info := { s := 3, cmd := CMD.OVER, level := 0 } }
        [callEvent, lineAt "foo.lua" 20, lineAt "foo.lua" 21, returnEvent] =
      { luaopen_RLdb 3 [some "o"] [] with info := { s := 3, cmd := CMD.OVER, level := 0 } } ∧
    Prompted sampleEnv sampleVM (lineAt "foo.lua" 4).ar
      (hooks { luaopen_RLdb 3 [some "o"] [] with
          info := { s := 3, cmd := CMD.OVER, level := 0 } }
        [callEvent, lineAt "foo.lua" 20, lineAt "foo.lua" 21, returnEvent]) :=
  ⟨(over_skips_nested_calls
      { luaopen_RLdb 3 [some "o"] [] with info := { s := 3, cmd := CMD.OVER, level := 0 } }
      [callEvent, lineAt "foo.lua" 20, lineAt "foo.lua" 21, returnEvent] rfl rfl (by decide)
      (by
        intro c _ _ h
        obtain ⟨path, t, _, ht, _⟩ := h
        exact Option.noConfusion ht)
      (by decide)).2.1,
    (over_skips_nested_calls
      { luaopen_RLdb 3 [some "o"] [] with info := { s := 3, cmd := CMD.OVER, level := 0 } }
      [callEvent, lineAt "foo.lua" 20, lineAt "foo.lua" 21, returnEvent] rfl rfl (by decide)
      (by
        intro c _ _ h
        obtain ⟨path, t, _, ht, _⟩ := h
        exact Option.noConfusion ht)
      (by decide)).2.2.2 sampleEnv sampleVM (lineAt "foo.lua" 4).ar rfl⟩

theorem nested_replicate_call (n : Nat) :
    ∀ (d : Nat) (rest : List HookCall),
      nested d (List.replicate n callEvent ++ rest) = nested (d + n) rest := by
  induction n with
  | zero => intro d rest; rfl
  | succ n ih =>
    intro d rest
    rw [List.replicate_succ, List.cons_append]
    show nested (d + 1) (List.replicate n callEvent ++ rest) = _
    rw [ih]
    congr 1
    omega

theorem nested_replicate_return (n : Nat) :
    ∀ (d : Nat), nested (d + n) (List.replicate n returnEvent) = nested d [] := by
  induction n with
  | zero => intro d; rfl
  | succ n ih =>
    intro d
    rw [List.replicate_succ]
    show (decide (0 < d + (n + 1)) && nested (d + (n + 1) - 1) (List.replicate n returnEvent)) = _
    rw [show d + (n + 1) - 1 = d + n by omega, ih]
    simp

theorem nested_cons_line (d : Nat) (src : String) (line : Int) (rest : List HookCall) :
    nested d (lineAt src line :: rest) = (decide (0 < d) && nested d rest) := rfl

/-- C3 as stated fails: under OVER at level 0 with no breakpoint set, a
well-nested sequence that opens 2^32 calls, runs a line inside them and closes
them all shows a prompt at that line. -/
theorem over_prompts_inside_deep_nesting :
    nested 0 (List.replicate 4294967296 callEvent ++ lineAt "foo.lua" 7 ::
      List.replicate 4294967296 returnEvent) = true ∧
    (hooks { luaopen_RLdb 3 [some "o"] [] with info := { s := 3, cmd := CMD.OVER, level := 0 } }
      (List.replicate 4294967296 callEvent ++ [lineAt "foo.lua" 7])).out ≠
    ({ luaopen_RLdb 3 [some "o"] [] with
        info := { s := 3, cmd := CMD.OVER, level := 0 } } : World).out := by
  constructor
  · rw [nested_replicate_call, nested_cons_line, nested_replicate_return]
    decide
  · rw [hooks_append, hooks_replicate_call, if_neg (by decide)]
    have : toInt32 (({ luaopen_RLdb 3 [some "o"] [] with
        info := { s := 3, cmd := CMD.OVER, level := 0 } } : World).info.level
          + (4294967296 : Nat)) = 0 := by decide
    rw [this]
    decide

theorem run_of_mask_zero (cs : List HookCall) :
    ∀ w : World, w.hookmask = 0 → run w cs = w := by
  induction cs with
  | nil => intro w _; rfl
  | cons c cs ih =>
    intro w h
    have hd : deliver c w = w := by
      unfold deliver
      rw [h]
      simp
    show run (deliver c w) cs = w
    rw [hd]
    exact ih w h

theorem not_hasNext_iff {κ ν : Type} (t : Tbl κ ν) :
    (!Tbl.hasNext t) = true ↔ t = [] := by
  cases t <;> simp [Tbl.hasNext]

theorem dispatch_r (env : Env) (vm : LuaVM) (ar : lua_Debug) (s : Int) (argc : Int)
    (argv : List String) (w : World) (hargc : argc ≠ 0) (hr : argv.getD 0 "" = "r") :
    dispatch env vm ar s argc argv w =
      Dispatch.resume CMD.RUN
        { w with hookmask := if w.breakpoints = [] then 0 else w.hookmask } := by
  unfold dispatch
  rw [if_neg hargc, hr, if_neg (by decide), if_neg (by decide), if_neg (by decide),
    if_pos rfl]
  by_cases hb : w.breakpoints = []
  · rw [if_pos ((not_hasNext_iff _).2 hb), if_pos hb]
  · rw [if_neg (fun h => hb ((not_hasNext_iff _).1 h)), if_neg hb]

/-- C7: when the prompt loop reads a command whose first argument is `r`, it
ends with success and `cmd = RUN`; with an empty breakpoints table the hook mask
becomes 0, and then no event delivered by the VM changes the state or writes a
frame; with a non-empty table the hook mask is as it was. -/
theorem run_command_hook_mask (env : Env) (vm : LuaVM) (ar : lua_Debug) (s : Int)
    (line : String) (rest : List (Option String)) (w : World)
    (hs : s ≠ INVALID_SOCKET)
    (hargc : (getCmd env.PROT_MAX_ARGS line).1 ≠ 0)
    (hr : (getCmd env.PROT_MAX_ARGS line).2.getD 0 "" = "r") :
    promptLoop env vm ar s (some line :: rest) w =
      (0, { w with info := { w.info with cmd := CMD.RUN },
                   hookmask := if w.breakpoints = [] then 0 else w.hookmask,
                   recvs := rest }) ∧
    (w.breakpoints = [] →
      (promptLoop env vm ar s (some line :: rest) w).2.hookmask = 0 ∧
      ∀ cs : List HookCall,
        run (promptLoop env vm ar s (some line :: rest) w).2 cs =
          (promptLoop env vm ar s (some line :: rest) w).2) ∧
    (w.breakpoints ≠ [] →
      (promptLoop env vm ar s (some line :: rest) w).2.hookmask = w.hookmask) := by
  have h : promptLoop env vm ar s (some line :: rest) w =
      (0, { w with info := { w.info with cmd := CMD.RUN },
                   hookmask := if w.breakpoints = [] then 0 else w.hookmask,
                   recvs := rest }) := by
    rw [promptLoop_cons env vm ar s hs, dispatch_r env vm ar s _ _ w hargc hr]
  refine ⟨h, fun hb => ?_, fun hb => ?_⟩
  · have hm : (promptLoop env vm ar s (some line :: rest) w).2.hookmask = 0 := by
      rw [h]
      show (if w.breakpoints = [] then 0 else w.hookmask) = 0
      rw [if_pos hb]
    exact ⟨hm, fun cs => run_of_mask_zero cs _ hm⟩
  · rw [h]
    show (if w.breakpoints = [] then 0 else w.hookmask) = w.hookmask
    rw [if_neg hb]

/-- C7 at a concrete input: `r` right after loading, no breakpoint set; the
line events that follow produce no frame. -/
theorem run_command_hook_mask_witness :
    (promptLoop sampleEnv sampleVM (lineAt "foo.lua" 3).ar 3 [some "r"]
      (luaopen_RLdb 3 [some "r"] [])).2.hookmask = 0 ∧
    (run (promptLoop sampleEnv sampleVM (lineAt "foo.lua" 3).ar 3 [some "r"]
      (luaopen_RLdb 3 [some "r"] [])).2 [lineAt "foo.lua" 4, lineAt "foo.lua" 5]).out = [] :=
  ⟨((run_command_hook_mask sampleEnv sampleVM (lineAt "foo.lua" 3).ar 3 "r" []
      (luaopen_RLdb 3 [some "r"] []) (by decide) (by decide) (by decide)).2.1 rfl).1,
   by
    rw [((run_command_hook_mask sampleEnv sampleVM (lineAt "foo.lua" 3).ar 3 "r" []
      (luaopen_RLdb 3 [some "r"] []) (by decide) (by decide) (by decide)).2.1 rfl).2]
    decide⟩

/-- C5 (amended): for every command line the prompt loop reads that is not a
resume command (`s`, `o`, `f`, `r`) and not the unimplemented `e`, either the
handler returns, and then exactly one frame is handed to the socket in
response, an OK or an ER frame, and the loop reads the next command (or ends
with -1 when that send failed), or the handler does not return, which only
those of `lg`, `w` and `m` do, and then no frame is handed to the socket and
nothing more is read; a resume command hands nothing to the socket and ends
the loop with success; and the loop never writes a BR frame. -/
theorem one_reply_per_command (env : Env) (vm : LuaVM) (ar : lua_Debug) (s : Int)
    (line : String) (rest : List (Option String)) (w : World)
    (hs : s ≠ INVALID_SOCKET) :
    (((getCmd env.PROT_MAX_ARGS line).1 = 0 ∨
        (getCmd env.PROT_MAX_ARGS line).2.getD 0 "" ∉ ["s", "o", "f", "r", "e"]) →
      (∃ f ok w', Frame.isReply f = true ∧ w'.out = w.out ++ [(f, ok)] ∧
        w'.lost = w.lost ∧
        promptLoop env vm ar s (some line :: rest) w =
          if ok = true then promptLoop env vm ar s rest w'
          else (-1, { w' with recvs := rest })) ∨
      ((getCmd env.PROT_MAX_ARGS line).1 ≠ 0 ∧
        (getCmd env.PROT_MAX_ARGS line).2.getD 0 "" ∈ ["lg", "w", "m"] ∧
        handle env vm ar s ((getCmd env.PROT_MAX_ARGS line).2.getD 0 "")
          (getCmd env.PROT_MAX_ARGS line).2.tail ((getCmd env.PROT_MAX_ARGS line).1 - 1) w =
          lose w ∧
        (w.lost = false →
          promptLoop env vm ar s (some line :: rest) w =
            (0, { w with lost := true, recvs := rest })))) ∧
    ((getCmd env.PROT_MAX_ARGS line).1 ≠ 0 →
      (getCmd env.PROT_MAX_ARGS line).2.getD 0 "" ∈ ["s", "o", "f", "r"] →
      (promptLoop env vm ar s (some line :: rest) w).1 = 0 ∧
      (promptLoop env vm ar s (some line :: rest) w).2.out = w.out) ∧
    ∃ l, (promptLoop env vm ar s (some line :: rest) w).2.out = w.out ++ l ∧
      ∀ x ∈ l, Frame.isReply x.1 = true ∧ Frame.isBreak x.1 = false := by
  refine ⟨fun hcmd => ?_, fun hargc hres => ?_, ?_⟩
  · rw [promptLoop_cons env vm ar s hs]
    have hr : (∃ r, Replied w r ∧ dispatch env vm ar s (getCmd env.PROT_MAX_ARGS line).1
        (getCmd env.PROT_MAX_ARGS line).2 w = Dispatch.handled r) ∨
        ((getCmd env.PROT_MAX_ARGS line).1 ≠ 0 ∧
          (getCmd env.PROT_MAX_ARGS line).2.getD 0 "" ∈ ["lg", "w", "m"] ∧
          handle env vm ar s ((getCmd env.PROT_MAX_ARGS line).2.getD 0 "")
            (getCmd env.PROT_MAX_ARGS line).2.tail ((getCmd env.PROT_MAX_ARGS line).1 - 1) w =
            lose w ∧
          dispatch env vm ar s (getCmd env.PROT_MAX_ARGS line).1
            (getCmd env.PROT_MAX_ARGS line).2 w = Dispatch.handled (lose w)) := by
      unfold dispatch
      rcases hcmd with h0 | hne
      · rw [if_pos h0]
        exact Or.inl ⟨_, SendErr_replied s w "Invalid command!", rfl⟩
      · by_cases h0 : (getCmd env.PROT_MAX_ARGS line).1 = 0
        · rw [if_pos h0]
          exact Or.inl ⟨_, SendErr_replied s w "Invalid command!", rfl⟩
        · simp only [List.mem_cons, List.mem_singleton, List.not_mem_nil, or_false,
            not_or] at hne
          rw [if_neg h0, if_neg hne.1, if_neg hne.2.1, if_neg hne.2.2.1, if_neg hne.2.2.2.1]
          rcases handle_cases env vm ar s ((getCmd env.PROT_MAX_ARGS line).2.getD 0 "")
            (getCmd env.PROT_MAX_ARGS line).2.tail ((getCmd env.PROT_MAX_ARGS line).1 - 1) w
            with ⟨he, _⟩ | ⟨_, h⟩ | ⟨hc, h⟩
          · exact absurd he hne.2.2.2.2
          · exact Or.inl ⟨_, h, rfl⟩
          · refine Or.inr ⟨h0, ?_, h, by rw [h]⟩
            simp only [List.mem_cons, List.mem_singleton, List.not_mem_nil, or_false]
            exact hc
    rcases hr with ⟨r, hrep, hd⟩ | ⟨h0, hc, hh, hd⟩
    · left
      obtain ⟨_, _, _, f, ok, hf, hout, hrc⟩ := hrep.frame
      have hk := hrep.kept
      have hlost : r.2.lost = w.lost := by
        obtain ⟨f2, ok2, sends2, bps2, cache2, _, rfl⟩ := hrep
        rfl
      rw [hd]
      refine ⟨f, ok, r.2, hf, hout, hlost, ?_⟩
      show (if abandoned w r = true then (0, { r.2 with recvs := rest })
        else if r.1 < 0 then (-1, { r.2 with recvs := rest })
        else promptLoop env vm ar s rest r.2) = _
      rw [hk, if_neg (by decide)]
      cases ok with
      | false => rw [if_pos (hrc.2 rfl), if_neg (by decide)]
      | true =>
        rw [if_neg (fun h => Bool.noConfusion (hrc.1 h)), if_pos rfl]
    · right
      refine ⟨h0, hc, hh, fun hl => ?_⟩
      rw [hd]
      show (if abandoned w (lose w) = true then (0, { (lose w).2 with recvs := rest })
        else if (lose w).1 < 0 then (-1, { (lose w).2 with recvs := rest })
        else promptLoop env vm ar s rest (lose w).2) = _
      rw [abandoned_lose, hl]
      rfl
  · rw [promptLoop_cons env vm ar s hs]
    have hd : (∃ c, dispatch env vm ar s (getCmd env.PROT_MAX_ARGS line).1
        (getCmd env.PROT_MAX_ARGS line).2 w = Dispatch.resume c w) ∨
        (∃ c, dispatch env vm ar s (getCmd env.PROT_MAX_ARGS line).1
          (getCmd env.PROT_MAX_ARGS line).2 w = Dispatch.resume c { w with hookmask := 0 }) := by
      unfold dispatch
      rw [if_neg hargc]
      simp only [List.mem_cons, List.mem_singleton, List.not_mem_nil, or_false] at hres
      by_cases h1 : (getCmd env.PROT_MAX_ARGS line).2.getD 0 "" = "s"
      · rw [if_pos h1]; exact Or.inl ⟨_, rfl⟩
      rw [if_neg h1]
      by_cases h2 : (getCmd env.PROT_MAX_ARGS line).2.getD 0 "" = "o"
      · rw [if_pos h2]; exact Or.inl ⟨_, rfl⟩
      rw [if_neg h2]
      by_cases h3 : (getCmd env.PROT_MAX_ARGS line).2.getD 0 "" = "f"
      · rw [if_pos h3]; exact Or.inl ⟨_, rfl⟩
      rw [if_neg h3]
      by_cases h4 : (getCmd env.PROT_MAX_ARGS line).2.getD 0 "" = "r"
      · rw [if_pos h4]
        by_cases h5 : (!Tbl.hasNext w.breakpoints) = true
        · rw [if_pos h5]; exact Or.inr ⟨_, rfl⟩
        · rw [if_neg h5]; exact Or.inl ⟨_, rfl⟩
      · rcases hres with h | h | h | h
        · exact absurd h h1
        · exact absurd h h2
        · exact absurd h h3
        · exact absurd h h4
    rcases hd with ⟨c, h⟩ | ⟨c, h⟩
    · rw [h]; exact ⟨rfl, rfl⟩
    · rw [h]; exact ⟨rfl, rfl⟩
  · obtain ⟨l, hl, hall⟩ := (promptLoop_spec env vm ar s (some line :: rest) w).out
    exact ⟨l, hl, fun x hx => ⟨hall x hx, isBreak_of_isReply _ (hall x hx)⟩⟩

/-- C5 (amended) at a concrete input: `ll 1` is answered by one OK frame. -/
theorem one_reply_per_command_witness :
    ∃ f ok w', Frame.isReply f = true ∧
      w'.out = (luaopen_RLdb 3 [] []).out ++ [(f, ok)] ∧
      w'.lost = (luaopen_RLdb 3 [] []).lost ∧
      promptLoop sampleEnv sampleVM (lineAt "foo.lua" 3).ar 3 [some "ll 1", some "s"]
          (luaopen_RLdb 3 [] []) =
        if ok = true then
          promptLoop sampleEnv sampleVM (lineAt "foo.lua" 3).ar 3 [some "s"] w'
        else (-1, { w' with recvs := [some "s"] }) :=
  ((one_reply_per_command sampleEnv sampleVM (lineAt "foo.lua" 3).ar 3 "ll 1" [some "s"]
    (luaopen_RLdb 3 [] []) (by decide)).1 (Or.inr (by decide))).resolve_right
      (fun h => absurd h.2.1 (by decide))

/-- C5 as stated fails. The command `s` received after the BR frame of line 3
is answered by no OK and no ER frame: the next frame is the BR frame of line
4. The command `e` is answered by no frame and ends the loop with -1. The
commands `lg 0` and `w 2 g x`, at a level without a function, and the
command `w ""`, with an empty field path, meet a failing assertion, the
command `m 1 1` reads an address that is not readable, and the command `lg`
over a table with a number key makes `lua_next` raise: no frame is written and
nothing more is read. -/
theorem resume_command_gets_no_reply :
    (hooks (luaopen_RLdb 3 [some "s", some "s"] [])
      [lineAt "foo.lua" 3, lineAt "foo.lua" 4]).out =
      [(Frame.BR "foo.lua" 3, true), (Frame.BR "foo.lua" 4, true)] ∧
    promptLoop sampleEnv sampleVM (lineAt "foo.lua" 3).ar 3 [some "e", some "s"]
        (luaopen_RLdb 3 [] []) =
      (-1, { luaopen_RLdb 3 [] [] with recvs := [some "s"] }) ∧
    promptLoop sampleEnv tailCallVM (lineAt "foo.lua" 3).ar 3 [some "lg 0", some "s"]
        (luaopen_RLdb 3 [] []) =
      (0, { luaopen_RLdb 3 [] [] with lost := true, recvs := [some "s"] }) ∧
    getCmd sampleEnv.PROT_MAX_ARGS "w \"\"" = (2, ["w", ""]) ∧
    promptLoop sampleEnv sampleVM (lineAt "foo.lua" 3).ar 3 [some "w \"\"", some "s"]
        (luaopen_RLdb 3 [] []) =
      (0, { luaopen_RLdb 3 [] [] with lost := true, recvs := [some "s"] }) ∧
    promptLoop sampleEnv lostCallVM (lineAt "foo.lua" 3).ar 3 [some "w 2 g x", some "s"]
        (luaopen_RLdb 3 [] []) =
      (0, { luaopen_RLdb 3 [] [] with lost := true, recvs := [some "s"] }) ∧
    promptLoop sampleEnv faultVM (lineAt "foo.lua" 3).ar 3 [some "m 1 1", some "s"]
        (luaopen_RLdb 3 [] []) =
      (0, { luaopen_RLdb 3 [] [] with lost := true, recvs := [some "s"] }) ∧
    promptLoop sampleEnv numberKeyVM (lineAt "foo.lua" 3).ar 3 [some "lg", some "s"]
        (luaopen_RLdb 3 [] []) =
      (0, { luaopen_RLdb 3 [] [] with lost := true, recvs := [some "s"] }) := by
  decide

namespace Tbl

variable {κ ν : Type} [DecidableEq κ]

theorem rawget_insert (t : Tbl κ ν) (k : κ) (v : ν) (k' : κ) :
    rawget (insert t k v) k' = if k' = k then some v else rawget t k' := by
  induction t with
  | nil =>
    by_cases h : k' = k
    · subst h; simp [insert, rawget]
    · simp [insert, rawget, h, Ne.symm h]
  | cons e t ih =>
    obtain ⟨a, b⟩ := e
    by_cases ha : a = k
    · subst ha
      by_cases h : k' = a
      · subst h; simp [insert, rawget]
      · simp [insert, rawget, h, Ne.symm h]
    · by_cases h : k' = k
      · subst h
        simp [insert, rawget, ha, ih]
      · by_cases hak : a = k'
        · subst hak
          simp [insert, rawget, h]
        · simp [insert, rawget, ha, hak, ih, h]

theorem rawget_erase (t : Tbl κ ν) (k k' : κ) :
    rawget (erase t k) k' = if k' = k then none else rawget t k' := by
  induction t with
  | nil => simp [erase, rawget]
  | cons e t ih =>
    obtain ⟨a, b⟩ := e
    by_cases ha : a = k
    · subst ha
      by_cases h : k' = a
      · subst h; simp [erase, rawget, ih]
      · simp [erase, rawget, ih, h, Ne.symm h]
    · by_cases h : k' = k
      · subst h
        simp [erase, rawget, ha, ih]
      · by_cases hak : a = k'
        · subst hak
          simp [erase, rawget, h]
        · simp [erase, rawget, ha, hak, ih, h]

theorem insert_ne_nil (t : Tbl κ ν) (k : κ) (v : ν) : insert t k v ≠ [] := by
  cases t with
  | nil => simp [insert]
  | cons e t =>
    obtain ⟨a, b⟩ := e
    by_cases ha : a = k <;> simp [insert, ha]

theorem not_mem_keys_erase (t : Tbl κ ν) (k : κ) : k ∉ keys (erase t k) := by
  induction t with
  | nil => simp [erase, keys]
  | cons e t ih =>
    obtain ⟨a, b⟩ := e
    by_cases ha : a = k
    · simpa [erase, ha] using ih
    · simp only [erase, if_neg ha, keys, List.map_cons, List.mem_cons, not_or]
      exact ⟨Ne.symm ha, ih⟩

theorem erase_eq_nil (t : Tbl κ ν) (k : κ) (h : ∀ k' ∈ keys t, k' = k) : erase t k = [] := by
  induction t with
  | nil => rfl
  | cons e t ih =>
    obtain ⟨a, b⟩ := e
    have ha : a = k := h a (by simp [keys])
    have ht : ∀ k' ∈ keys t, k' = k := fun k' hk' => h k' (by
      simp only [keys, List.map_cons, List.mem_cons]
      exact Or.inr hk')
    simp [erase, ha, ih ht]

end Tbl

/-- Lookup in the table left by the table operations of `setBreakPoint`. -/
theorem rawget_storeBreakPoint (bps : Tbl String (Tbl Int Bool)) (path : String)
    (line : Int) (del : Bool) (p : String) :
    Tbl.rawget (storeBreakPoint bps path line del) p =
      if p = path then
        if del = true then
          if Tbl.erase ((Tbl.rawget bps path).getD []) line = [] then none
          else some (Tbl.erase ((Tbl.rawget bps path).getD []) line)
        else some (Tbl.insert ((Tbl.rawget bps path).getD []) line true)
      else Tbl.rawget bps p := by
  unfold storeBreakPoint
  simp only
  have hbase : ∀ q, q ≠ path →
      Tbl.rawget (if (Tbl.rawget bps path).isNone = true then Tbl.rawset bps path (some [])
        else bps) q = Tbl.rawget bps q := by
    intro q hq
    split_ifs
    · simp [Tbl.rawset, Tbl.rawget_insert, hq]
    · rfl
  cases del with
  | true =>
    simp only [if_true, Tbl.rawset, true_and]
    by_cases he : Tbl.erase ((Tbl.rawget bps path).getD []) line = []
    · rw [if_pos ((not_hasNext_iff _).2 he), if_pos he, Tbl.rawget_erase]
      by_cases hp : p = path
      · rw [if_pos hp, if_pos hp]
      · rw [if_neg hp, if_neg hp, Tbl.rawget_insert, if_neg hp]
        exact hbase p hp
    · rw [if_neg (fun h => he ((not_hasNext_iff _).1 h)), if_neg he, Tbl.rawget_insert]
      by_cases hp : p = path
      · rw [if_pos hp, if_pos hp]
      · rw [if_neg hp, if_neg hp]
        exact hbase p hp
  | false =>
    simp only [Bool.false_eq_true, false_and, if_false, Tbl.rawset]
    rw [Tbl.rawget_insert]
    by_cases hp : p = path
    · rw [if_pos hp, if_pos hp]
    · rw [if_neg hp, if_neg hp]
      exact hbase p hp

theorem send_breakpoints (s : Int) (w : World) (f : Frame) :
    (send s w f).2.breakpoints = w.breakpoints := by
  obtain ⟨ok, sends', h⟩ := send_eq s w f
  rw [h]

/-- The breakpoints table after `setBreakPoint`: untouched on the error paths,
otherwise the result of the table operations on the canonical path. -/
theorem setBreakPoint_breakpoints (env : Env) (src : String) (argv : List String)
    (argc : Int) (del : Bool) (s : Int) (w : World) :
    (setBreakPoint env src argv argc del s w).2.breakpoints =
      if argc < 2 ∨ strtol (argv.getD 1 "") ≤ 0 then w.breakpoints
      else
        match _fullpath env (if argv.getD 0 "" = "." then src else argv.getD 0 "")
            env.MAX_PATH with
        | none => w.breakpoints
        | some path =>
          if !env.access path then w.breakpoints
          else storeBreakPoint w.breakpoints path (strtol (argv.getD 1 "")) del := by
  unfold setBreakPoint
  generalize (if argv.getD 0 "" = "." then src else argv.getD 0 "") = file
  by_cases h1 : argc < 2 ∨ strtol (argv.getD 1 "") ≤ 0
  · rw [if_pos h1, if_pos h1]; exact send_breakpoints _ _ _
  · rw [if_neg h1, if_neg h1]
    cases hp : _fullpath env file env.MAX_PATH with
    | none => exact send_breakpoints _ _ _
    | some path =>
      by_cases h2 : (!env.access path) = true
      · simp only [if_pos h2]; exact send_breakpoints _ _ _
      · simp only [if_neg h2]; exact send_breakpoints _ _ _

theorem storeBreakPoint_noEmpty (bps : Tbl String (Tbl Int Bool)) (path : String)
    (line : Int) (del : Bool) (h : NoEmptyTable bps) :
    NoEmptyTable (storeBreakPoint bps path line del) := by
  intro p t ht
  rw [rawget_storeBreakPoint] at ht
  by_cases hp : p = path
  · rw [if_pos hp] at ht
    cases del with
    | true =>
      rw [if_pos rfl] at ht
      by_cases he : Tbl.erase ((Tbl.rawget bps path).getD []) line = []
      · rw [if_pos he] at ht; exact Option.noConfusion ht
      · rw [if_neg he] at ht
        injection ht with ht
        rw [← ht]; exact he
    | false =>
      rw [if_neg (by decide)] at ht
      injection ht with ht
      rw [← ht]; exact Tbl.insert_ne_nil _ _ _
  · rw [if_neg hp] at ht
    exact h p t ht

theorem setBreakPoint_noEmpty (env : Env) (src : String) (argv : List String)
    (argc : Int) (del : Bool) (s : Int) (w : World) (h : NoEmptyTable w.breakpoints) :
    NoEmptyTable (setBreakPoint env src argv argc del s w).2.breakpoints := by
  rw [setBreakPoint_breakpoints]
  generalize (if argv.getD 0 "" = "." then src else argv.getD 0 "") = file
  by_cases h1 : argc < 2 ∨ strtol (argv.getD 1 "") ≤ 0
  · rw [if_pos h1]; exact h
  · rw [if_neg h1]
    cases hp : _fullpath env file env.MAX_PATH with
    | none => exact h
    | some path =>
      by_cases h2 : (!env.access path) = true
      · simp only [if_pos h2]; exact h
      · simp only [if_neg h2]; exact storeBreakPoint_noEmpty _ _ _ _ h

theorem breakCmds_noEmpty (cs : List BreakCmd) :
    ∀ w : World, NoEmptyTable w.breakpoints → NoEmptyTable (breakCmds w cs).breakpoints := by
  induction cs with
  | nil => intro w h; exact h
  | cons c cs ih =>
    intro w h
    exact ih _ (setBreakPoint_noEmpty c.env c.src c.argv c.argc c.del c.s w h)

theorem mem_sortKey {κ ν : Type} [LinearOrder κ] (t : Tbl κ ν) (k : κ) :
    k ∈ sortKey t ↔ k ∈ Tbl.keys t :=
  (List.perm_insertionSort (· ≤ ·) (Tbl.keys t)).mem_iff

theorem mem_lbPairs_key (bps : Tbl String (Tbl Int Bool)) (p : String) (l : Int)
    (h : (p, l) ∈ lbPairs bps) : p ∈ Tbl.keys bps := by
  unfold lbPairs at h
  rw [List.mem_flatMap] at h
  obtain ⟨q, hq, hm⟩ := h
  rw [List.mem_map] at hm
  obtain ⟨l', _, he⟩ := hm
  injection he with h1 h2
  rw [← h1]
  exact (mem_sortKey bps q).1 hq

/-- C10: after every sequence of `sb`/`db` commands applied to the empty
breakpoints table no path key maps to an empty line table; and a `db` that
removes the last remaining line of a path removes the path key, so that `lb`
visits no pair of that path. -/
theorem no_empty_line_table (w : World) (cs : List BreakCmd) (h0 : w.breakpoints = []) :
    (∀ p t, Tbl.rawget (breakCmds w cs).breakpoints p = some t → t ≠ []) ∧
    ∀ (env : Env) (src : String) (argv : List String) (argc : Int) (s : Int)
      (path : String) (t : Tbl Int Bool),
      2 ≤ argc → 0 < strtol (argv.getD 1 "") →
      _fullpath env (if argv.getD 0 "" = "." then src else argv.getD 0 "") env.MAX_PATH
        = some path →
      env.access path = true →
      Tbl.rawget (breakCmds w cs).breakpoints path = some t →
      (∀ l ∈ Tbl.keys t, l = strtol (argv.getD 1 "")) →
      Tbl.rawget (setBreakPoint env src argv argc true s (breakCmds w cs)).2.breakpoints path
        = none ∧
      path ∉ Tbl.keys (setBreakPoint env src argv argc true s (breakCmds w cs)).2.breakpoints ∧
      ∀ l, (path, l) ∉
        lbPairs (setBreakPoint env src argv argc true s (breakCmds w cs)).2.breakpoints := by
  refine ⟨breakCmds_noEmpty cs w (by rw [h0]; intro p t h; exact Option.noConfusion h), ?_⟩
  intro env src argv argc s path t hargc hline hpath hacc hget hlast
  have hb : (setBreakPoint env src argv argc true s (breakCmds w cs)).2.breakpoints =
      storeBreakPoint (breakCmds w cs).breakpoints path (strtol (argv.getD 1 "")) true := by
    rw [setBreakPoint_breakpoints, if_neg (by omega), hpath]
    simp only [hacc, Bool.not_true, Bool.false_eq_true, if_false]
  have he : Tbl.erase ((Tbl.rawget (breakCmds w cs).breakpoints path).getD [])
      (strtol (argv.getD 1 "")) = [] := by
    rw [hget]
    exact Tbl.erase_eq_nil t _ hlast
  have hk : path ∉ Tbl.keys (storeBreakPoint (breakCmds w cs).breakpoints path
      (strtol (argv.getD 1 "")) true) := by
    unfold storeBreakPoint
    simp only [true_and]
    rw [if_pos]
    · exact Tbl.not_mem_keys_erase _ _
    · exact (not_hasNext_iff _).2 (by simpa [Tbl.rawset] using he)
  rw [hb]
  refine ⟨?_, hk, fun l hl => hk (mem_lbPairs_key _ _ _ hl)⟩
  rw [rawget_storeBreakPoint, if_pos rfl, if_pos rfl, if_pos he]

/-- C10 at a concrete input: with breakpoints at `a.lua` lines 3 and 1 and at
`b.lua` line 2, after `db a.lua 1` the command `db a.lua 3` leaves no entry for
`a.lua`. -/
theorem no_empty_line_table_witness :
    (luaopen_RLdb 3 [] []).breakpoints = [] ∧
    Tbl.rawget (setBreakPoint sampleEnv "foo.lua" ["a.lua", "3"] 2 true 3
      (breakCmds (luaopen_RLdb 3 [] [])
        [⟨sampleEnv, "foo.lua", ["a.lua", "3"], 2, false, 3⟩,
         ⟨sampleEnv, "foo.lua", ["a.lua", "1"], 2, false, 3⟩,
         ⟨sampleEnv, "foo.lua", ["b.lua", "2"], 2, false, 3⟩,
         ⟨sampleEnv, "foo.lua", ["a.lua", "1"], 2, true, 3⟩])).2.breakpoints
      "/home/u/a.lua" = none :=
  ⟨rfl, ((no_empty_line_table (luaopen_RLdb 3 [] [])
      [⟨sampleEnv, "foo.lua", ["a.lua", "3"], 2, false, 3⟩,
       ⟨sampleEnv, "foo.lua", ["a.lua", "1"], 2, false, 3⟩,
       ⟨sampleEnv, "foo.lua", ["b.lua", "2"], 2, false, 3⟩,
       ⟨sampleEnv, "foo.lua", ["a.lua", "1"], 2, true, 3⟩] rfl).2
    sampleEnv "foo.lua" ["a.lua", "3"] 2 3 "/home/u/a.lua" [(3, true)]
    (by decide) (by decide) (by decide) rfl (by decide) (by decide)).1⟩

theorem length_dropWhile_le {α : Type} (f : α → Bool) (l : List α) :
    (l.dropWhile f).length ≤ l.length := by
  induction l with
  | nil => simp
  | cons a l ih =>
    rw [List.dropWhile_cons]
    split
    · exact Nat.le_succ_of_le ih
    · exact Nat.le_refl _

/-- The iteration bound of `getCmdLoop` is never reached: one more unit of it
changes nothing once it exceeds the length of the unread input. -/
theorem getCmdLoop_fuel (maxArgs : Nat) (fuel : Nat) :
    ∀ (p : List Char) (argv : List String), p.length < fuel →
      getCmdLoop maxArgs (fuel + 1) p argv = getCmdLoop maxArgs fuel p argv := by
  induction fuel with
  | zero => intro p argv h; exact absurd h (Nat.not_lt_zero _)
  | succ k ih =>
    intro p argv h
    rw [getCmdLoop, getCmdLoop]
    by_cases h0 : p = [] ∨ maxArgs ≤ argv.length
    · rw [if_pos h0, if_pos h0]
    · rw [if_neg h0, if_neg h0]
      have hd := length_dropWhile_le (· = ' ') p
      split
      · rename_i q hq
        rw [hq] at hd
        simp only [List.length_cons] at hd
        by_cases hm : '"' ∈ q
        · rw [if_pos hm, if_pos hm]
          apply ih
          have := length_dropWhile_le (· ≠ '"') q
          have := List.length_tail (q.dropWhile (· ≠ '"'))
          omega
        · rw [if_neg hm, if_neg hm]
      · rename_i p1 _
        by_cases he : (p.dropWhile (· = ' ')).dropWhile (· ≠ ' ') = []
        · rw [if_pos he, if_pos he]
        · rw [if_neg he, if_neg he]
          apply ih
          have h1 := length_dropWhile_le (· ≠ ' ') (p.dropWhile (· = ' '))
          have h2 := List.length_tail ((p.dropWhile (· = ' ')).dropWhile (· ≠ ' '))
          have h3 : 0 < ((p.dropWhile (· = ' ')).dropWhile (· ≠ ' ')).length :=
            List.length_pos.2 he
          omega

theorem send_out (s : Int) (w : World) (f : Frame) :
    ∃ ok, (send s w f).2.out = w.out ++ [(f, ok)] := by
  obtain ⟨ok, sends', h⟩ := send_eq s w f
  exact ⟨ok, by rw [h]⟩

/-- The one frame `setBreakPoint` hands to the socket. -/
theorem setBreakPoint_out (env : Env) (src : String) (argv : List String)
    (argc : Int) (del : Bool) (s : Int) (w : World) :
    ∃ ok, (setBreakPoint env src argv argc del s w).2.out =
      w.out ++ [(setBreakPointReply env src argv argc, ok)] := by
  unfold setBreakPoint setBreakPointReply
  generalize (if argv.getD 0 "" = "." then src else argv.getD 0 "") = file
  by_cases h1 : argc < 2 ∨ strtol (argv.getD 1 "") ≤ 0
  · rw [if_pos h1, if_pos h1]; exact send_out _ _ _
  · rw [if_neg h1, if_neg h1]
    cases hp : _fullpath env file env.MAX_PATH with
    | none => exact send_out _ _ _
    | some path =>
      by_cases h2 : (!env.access path) = true
      · simp only [if_pos h2]; exact send_out _ _ _
      · simp only [if_neg h2]; exact send_out _ _ _

theorem hasBreakpoint_storeBreakPoint (bps : Tbl String (Tbl Int Bool)) (path : String)
    (line : Int) (del : Bool) (p : String) (l : Int) :
    hasBreakpoint (storeBreakPoint bps path line del) p l =
      if p = path ∧ l = line then !del else hasBreakpoint bps p l := by
  unfold hasBreakpoint
  rw [rawget_storeBreakPoint]
  by_cases hp : p = path
  · subst hp
    rw [if_pos rfl]
    cases del with
    | true =>
      rw [if_pos rfl]
      by_cases he : Tbl.erase ((Tbl.rawget bps p).getD []) line = []
      · rw [if_pos he]
        by_cases hl : l = line
        · rw [if_pos ⟨rfl, hl⟩]; rfl
        · rw [if_neg (fun h => hl h.2)]
          have h1 := Tbl.rawget_erase ((Tbl.rawget bps p).getD []) line l
          rw [he, if_neg hl] at h1
          cases hg : Tbl.rawget bps p with
          | none => rfl
          | some t =>
            rw [hg] at h1
            simp only [Option.getD_some] at h1
            simp only
            rw [← h1]
            rfl
      · rw [if_neg he]
        simp only
        rw [Tbl.rawget_erase]
        by_cases hl : l = line
        · rw [if_pos hl, if_pos ⟨trivial, hl⟩]; rfl
        · rw [if_neg hl, if_neg (fun h => hl h.2)]
          cases hg : Tbl.rawget bps p with
          | none => rfl
          | some t => rfl
    | false =>
      rw [if_neg (by decide)]
      simp only
      rw [Tbl.rawget_insert]
      by_cases hl : l = line
      · rw [if_pos hl, if_pos ⟨trivial, hl⟩]; rfl
      · rw [if_neg hl, if_neg (fun h => hl h.2)]
        cases hg : Tbl.rawget bps p with
        | none => rfl
        | some t => rfl
  · rw [if_neg hp, if_neg (fun h => hp h.1)]

theorem setBreakPoint_stored (env : Env) (src : String) (argv : List String) (argc : Int)
    (del : Bool) (s : Int) (w : World) (path : String)
    (hargc : 2 ≤ argc) (hline : 0 < strtol (argv.getD 1 ""))
    (hpath : _fullpath env (if argv.getD 0 "" = "." then src else argv.getD 0 "")
      env.MAX_PATH = some path)
    (hacc : env.access path = true) :
    (setBreakPoint env src argv argc del s w).2.breakpoints =
      storeBreakPoint w.breakpoints path (strtol (argv.getD 1 "")) del ∧
    setBreakPointReply env src argv argc = Frame.OK "" := by
  constructor
  · rw [setBreakPoint_breakpoints, if_neg (by omega), hpath]
    simp only [hacc, Bool.not_true, Bool.false_eq_true, if_false]
  · unfold setBreakPointReply
    rw [if_neg (by omega), hpath]
    simp only [hacc, Bool.not_true, Bool.false_eq_true, if_false]

/-- C11: for an accessible path and a line above 0, after `sb` the pair
(canonical path, line) is in the breakpoints table and after `db` it is not;
both hand the frame `OK` with an empty payload to the socket; the membership of
every other pair is as before, so `sb` of a present and `db` of an absent
breakpoint change no membership. -/
theorem sb_db_membership (env : Env) (src : String) (argv : List String) (argc : Int)
    (s : Int) (w : World) (path : String)
    (hargc : 2 ≤ argc) (hline : 0 < strtol (argv.getD 1 ""))
    (hpath : _fullpath env (if argv.getD 0 "" = "." then src else argv.getD 0 "")
      env.MAX_PATH = some path)
    (hacc : env.access path = true) :
    hasBreakpoint (setBreakPoint env src argv argc false s w).2.breakpoints path
      (strtol (argv.getD 1 "")) = true ∧
    hasBreakpoint (setBreakPoint env src argv argc true s w).2.breakpoints path
      (strtol (argv.getD 1 "")) = false ∧
    (∀ p l, ¬ (p = path ∧ l = strtol (argv.getD 1 "")) →
      hasBreakpoint (setBreakPoint env src argv argc false s w).2.breakpoints p l =
        hasBreakpoint w.breakpoints p l ∧
      hasBreakpoint (setBreakPoint env src argv argc true s w).2.breakpoints p l =
        hasBreakpoint w.breakpoints p l) ∧
    (∃ ok, (setBreakPoint env src argv argc false s w).2.out = w.out ++ [(Frame.OK "", ok)]) ∧
    (∃ ok, (setBreakPoint env src argv argc true s w).2.out = w.out ++ [(Frame.OK "", ok)]) ∧
    (hasBreakpoint w.breakpoints path (strtol (argv.getD 1 "")) = true →
      ∀ p l, hasBreakpoint (setBreakPoint env src argv argc false s w).2.breakpoints p l =
        hasBreakpoint w.breakpoints p l) ∧
    (hasBreakpoint w.breakpoints path (strtol (argv.getD 1 "")) = false →
      ∀ p l, hasBreakpoint (setBreakPoint env src argv argc true s w).2.breakpoints p l =
        hasBreakpoint w.breakpoints p l) := by
  have hs := setBreakPoint_stored env src argv argc false s w path hargc hline hpath hacc
  have hd := setBreakPoint_stored env src argv argc true s w path hargc hline hpath hacc
  have os := setBreakPoint_out env src argv argc false s w
  have od := setBreakPoint_out env src argv argc true s w
  rw [hs.2] at os
  rw [hd.2] at od
  rw [hs.1, hd.1]
  refine ⟨?_, ?_, fun p l hne => ⟨?_, ?_⟩, os, od, fun hin p l => ?_, fun hout p l => ?_⟩
  · rw [hasBreakpoint_storeBreakPoint, if_pos ⟨rfl, rfl⟩]; rfl
  · rw [hasBreakpoint_storeBreakPoint, if_pos ⟨rfl, rfl⟩]; rfl
  · rw [hasBreakpoint_storeBreakPoint, if_neg hne]
  · rw [hasBreakpoint_storeBreakPoint, if_neg hne]
  · rw [hasBreakpoint_storeBreakPoint]
    by_cases h : p = path ∧ l = strtol (argv.getD 1 "")
    · rw [if_pos h, h.1, h.2, hin]; rfl
    · rw [if_neg h]
  · rw [hasBreakpoint_storeBreakPoint]
    by_cases h : p = path ∧ l = strtol (argv.getD 1 "")
    · rw [if_pos h, h.1, h.2, hout]; rfl
    · rw [if_neg h]

/-- C11 at a concrete input: `sb foo.lua 10` after loading. -/
theorem sb_db_membership_witness :
    hasBreakpoint (setBreakPoint sampleEnv "main.lua" ["foo.lua", "10"] 2 false 3
      (luaopen_RLdb 3 [] [])).2.breakpoints "/home/u/foo.lua" 10 = true :=
  (sb_db_membership sampleEnv "main.lua" ["foo.lua", "10"] 2 3 (luaopen_RLdb 3 [] [])
    "/home/u/foo.lua" (by decide) (by decide) (by decide) rfl).1

/-- C13: whenever `setBreakPoint` replies ER the breakpoints table is left as
it was; with fewer than two arguments or a line that parses to a value of at
most 0 the reply is `Invalid argument!`; otherwise, when canonicalisation
fails or the canonical file is not accessible, it is `Invalid path!`. -/
theorem setBreakPoint_error_keeps_table (env : Env) (src : String) (argv : List String)
    (argc : Int) (del : Bool) (s : Int) (w : World) :
    (∀ t ok, (setBreakPoint env src argv argc del s w).2.out = w.out ++ [(Frame.ER t, ok)] →
      (setBreakPoint env src argv argc del s w).2.breakpoints = w.breakpoints) ∧
    ((argc < 2 ∨ strtol (argv.getD 1 "") ≤ 0) →
      ∃ ok, (setBreakPoint env src argv argc del s w).2.out =
        w.out ++ [(Frame.ER "Invalid argument!", ok)]) ∧
    (¬ (argc < 2 ∨ strtol (argv.getD 1 "") ≤ 0) →
      (_fullpath env (if argv.getD 0 "" = "." then src else argv.getD 0 "") env.MAX_PATH
          = none ∨
        ∃ path, _fullpath env (if argv.getD 0 "" = "." then src else argv.getD 0 "")
          env.MAX_PATH = some path ∧ env.access path = false) →
      ∃ ok, (setBreakPoint env src argv argc del s w).2.out =
        w.out ++ [(Frame.ER "Invalid path!", ok)]) := by
  obtain ⟨ok0, hout⟩ := setBreakPoint_out env src argv argc del s w
  have hb := setBreakPoint_breakpoints env src argv argc del s w
  unfold setBreakPointReply at hout
  refine ⟨fun t ok h => ?_, fun h1 => ?_, fun h1 h2 => ?_⟩
  · rw [hout] at h
    have hf := (Prod.mk.inj (List.cons.inj (List.append_cancel_left h)).1).1
    rw [hb]
    by_cases h1 : argc < 2 ∨ strtol (argv.getD 1 "") ≤ 0
    · rw [if_pos h1]
    · rw [if_neg h1] at hf ⊢
      cases hp : _fullpath env (if argv.getD 0 "" = "." then src else argv.getD 0 "")
          env.MAX_PATH with
      | none => rfl
      | some path =>
        rw [hp] at hf
        by_cases h2 : (!env.access path) = true
        · simp only [if_pos h2]
        · simp only [if_neg h2] at hf
          exact Frame.noConfusion hf
  · rw [if_pos h1] at hout
    exact ⟨ok0, hout⟩
  · rw [if_neg h1] at hout
    rcases h2 with h2 | ⟨path, h2, h3⟩
    · rw [h2] at hout
      exact ⟨ok0, hout⟩
    · rw [h2] at hout
      simp only [h3, Bool.not_false, if_true] at hout
      exact ⟨ok0, hout⟩

/-- C14: `sb . l` and `db . l` are the same call as the one naming the source
of the paused frame (same state, same reply); and when `sb .` with the current
line succeeds, `checkBreakPoint` at a line event of that source and line, in the
same environment, finds the breakpoint and prompts. -/
theorem dot_names_current_source (env : Env) (vm : LuaVM) (ar : lua_Debug)
    (rest : List String) (argc : Int) (s : Int) (w : World) :
    (∀ del, setBreakPoint env ar.short_src ("." :: rest) argc del s w =
      setBreakPoint env ar.short_src (ar.short_src :: rest) argc del s w) ∧
    (2 ≤ argc → 0 < strtol (rest.getD 0 "") → strtol (rest.getD 0 "") = ar.currentline →
      (∃ path, _fullpath env ar.short_src env.MAX_PATH = some path ∧
        env.access path = true) →
      ∀ w2 : World,
        w2.breakpoints =
          (setBreakPoint env ar.short_src ("." :: rest) argc false s w).2.breakpoints →
        breakpointHit env ar w2 = true ∧
        checkBreakPoint env vm ar w2 = prompt env vm ar w2.resetLevel) := by
  constructor
  · intro del
    unfold setBreakPoint
    simp
  · intro hargc hline hcur ⟨path, hpath, hacc⟩ w2 hw2
    have hs := (setBreakPoint_stored env ar.short_src ("." :: rest) argc false s w path
      hargc hline (by simpa using hpath) hacc).1
    have hm : hasBreakpoint w2.breakpoints path ar.currentline = true := by
      rw [hw2, hs, hasBreakpoint_storeBreakPoint, if_pos ⟨rfl, by simpa using hcur.symm⟩]
      rfl
    have hh : breakpointHit env ar w2 = true := by
      unfold breakpointHit
      rw [hpath]
      exact hm
    exact ⟨hh, by rw [checkBreakPoint_eq, if_pos hh]⟩

/-- C14 at a concrete input: `sb . 10` while paused in `foo.lua`. -/
theorem dot_names_current_source_witness :
    breakpointHit sampleEnv (lineAt "foo.lua" 10).ar
      (setBreakPoint sampleEnv "foo.lua" [".", "10"] 2 false 3 (luaopen_RLdb 3 [] [])).2
      = true :=
  ((dot_names_current_source sampleEnv sampleVM (lineAt "foo.lua" 10).ar ["10"] 2 3
    (luaopen_RLdb 3 [] [])).2 (by decide) (by decide) (by decide)
    ⟨"/home/u/foo.lua", by decide, rfl⟩ _ rfl).1

namespace Tbl

variable {κ ν : Type} [DecidableEq κ]

theorem rawget_isSome_iff (t : Tbl κ ν) (k : κ) : (rawget t k).isSome = true ↔ k ∈ keys t := by
  induction t with
  | nil => simp [rawget, keys]
  | cons e t ih =>
    obtain ⟨a, b⟩ := e
    by_cases ha : a = k
    · simp [rawget, keys, ha]
    · have : ¬ k = a := fun h => ha h.symm
      simp only [rawget, if_neg ha, ih, keys, List.map_cons, List.mem_cons, this, false_or]

theorem rawget_mem (t : Tbl κ ν) (k : κ) (v : ν) (h : rawget t k = some v) : (k, v) ∈ t := by
  induction t with
  | nil => simp [rawget] at h
  | cons e t ih =>
    obtain ⟨a, b⟩ := e
    by_cases ha : a = k
    · simp only [rawget, if_pos ha, Option.some.injEq] at h
      rw [ha, h]
      exact List.mem_cons_self _ _
    · simp only [rawget, if_neg ha] at h
      exact List.mem_cons_of_mem _ (ih h)

theorem mem_insert (t : Tbl κ ν) (k : κ) (v : ν) (e : κ × ν) (h : e ∈ insert t k v) :
    e = (k, v) ∨ e ∈ t := by
  induction t with
  | nil => simpa [insert] using h
  | cons x t ih =>
    obtain ⟨a, b⟩ := x
    by_cases ha : a = k
    · simp only [insert, if_pos ha, List.mem_cons] at h
      rcases h with h | h
      · exact Or.inl h
      · exact Or.inr (List.mem_cons_of_mem _ h)
    · simp only [insert, if_neg ha, List.mem_cons] at h
      rcases h with h | h
      · exact Or.inr (by rw [h]; exact List.mem_cons_self _ _)
      · rcases ih h with h | h
        · exact Or.inl h
        · exact Or.inr (List.mem_cons_of_mem _ h)

theorem mem_erase (t : Tbl κ ν) (k : κ) (e : κ × ν) (h : e ∈ erase t k) : e ∈ t := by
  induction t with
  | nil => simp [erase] at h
  | cons x t ih =>
    obtain ⟨a, b⟩ := x
    by_cases ha : a = k
    · simp only [erase, if_pos ha] at h
      exact List.mem_cons_of_mem _ (ih h)
    · simp only [erase, if_neg ha, List.mem_cons] at h
      rcases h with h | h
      · rw [h]; exact List.mem_cons_self _ _
      · exact List.mem_cons_of_mem _ (ih h)

theorem mem_keys_insert (t : Tbl κ ν) (k : κ) (v : ν) (k' : κ) :
    k' ∈ keys (insert t k v) ↔ k' = k ∨ k' ∈ keys t := by
  rw [← rawget_isSome_iff, ← rawget_isSome_iff, rawget_insert]
  by_cases h : k' = k
  · simp [h]
  · simp [h]

theorem mem_keys_erase (t : Tbl κ ν) (k k' : κ) :
    k' ∈ keys (erase t k) ↔ k' ≠ k ∧ k' ∈ keys t := by
  rw [← rawget_isSome_iff, ← rawget_isSome_iff, rawget_erase]
  by_cases h : k' = k
  · simp [h]
  · simp [h]

theorem nodup_keys_insert (t : Tbl κ ν) (k : κ) (v : ν) (h : (keys t).Nodup) :
    (keys (insert t k v)).Nodup := by
  induction t with
  | nil => simp [insert, keys]
  | cons x t ih =>
    obtain ⟨a, b⟩ := x
    simp only [keys, List.map_cons, List.nodup_cons] at h
    by_cases ha : a = k
    · simp only [insert, if_pos ha, keys, List.map_cons, List.nodup_cons]
      rw [← ha]
      exact h
    · simp only [insert, if_neg ha, keys, List.map_cons, List.nodup_cons]
      refine ⟨fun hm => ?_, ih h.2⟩
      rcases (mem_keys_insert t k v a).1 hm with h1 | h1
      · exact ha h1
      · exact h.1 h1

theorem nodup_keys_erase (t : Tbl κ ν) (k : κ) (h : (keys t).Nodup) :
    (keys (erase t k)).Nodup := by
  induction t with
  | nil => simp [erase, keys]
  | cons x t ih =>
    obtain ⟨a, b⟩ := x
    simp only [keys, List.map_cons, List.nodup_cons] at h
    by_cases ha : a = k
    · simp only [erase, if_pos ha]
      exact ih h.2
    · simp only [erase, if_neg ha, keys, List.map_cons, List.nodup_cons]
      exact ⟨fun hm => h.1 ((mem_keys_erase t k a).1 hm).2, ih h.2⟩

theorem nodup_keys_rawset (t : Tbl κ ν) (k : κ) (v : Option ν) (h : (keys t).Nodup) :
    (keys (rawset t k v)).Nodup := by
  cases v with
  | none => exact nodup_keys_erase t k h
  | some v => exact nodup_keys_insert t k v h

theorem mem_rawset (t : Tbl κ ν) (k : κ) (v : Option ν) (e : κ × ν) (h : e ∈ rawset t k v) :
    (∃ x, v = some x ∧ e = (k, x)) ∨ e ∈ t := by
  cases v with
  | none => exact Or.inr (mem_erase t k e h)
  | some x =>
    rcases mem_insert t k x e h with h | h
    · exact Or.inl ⟨x, rfl, h⟩
    · exact Or.inr h

end Tbl

theorem wf_drop_if (bps : Tbl String (Tbl Int Bool)) (path : String) (c : Prop)
    [Decidable c] (h : BreakpointsWF bps) :
    BreakpointsWF (if c then Tbl.rawset bps path none else bps) := by
  split_ifs
  · exact ⟨Tbl.nodup_keys_rawset _ _ _ h.1, fun e he => h.2 e (Tbl.mem_erase _ _ e he)⟩
  · exact h

/-- The table operations of `setBreakPoint` keep the representation well formed. -/
theorem storeBreakPoint_wf (bps : Tbl String (Tbl Int Bool)) (path : String) (line : Int)
    (del : Bool) (h : BreakpointsWF bps) : BreakpointsWF (storeBreakPoint bps path line del) := by
  have ht : (Tbl.keys ((Tbl.rawget bps path).getD [])).Nodup := by
    cases hg : Tbl.rawget bps path with
    | none => exact List.nodup_nil
    | some t => exact h.2 _ (Tbl.rawget_mem bps path t hg)
  have h1 : BreakpointsWF
      (if (Tbl.rawget bps path).isNone = true then Tbl.rawset bps path (some []) else bps) := by
    split_ifs
    · refine ⟨Tbl.nodup_keys_rawset _ _ _ h.1, fun e he => ?_⟩
      rcases Tbl.mem_rawset _ _ _ _ he with ⟨x, hx, rfl⟩ | he
      · injection hx with hx
        rw [← hx]
        exact List.nodup_nil
      · exact h.2 e he
    · exact h
  have h2 : BreakpointsWF (Tbl.rawset
      (if (Tbl.rawget bps path).isNone = true then Tbl.rawset bps path (some []) else bps) path
      (some (Tbl.rawset ((Tbl.rawget bps path).getD []) line
        (if del = true then none else some true)))) := by
    refine ⟨Tbl.nodup_keys_rawset _ _ _ h1.1, fun e he => ?_⟩
    rcases Tbl.mem_rawset _ _ _ _ he with ⟨x, hx, rfl⟩ | he
    · injection hx with hx
      rw [← hx]
      exact Tbl.nodup_keys_rawset _ _ _ ht
    · exact h1.2 e he
  exact wf_drop_if _ path _ h2

theorem setBreakPoint_wf (env : Env) (src : String) (argv : List String)
    (argc : Int) (del : Bool) (s : Int) (w : World) (h : BreakpointsWF w.breakpoints) :
    BreakpointsWF (setBreakPoint env src argv argc del s w).2.breakpoints := by
  rw [setBreakPoint_breakpoints]
  generalize (if argv.getD 0 "" = "." then src else argv.getD 0 "") = file
  by_cases h1 : argc < 2 ∨ strtol (argv.getD 1 "") ≤ 0
  · rw [if_pos h1]; exact h
  · rw [if_neg h1]
    cases hp : _fullpath env file env.MAX_PATH with
    | none => exact h
    | some path =>
      by_cases h2 : (!env.access path) = true
      · simp only [if_pos h2]; exact h
      · simp only [if_neg h2]; exact storeBreakPoint_wf _ _ _ _ h

/-- Every table reached from the empty one by `sb`/`db` commands is well formed. -/
theorem breakCmds_wf (cs : List BreakCmd) :
    ∀ w : World, BreakpointsWF w.breakpoints → BreakpointsWF (breakCmds w cs).breakpoints := by
  induction cs with
  | nil => intro w h; exact h
  | cons c cs ih =>
    intro w h
    exact ih _ (setBreakPoint_wf c.env c.src c.argv c.argc c.del c.s w h)

theorem sortKey_strict {κ ν : Type} [LinearOrder κ] (t : Tbl κ ν) (h : (Tbl.keys t).Nodup) :
    (sortKey t).Pairwise (· < ·) := by
  have hs : (sortKey t).Sorted (· ≤ ·) := List.sorted_insertionSort (· ≤ ·) (Tbl.keys t)
  have hn : (sortKey t).Nodup :=
    (List.perm_insertionSort (· ≤ ·) (Tbl.keys t)).nodup_iff.2 h
  exact hs.lt_of_le hn

theorem mem_lbPairs (bps : Tbl String (Tbl Int Bool)) (p : String) (l : Int) :
    (p, l) ∈ lbPairs bps ↔ hasBreakpoint bps p l = true := by
  unfold lbPairs hasBreakpoint
  rw [List.mem_flatMap]
  constructor
  · rintro ⟨q, hq, hm⟩
    rw [List.mem_map] at hm
    obtain ⟨l', hl', he⟩ := hm
    injection he with h1 h2
    subst h1
    subst h2
    rw [mem_sortKey] at hq hl'
    cases hg : Tbl.rawget bps q with
    | none =>
      rw [hg] at hl'
      exact absurd hl' (List.not_mem_nil _)
    | some t =>
      rw [hg] at hl'
      exact (Tbl.rawget_isSome_iff t l').2 hl'
  · intro h
    cases hg : Tbl.rawget bps p with
    | none => rw [hg] at h; exact absurd h (by simp)
    | some t =>
      rw [hg] at h
      refine ⟨p, (mem_sortKey bps p).2 ((Tbl.rawget_isSome_iff bps p).1 (by rw [hg]; rfl)), ?_⟩
      rw [List.mem_map]
      refine ⟨l, (mem_sortKey _ l).2 ?_, rfl⟩
      rw [hg]
      exact (Tbl.rawget_isSome_iff t l).1 h

/-- C12: for every (well-formed) breakpoints table the pairs `lb` emits are
exactly the (path, line) pairs of the table, each once, in strictly increasing
lexicographic order, paths compared as strings and lines as integers; the text
written is `<path>\n<line>\n` for each of them in that order. -/
theorem lb_lists_sorted (bps : Tbl String (Tbl Int Bool)) (hwf : BreakpointsWF bps) :
    (∀ p l, (p, l) ∈ lbPairs bps ↔ hasBreakpoint bps p l = true) ∧
    (lbPairs bps).Pairwise pairLt ∧
    (lbPairs bps).Nodup ∧
    lb bps = String.join ((lbPairs bps).map fun e => e.1 ++ "\n" ++ toString e.2 ++ "\n") := by
  have hp : (lbPairs bps).Pairwise pairLt := by
    unfold lbPairs
    rw [List.pairwise_flatMap]
    constructor
    · intro p hp
      rw [List.pairwise_map]
      have hn : (Tbl.keys ((Tbl.rawget bps p).getD [])).Nodup := by
        cases hg : Tbl.rawget bps p with
        | none => exact List.nodup_nil
        | some t => exact hwf.2 _ (Tbl.rawget_mem bps p t hg)
      exact (sortKey_strict _ hn).imp (fun h => Or.inr ⟨rfl, h⟩)
    · refine (sortKey_strict bps hwf.1).imp ?_
      intro p q hpq x hx y hy
      rw [List.mem_map] at hx hy
      obtain ⟨_, _, rfl⟩ := hx
      obtain ⟨_, _, rfl⟩ := hy
      exact Or.inl hpq
  refine ⟨mem_lbPairs bps, hp, ?_, rfl⟩
  refine hp.imp ?_
  intro a b hab heq
  subst heq
  rcases hab with h | ⟨_, h⟩
  · exact lt_irrefl _ h
  · exact lt_irrefl _ h

/-- C12 at a concrete input: after inserting (a.lua, 3), (a.lua, 1) and
(b.lua, 2) the listing is a.lua 1, a.lua 3, b.lua 2. -/
theorem lb_lists_sorted_witness :
    (lbPairs [("/home/u/a.lua", [(3, true), (1, true)]), ("/home/u/b.lua", [(2, true)])]).Pairwise
      pairLt ∧
    lbPairs [("/home/u/a.lua", [(3, true), (1, true)]), ("/home/u/b.lua", [(2, true)])] =
      [("/home/u/a.lua", 1), ("/home/u/a.lua", 3), ("/home/u/b.lua", 2)] :=
  ⟨(lb_lists_sorted [("/home/u/a.lua", [(3, true), (1, true)]), ("/home/u/b.lua", [(2, true)])]
      ⟨by decide, by decide⟩).2.1, by
    have h1 : sortKey ([("/home/u/a.lua", [(3, true), (1, true)]),
        ("/home/u/b.lua", [(2, true)])] : Tbl String (Tbl Int Bool)) =
        ["/home/u/a.lua", "/home/u/b.lua"] := by
      refine List.Sorted.insertionSort_eq ?_
      refine List.Pairwise.cons ?_ (List.pairwise_singleton _ _)
      intro b hb
      rw [List.mem_singleton.1 hb, String.le_iff_toList_le]
      decide
    unfold lbPairs
    rw [h1]
    decide⟩

theorem digitValue_digitChar : ∀ d, d < 16 → digitValue (Nat.digitChar d) = some d := by
  decide

theorem toDigitsCore_append (b : Nat) (hb : 2 ≤ b) (n : Nat) :
    ∀ (fuel : Nat) (ds : List Char), n < fuel →
      Nat.toDigitsCore b fuel n ds = Nat.toDigits b n ++ ds := by
  induction n using Nat.strong_induction_on with
  | _ n ih =>
    intro fuel ds hf
    cases fuel with
    | zero => exact absurd hf (Nat.not_lt_zero _)
    | succ fuel =>
      unfold Nat.toDigits
      rw [Nat.toDigitsCore, Nat.toDigitsCore]
      by_cases h0 : n / b = 0
      · simp [h0]
      · simp only [h0, if_false]
        have hlt : n / b < n := Nat.div_lt_self (Nat.pos_of_ne_zero (fun h => h0 (by simp [h])))
          (by omega)
        rw [ih (n / b) hlt fuel _ (by omega), ih (n / b) hlt n _ hlt]
        simp

/-- Unfolding of the digits of a number: the digits of the quotient followed by
the last digit. -/
theorem toDigits_step (b : Nat) (hb : 2 ≤ b) (n : Nat) :
    Nat.toDigits b n =
      if n / b = 0 then [Nat.digitChar (n % b)]
      else Nat.toDigits b (n / b) ++ [Nat.digitChar (n % b)] := by
  conv_lhs => unfold Nat.toDigits
  rw [Nat.toDigitsCore]
  by_cases h0 : n / b = 0
  · simp [h0]
  · simp only [h0, if_false]
    have hlt : n / b < n := Nat.div_lt_self (Nat.pos_of_ne_zero (fun h => h0 (by simp [h])))
      (by omega)
    rw [toDigitsCore_append b hb (n / b) n _ hlt]

theorem readDigits_toDigits (b : Nat) (hb : 2 ≤ b) (hb16 : b ≤ 16) (n : Nat) :
    ∀ (rest : List Char) (acc : Nat),
      readDigits b (Nat.toDigits b n ++ rest) acc =
        readDigits b rest (acc * b ^ (Nat.toDigits b n).length + n) := by
  induction n using Nat.strong_induction_on with
  | _ n ih =>
    intro rest acc
    have hd : digitValue (Nat.digitChar (n % b)) = some (n % b) :=
      digitValue_digitChar _ (by have := Nat.mod_lt n (show 0 < b by omega); omega)
    have hm : n % b < b := Nat.mod_lt n (by omega)
    rw [toDigits_step b hb n]
    by_cases h0 : n / b = 0
    · simp only [h0, if_true, List.singleton_append, List.length_singleton, pow_one]
      rw [readDigits, hd]
      simp only [if_pos hm]
      have : n % b = n := Nat.mod_eq_of_lt ((Nat.div_eq_zero_iff (by omega)).1 h0)
      rw [this]
    · simp only [h0, if_false, List.append_assoc, List.singleton_append, List.length_append,
        List.length_singleton]
      have hlt : n / b < n := Nat.div_lt_self (Nat.pos_of_ne_zero (fun h => h0 (by simp [h])))
        (by omega)
      rw [ih (n / b) hlt, readDigits, hd]
      simp only [if_pos hm]
      congr 1
      have := Nat.div_add_mod n b
      rw [pow_succ]
      nlinarith [Nat.div_add_mod n b]

theorem length_toDigits_le (b : Nat) (hb : 2 ≤ b) (k : Nat) :
    ∀ n, n < b ^ (k + 1) → (Nat.toDigits b n).length ≤ k + 1 := by
  induction k with
  | zero =>
    intro n hn
    rw [toDigits_step b hb n, if_pos (Nat.div_eq_of_lt (by simpa using hn))]
    simp
  | succ k ih =>
    intro n hn
    rw [toDigits_step b hb n]
    by_cases h0 : n / b = 0
    · rw [if_pos h0]; simp
    · rw [if_neg h0, List.length_append, List.length_singleton]
      have : n / b < b ^ (k + 1) := by
        rw [Nat.div_lt_iff_lt_mul (by omega)]
        rw [pow_succ] at hn
        exact hn
      have := ih (n / b) this
      omega

theorem length_hex8 (p : Nat) (hp : p < 4294967296) : (hex8 p).length = 8 := by
  have h := length_toDigits_le 16 (by decide) 7 p (by simpa using hp)
  unfold hex8
  simp only [String.length, List.length_append, List.length_replicate]
  omega

theorem readDigits_zeros (k : Nat) (l : List Char) :
    readDigits 16 (List.replicate k '0' ++ l) 0 = readDigits 16 l 0 := by
  induction k with
  | zero => rfl
  | succ k ih =>
    rw [List.replicate_succ, List.cons_append, readDigits]
    have : digitValue '0' = some 0 := by decide
    rw [this]
    simpa using ih

theorem readDigits_hex8 (p : Nat) : readDigits 16 (hex8 p).toList 0 = p := by
  unfold hex8
  simp only [String.toList]
  rw [readDigits_zeros]
  have := readDigits_toDigits 16 (by decide) (by decide) p [] 0
  simp only [List.append_nil, zero_mul, zero_add] at this
  rw [this]
  rfl

theorem length_flatMap_hexByte (l : List Nat) : (l.flatMap hexByte).length = 2 * l.length := by
  induction l with
  | nil => rfl
  | cons a l ih =>
    rw [List.flatMap_cons, List.length_append, ih, List.length_cons]
    simp only [hexByte, List.length_cons, List.length_nil]
    omega

/-- C15 (amended): for every string value of fewer than 2^31 bytes, `printVar`
writes the line `s0x<addr>:<len>:<t>:<hex>` and a newline, where `len` is the
byte length, `t` the smaller of `len` and `PROT_MAX_STR_LEN`, and `<hex>` the
hex encoding of the first `t` bytes, `2t` characters; for
`len = PROT_MAX_STR_LEN + 1` the value is truncated, `t = PROT_MAX_STR_LEN`
differs from `len`, and `len` is reported in full. -/
theorem printVar_string (env : Env) (addr : Nat) (bytes : List Nat)
    (hlen : bytes.length < 2147483648) :
    printVar env none (Value.string addr bytes) =
      "s0x" ++ hex8 addr ++ ":" ++ toString (bytes.length : Int) ++ ":" ++
        toString ((min bytes.length env.PROT_MAX_STR_LEN : Nat) : Int) ++ ":" ++
        String.mk ((bytes.take (min bytes.length env.PROT_MAX_STR_LEN)).flatMap hexByte) ++
        "\n" ∧
    ((bytes.take (min bytes.length env.PROT_MAX_STR_LEN)).flatMap hexByte).length =
      2 * min bytes.length env.PROT_MAX_STR_LEN ∧
    (bytes.length = env.PROT_MAX_STR_LEN + 1 →
      min bytes.length env.PROT_MAX_STR_LEN = env.PROT_MAX_STR_LEN ∧
      min bytes.length env.PROT_MAX_STR_LEN ≠ bytes.length) := by
  refine ⟨?_, ?_, fun h => by omega⟩
  · have h32 : toInt32 (bytes.length : Int) = (bytes.length : Int) :=
      toInt32_of_range _ (by omega) (by omega)
    have ht : (if (bytes.length : Int) > (env.PROT_MAX_STR_LEN : Int)
        then (env.PROT_MAX_STR_LEN : Int) else (bytes.length : Int)) =
        ((min bytes.length env.PROT_MAX_STR_LEN : Nat) : Int) := by
      split_ifs with h
      · rw [Nat.min_eq_right (by omega)]
      · rw [Nat.min_eq_left (by omega)]
    simp only [printVar, hexDump, h32, ht, Int.toNat_ofNat]
    rfl
  · rw [length_flatMap_hexByte, List.length_take]
    congr 1
    omega

/-- C15 (amended) at a concrete input: the five bytes of `hello`. -/
theorem printVar_string_witness :
    printVar sampleEnv none (Value.string 9146746 [104, 101, 108, 108, 111]) =
      "s0x" ++ hex8 9146746 ++ ":" ++ toString ((5 : Nat) : Int) ++ ":" ++
        toString ((min 5 256 : Nat) : Int) ++ ":" ++
        String.mk (([104, 101, 108, 108, 111].take (min 5 256)).flatMap hexByte) ++ "\n" :=
  (printVar_string sampleEnv 9146746 [104, 101, 108, 108, 111] (by decide)).1

/-- C15 as stated fails: for a string of 2^31 bytes the length read into the
`int` is negative, so the line reports -2147483648 both as the length and as
the truncated length, neither of which is the byte length or its minimum with
`PROT_MAX_STR_LEN`. -/
theorem printVar_string_overflow :
    printVar sampleEnv none (Value.string 0 (List.replicate 2147483648 0)) =
      "s0x00000000:-2147483648:-2147483648:" ++
        hexDump (List.replicate 2147483648 0) (-2147483648) ++ "\n" ∧
    (List.replicate 2147483648 (0 : Nat)).length = 2147483648 ∧
    sampleEnv.PROT_MAX_STR_LEN = 256 := by
  have h32 : toInt32 ((List.replicate 2147483648 (0 : Nat)).length : Int) = -2147483648 := by
    rw [List.length_replicate]
    decide
  have hh : hex8 0 = "00000000" := by decide
  refine ⟨?_, List.length_replicate _ _, rfl⟩
  simp only [printVar, h32, hh]
  rfl

/-- C16: for every non-string value `printVar` writes one line that begins
with the kind tag: `n` and the rendering of the number, `b0` or `b1` (`b1`
exactly for true), `l` alone for nil, and `t`, `f`, `u`, `d`, `U` followed by
`0x` and the identity as 8 hexadecimal digits for table, function, full
userdata, thread and light userdata. -/
theorem printVar_nonstring (env : Env) :
    (∀ n, printVar env none (Value.number n) = "n" ++ env.fmtNumber n ++ "\n") ∧
    (∀ b, printVar env none (Value.boolean b) = if b = true then "b1\n" else "b0\n") ∧
    printVar env none Value.nil = "l\n" ∧
    (∀ p, printVar env none (Value.table p) = "t0x" ++ hex8 p ++ "\n" ∧
      printVar env none (Value.function p) = "f0x" ++ hex8 p ++ "\n" ∧
      printVar env none (Value.userdata p) = "u0x" ++ hex8 p ++ "\n" ∧
      printVar env none (Value.thread p) = "d0x" ++ hex8 p ++ "\n" ∧
      printVar env none (Value.lightuserdata p) = "U0x" ++ hex8 p ++ "\n") ∧
    (∀ p, p < 4294967296 → (hex8 p).length = 8 ∧ readDigits 16 (hex8 p).toList 0 = p) := by
  refine ⟨fun n => rfl, fun b => ?_, rfl, fun p => ⟨rfl, rfl, rfl, rfl, rfl⟩,
    fun p hp => ⟨length_hex8 p hp, readDigits_hex8 p⟩⟩
  cases b <;> rfl

/-- The frame `watchReply` hands to the socket once the field path resolves. -/
theorem watchReply_out (env : Env) (vm : LuaVM) (root : Value) (fields : Option String)
    (remember : Bool) (s : Int) (wd : World) (v : Value)
    (hv : (match fields with
      | some f => lookupField env vm root f
      | none => some (some root)) = some (some v)) :
    ∃ ok, (watchReply env vm root fields remember s wd).2.out =
      wd.out ++ [(Frame.OK (RLdb.w env vm v), ok)] := by
  unfold watchReply
  rw [hv]
  obtain ⟨ok, sends', h⟩ := send_eq s wd (Frame.OK (RLdb.w env vm v))
  refine ⟨ok, ?_⟩
  by_cases hr : remember = true
  · simp only [hr, if_true, SendOK, h]
  · simp only [hr, SendOK, h]
    rfl

/-- In scope `l` the root is the value of the last local whose name agrees
with the requested name on its first `nameLen` characters. -/
theorem lookupVar_local (vm : LuaVM) (level : Int) (name : String) (nameLen : Nat)
    (h : level = 1 ∨ vm.getstack (level - 1) = true) :
    lookupVar vm level 'l' name nameLen =
      some ((((vm.locals (level - 1)).filter fun e => strncmpEq e.1 name nameLen).getLast?).map
        Prod.snd) := by
  have hfold : ∀ (l : List (String × Value)),
      l.foldl (fun found e => if strncmpEq e.1 name nameLen then some e.2 else found) none =
        ((l.filter fun e => strncmpEq e.1 name nameLen).getLast?).map Prod.snd := by
    intro l
    induction l using List.reverseRecOn with
    | nil => rfl
    | append_singleton l a ih =>
      rw [List.foldl_append, List.filter_append]
      by_cases ha : strncmpEq a.1 name nameLen = true
      · simp [ha]
      · simp [ha, ih]
  unfold lookupVar
  rw [if_neg (by rcases h with h | h <;> simp [h]), if_pos rfl]
  exact congrArg some (hfold _)

/-- C18 (amended): the payload of the `OK` frame of a WATCH that resolves to
the value `v` is `w` of `v`; for every kind other than nil that is the value
line, a line `0` or `1` (`1` exactly when the value has a metatable), and the
tail of the kind: for a table the key line and the value line of every pair,
for full userdata the size line, for a function the lines what, short_src,
linedefined and lastlinedefined, for a thread the status line, nothing for the
other kinds; for nil it is the value line alone. -/
theorem watch_payload (env : Env) (vm : LuaVM) :
    (∀ root fields remember s wd v,
      (match fields with
        | some f => lookupField env vm root f
        | none => some (some root)) = some (some v) →
      ∃ ok, (watchReply env vm root fields remember s wd).2.out =
        wd.out ++ [(Frame.OK (RLdb.w env vm v), ok)]) ∧
    (∀ v, v ≠ Value.nil →
      RLdb.w env vm v =
        printVar env none v ++ ((if (vm.getmetatable v).isSome then "1" else "0") ++ "\n") ++
          match v with
          | Value.table p =>
            String.join ((vm.next p).map fun kv =>
              printVar env none kv.1 ++ printVar env none kv.2)
          | Value.userdata p => toString (toInt32 (vm.objlen p)) ++ "\n"
          | Value.function p =>
            (vm.funcInfo p).what ++ "\n" ++ ((vm.funcInfo p).short_src ++ "\n") ++
              (toString (vm.funcInfo p).linedefined ++ "\n") ++
              (toString (vm.funcInfo p).lastlinedefined ++ "\n")
          | Value.thread p => toString (vm.status p) ++ "\n"
          | _ => "") ∧
    RLdb.w env vm Value.nil = printVar env none Value.nil := by
  refine ⟨fun root fields remember s wd v hv =>
    watchReply_out env vm root fields remember s wd v hv, fun v hv => ?_, rfl⟩
  cases v with
  | nil => exact absurd rfl hv
  | boolean b => simp only [RLdb.w, String.append_assoc, String.append_empty]
  | number n => simp only [RLdb.w, String.append_assoc, String.append_empty]
  | string a bs => simp only [RLdb.w, String.append_assoc, String.append_empty]
  | table p => simp only [RLdb.w, String.append_assoc]
  | function p => simp only [RLdb.w, String.append_assoc]
  | userdata p => simp only [RLdb.w, String.append_assoc]
  | lightuserdata p => simp only [RLdb.w, String.append_assoc, String.append_empty]
  | thread p => simp only [RLdb.w, String.append_assoc]

/-- C18 as stated fails for nil: a WATCH of a local that holds nil resolves,
and the payload of its `OK` frame is the value line `l` alone, with no
metatable line after it. -/
theorem watch_nil_has_no_meta_line :
    (watch sampleEnv nilLocalVM ["1", "l", "x"] 3 3 (luaopen_RLdb 3 [] [])).2.out =
      [(Frame.OK "l\n", true)] ∧
    "l\n" ≠ printVar sampleEnv none Value.nil ++ "0\n" ∧
    "l\n" ≠ printVar sampleEnv none Value.nil ++ "1\n" := by
  decide

/-- C19 fails on this input: the frame has the one local `xy`, and the command
`w 1 l x` is answered with the value of `xy` instead of the reply
`Variable is not found!`. -/
theorem watch_local_prefix_match :
    (∀ e ∈ prefixVM.locals 0, e.1 ≠ "x") ∧
    (watch sampleEnv prefixVM ["1", "l", "x"] 3 3 (luaopen_RLdb 3 [] [])).2.out =
      [(Frame.OK "n7\n0\n", true)] := by
  decide

/-- C20 fails on this input: nothing is cached, the first stack slot of the
running function holds a number, and the command `w |` is answered with an
`OK` frame for nil; and with a cached number and nil in the first slot the
reply is `Variable is not found!`. -/
theorem watch_cached_tests_first_slot :
    (luaopen_RLdb 3 [] []).cacheValue = none ∧
    sampleVM.stack = [Value.number ⟨42⟩] ∧
    (watch sampleEnv sampleVM ["|"] 1 3 (luaopen_RLdb 3 [] [])).2.out =
      [(Frame.OK "l\n", true)] ∧
    (watch sampleEnv nilLocalVM ["|"] 1 3
      { luaopen_RLdb 3 [] [] with cacheValue := some (Value.number ⟨5⟩) }).2.out =
      [(Frame.ER "Variable is not found!", true)] := by
  decide

theorem takeWhile_colon (a x : List Char) (ha : ':' ∉ a) :
    (a ++ ':' :: x).takeWhile (· ≠ ':') = a := by
  induction a with
  | nil => simp
  | cons c a ih =>
    have hc : c ≠ ':' := fun h => ha (by simp [h])
    have ha2 : ':' ∉ a := fun h => ha (List.mem_cons_of_mem _ h)
    have h := ih ha2
    simp only [List.cons_append, List.takeWhile_cons, hc, ne_eq, not_false_eq_true, decide_True, if_true, h]

theorem dropWhile_colon (a x : List Char) (ha : ':' ∉ a) :
    (a ++ ':' :: x).dropWhile (· ≠ ':') = ':' :: x := by
  induction a with
  | nil => simp
  | cons c a ih =>
    have hc : c ≠ ':' := fun h => ha (by simp [h])
    have ha2 : ':' ∉ a := fun h => ha (List.mem_cons_of_mem _ h)
    have h := ih ha2
    simp only [List.cons_append, List.dropWhile_cons, hc, ne_eq, not_false_eq_true, decide_True, if_true, h]

theorem mem_toDigits_ten (n : Nat) : ∀ c ∈ Nat.toDigits 10 n, ∃ d, d < 10 ∧ c = Nat.digitChar d := by
  induction n using Nat.strong_induction_on with
  | _ n ih =>
    intro c hc
    rw [toDigits_step 10 (by decide) n] at hc
    split_ifs at hc with h0
    · exact ⟨n % 10, Nat.mod_lt _ (by decide), by simpa using hc⟩
    · rcases List.mem_append.1 hc with h | h
      · exact ih (n / 10) (by omega) c h
      · exact ⟨n % 10, Nat.mod_lt _ (by decide), by simpa using h⟩

theorem toDigits_ten_ne_nil (n : Nat) : Nat.toDigits 10 n ≠ [] := by
  rw [toDigits_step 10 (by decide) n]
  split_ifs <;> simp

theorem digitChar_facts : ∀ d, d < 10 →
    Nat.digitChar d ≠ ':' ∧ isspace (Nat.digitChar d) = false ∧
    Nat.digitChar d ≠ '-' ∧ Nat.digitChar d ≠ '+' := by
  decide

theorem colon_not_mem_toDigits (n : Nat) : ':' ∉ Nat.toDigits 10 n := by
  intro h
  obtain ⟨d, hd, hc⟩ := mem_toDigits_ten n _ h
  exact (digitChar_facts d hd).1 hc.symm

theorem strtol_toDigits (n : Nat) (x : List Char) :
    strtol (String.mk (Nat.toDigits 10 n ++ ':' :: x)) = min INT_MAX (n : Int) := by
  have hne := toDigits_ten_ne_nil n
  have hr := readDigits_toDigits 10 (by decide) (by decide) n (':' :: x) 0
  cases hds : Nat.toDigits 10 n with
  | nil => exact absurd hds hne
  | cons c cs =>
    obtain ⟨d, hd, hc⟩ := mem_toDigits_ten n c (by rw [hds]; exact List.mem_cons_self _ _)
    obtain ⟨_, h1, h2, h3⟩ := digitChar_facts d hd
    rw [← hc] at h1 h2 h3
    rw [hds] at hr
    have hval : readDigits 10 (c :: cs ++ ':' :: x) 0 = n := by
      rw [hr]
      simp [readDigits, digitValue]
    have hdw : List.dropWhile isspace (c :: (cs ++ ':' :: x)) = c :: (cs ++ ':' :: x) := by
      simp [List.dropWhile, h1]
    unfold strtol
    simp only [List.cons_append]
    split
    · rename_i heq
      change List.dropWhile isspace (c :: (cs ++ ':' :: x)) = _ at heq
      rw [hdw] at heq
      exact absurd (List.cons.inj heq).1 h2
    · rename_i heq
      change List.dropWhile isspace (c :: (cs ++ ':' :: x)) = _ at heq
      rw [hdw] at heq
      exact absurd (List.cons.inj heq).1 h3
    · show min INT_MAX ((readDigits 10 (List.dropWhile isspace (c :: (cs ++ ':' :: x))) 0 : Nat) : Int) = _
      rw [hdw, ← List.cons_append, hval]

theorem dec_hexDigit : ∀ d, d < 16 → Controller.dec (hexDigit d) = (d : Int) := by
  decide

theorem lor_nibbles : ∀ hi, hi < 16 → ∀ lo, lo < 16 →
    Int.toNat ((Int.lor (Int.ofNat hi * (16 : Int)) (Int.ofNat lo)) % (256 : Int)) = hi * 16 + lo := by
  decide

theorem decode_hexByte (x : Nat) (hx : x < 256) :
    Controller.decode (hexDigit (x / 16 % 16)) (hexDigit (x % 16)) = x := by
  unfold Controller.decode
  rw [dec_hexDigit _ (Nat.mod_lt _ (by decide)), dec_hexDigit _ (Nat.mod_lt _ (by decide))]
  have h := lor_nibbles (x / 16 % 16) (Nat.mod_lt _ (by decide)) (x % 16)
    (Nat.mod_lt _ (by decide))
  simp only [Int.ofNat_eq_coe] at h
  rw [h]
  omega

theorem outputEncStr_zero (l : List Char) : Controller.outputEncStr l 0 = some [] := by
  match l with
  | [] => rfl
  | [_] => rfl
  | _ :: _ :: _ => rfl

theorem outputEncStr_hex (b : List Nat) (hb : ∀ x ∈ b, x < 256) (rest : List Char) :
    Controller.outputEncStr (b.flatMap hexByte ++ rest) ((2 * b.length : Nat) : Int) = some b := by
  induction b with
  | nil => exact outputEncStr_zero _
  | cons x b ih =>
    have hx : x < 256 := hb x (List.mem_cons_self _ _)
    have ih2 := ih fun y hy => hb y (List.mem_cons_of_mem _ hy)
    have hlen : ((2 * (x :: b).length : Nat) : Int) - 2 = ((2 * b.length : Nat) : Int) := by
      simp only [List.length_cons]
      omega
    have hpos : (0 : Int) < ((2 * (x :: b).length : Nat) : Int) := by
      simp only [List.length_cons]
      omega
    rw [List.flatMap_cons]
    show Controller.outputEncStr (hexDigit (x / 16 % 16) :: hexDigit (x % 16) ::
      (b.flatMap hexByte ++ rest)) _ = _
    rw [Controller.outputEncStr, if_pos hpos, hlen, ih2, decode_hexByte x hx]
    rfl

theorem output_left (a x : List Char) :
    Controller.output (a ++ x) (a.length : Int) = a.map fun c => c.toNat % 256 := by
  unfold Controller.output
  rw [Int.toNat_ofNat, List.take_left]

/-- The function `outputStr` on a value of four fields `addr:raw:t:h`, the
third the decimal text of `t`: the three fields are written, and the hex text
is decoded when it is twice as long as `t` says. -/
theorem outputStr_fields (addr raw : List Char) (t : Nat) (h rest : List Char)
    (ha : ':' ∉ addr) (hr : ':' ∉ raw) (length : Int)
    (hL : length = addr.length + 1 + raw.length + 1 + (Nat.toDigits 10 t).length + 1 +
      h.length) :
    Controller.outputStr
        (addr ++ ':' :: (raw ++ ':' :: (Nat.toDigits 10 t ++ ':' :: (h ++ rest)))) length =
      if (h.length : Int) ≠ toInt32 (min INT_MAX (t : Int) * 2) then
        some (-1, Controller.output addr addr.length ++ Controller.fputs " Length:" ++
          Controller.output raw raw.length ++ Controller.fputs " Truncated-to:" ++
          Controller.output (Nat.toDigits 10 t) (Nat.toDigits 10 t).length ++
          Controller.fputs " Content:")
      else
        (Controller.outputEncStr (h ++ rest) h.length).map fun bytes =>
          (0, Controller.output addr addr.length ++ Controller.fputs " Length:" ++
            Controller.output raw raw.length ++ Controller.fputs " Truncated-to:" ++
            Controller.output (Nat.toDigits 10 t) (Nat.toDigits 10 t).length ++
            Controller.fputs " Content:" ++ bytes) := by
  have hd := colon_not_mem_toDigits t
  have o1 : ∀ a x : List Char, Controller.output (a ++ x) (a.length : Int) =
      Controller.output a (a.length : Int) := by
    intro a x
    have h0 := output_left a []
    rw [List.append_nil] at h0
    rw [output_left, h0]
  have m1 : ∀ a x : List Char, ':' ∈ a ++ ':' :: x := fun a x =>
    List.mem_append_right _ (List.mem_cons_self _ _)
  unfold Controller.outputStr
  simp only [takeWhile_colon _ _ ha, dropWhile_colon _ _ ha, takeWhile_colon _ _ hr,
    dropWhile_colon _ _ hr, takeWhile_colon _ _ hd, dropWhile_colon _ _ hd, List.tail_cons,
    strtol_toDigits, o1, m1, not_true_eq_false, false_or]
  rw [if_neg (by omega), if_neg (by omega), if_neg (by omega)]
  have hn : length - ((addr.length : Int) + 1) - ((raw.length : Int) + 1) -
      (((Nat.toDigits 10 t).length : Int) + 1) = (h.length : Int) := by omega
  rw [hn]

/-- C17: for every byte sequence `b` of length `t`, `outputStr` accepts the
value `<addr>:<rawLen>:<t>:<hex(b)>` (fields without a colon, the hex text two
lowercase digits per byte as the debuggee writes it, whatever follows the value
in the buffer, the length within the range of `int`) with result 0, writing
the three fields under their labels and then exactly the bytes `b`; `decode`
undoes the encoding of each of the 256 byte values; and a value whose hex text
is not `2t` characters long is rejected with -1. -/
theorem outputStr_roundtrip (addr raw : List Char) (b : List Nat) (rest : List Char)
    (ha : ':' ∉ addr) (hr : ':' ∉ raw) (hb : ∀ x ∈ b, x < 256)
    (hlen : addr.length + 1 + raw.length + 1 + (toString b.length).length + 1 + 2 * b.length
      ≤ 2147483647) :
    Controller.outputStr
        (addr ++ ':' :: (raw ++ ':' :: ((toString b.length).toList ++ ':' ::
          (b.flatMap hexByte ++ rest))))
        ((addr.length + 1 + raw.length + 1 + (toString b.length).length + 1 + 2 * b.length
          : Nat) : Int) =
      some (0, Controller.fputs (String.mk addr) ++ Controller.fputs " Length:" ++
        Controller.fputs (String.mk raw) ++ Controller.fputs " Truncated-to:" ++
        Controller.fputs (toString b.length) ++ Controller.fputs " Content:" ++ b) ∧
    (∀ x, x < 256 → Controller.decode (hexDigit (x / 16 % 16)) (hexDigit (x % 16)) = x) ∧
    (∀ (t : Nat) (h : List Char), h.length ≠ 2 * t →
      (Controller.outputStr
        (addr ++ ':' :: (raw ++ ':' :: ((toString t).toList ++ ':' :: (h ++ rest))))
        ((addr.length + 1 + raw.length + 1 + (toString t).length + 1 + h.length : Nat) : Int)).map
        Prod.fst = some (-1)) := by
  have hout : ∀ a : List Char, Controller.output a (a.length : Int) =
      Controller.fputs (String.mk a) := by
    intro a
    have h0 := output_left a []
    rw [List.append_nil] at h0
    exact h0
  refine ⟨?_, fun x hx => decode_hexByte x hx, fun t h hne => ?_⟩
  · have hf := outputStr_fields addr raw b.length (b.flatMap hexByte) rest ha hr
      ((addr.length + 1 + raw.length + 1 + (toString b.length).length + 1 + 2 * b.length
          : Nat) : Int)
      (by
        rw [length_flatMap_hexByte]
        show _ = (addr.length : Int) + 1 + raw.length + 1 + ((toString b.length).length : Nat)
          + 1 + ((2 * b.length : Nat) : Int)
        push_cast
        ring)
    have hb30 : b.length < 1073741824 := by omega
    have h32 : toInt32 (min INT_MAX (b.length : Int) * 2) = ((2 * b.length : Nat) : Int) := by
      rw [min_eq_right (by unfold INT_MAX; omega)]
      rw [toInt32_of_range _ (by omega) (by omega)]
      push_cast
      ring
    rw [length_flatMap_hexByte, h32, if_neg (by simp), outputEncStr_hex b hb rest] at hf
    rw [hout, hout, hout] at hf
    exact hf
  · have hf := outputStr_fields addr raw t h rest ha hr
      ((addr.length + 1 + raw.length + 1 + (toString t).length + 1 + h.length : Nat) : Int)
      (by
        show _ = (addr.length : Int) + 1 + raw.length + 1 + ((toString t).length : Nat)
          + 1 + (h.length : Int)
        push_cast
        ring)
    have h32 : (h.length : Int) ≠ toInt32 (min INT_MAX (t : Int) * 2) := by
      unfold toInt32 INT_MAX
      rcases le_total (2147483647 : Int) (t : Int) with hle | hle
      · rw [min_eq_left hle]
        omega
      · rw [min_eq_right hle]
        omega
    rw [if_pos h32] at hf
    show (Controller.outputStr _ _).map Prod.fst = _
    exact (congrArg (Option.map Prod.fst) hf).trans rfl

/-- C17 at a concrete input: the value of the five bytes of `hello`, followed
by a newline in the buffer. -/
theorem outputStr_roundtrip_witness :
    Controller.outputStr "0x008b91fa:5:5:68656c6c6f\n".toList 25 =
      some (0, Controller.fputs "0x008b91fa Length:5 Truncated-to:5 Content:hello") :=
  (outputStr_roundtrip "0x008b91fa".toList "5".toList [104, 101, 108, 108, 111] ['\n']
    (by decide) (by decide) (by decide) (by decide)).1

theorem printVar_name (env : Env) (name : String) (v : Value) :
    printVar env (some name) v = name ++ "\n" ++ printVar env none v := by
  have h : printVar env none v = "" ++ printVar env none v := by
    rw [String.empty_append]
  rw [h]
  unfold printVar
  simp only [String.append_assoc, String.empty_append]

theorem join_append_singleton (l : List String) (a : String) :
    String.join (l ++ [a]) = String.join l ++ a := by
  simp only [String.join, List.foldl_append, List.foldl_cons, List.foldl_nil]

/-- The writer `ll` step by step: the text grows by the pairs of the named
locals and the stack comes back as it was. -/
theorem ll_eq (env : Env) (locals : List (String × Value)) (L : Stack) :
    ll env locals L =
      (String.join ((locals.filter fun e => decide (e.1.toList.head? ≠ some '(')).map
        fun e => e.1 ++ "\n" ++ printVar env none e.2), L) := by
  unfold ll
  induction locals using List.reverseRecOn with
  | nil => rfl
  | append_singleton l a ih =>
    rw [List.foldl_append, ih, List.filter_append, List.map_append]
    simp only [List.foldl_cons, List.foldl_nil, List.headD_cons, List.drop_succ_cons,
      List.drop_zero]
    cases hn : a.1.toList with
    | nil =>
      have h1 : decide (a.1.toList.head? ≠ some '(') = true := by rw [hn]; simp
      have h2 : List.filter (fun e : String × Value => decide (e.1.toList.head? ≠ some '('))
          [a] = [a] := by
        simp only [List.filter_cons, h1, if_true, List.filter_nil]
      rw [h2, List.map_singleton, join_append_singleton, printVar_name]
      simp
    | cons c cs =>
      by_cases hc : c = '('
      · have h1 : decide (a.1.toList.head? ≠ some '(') = false := by rw [hn, hc]; simp
        have h2 : List.filter (fun e : String × Value => decide (e.1.toList.head? ≠ some '('))
            [a] = [] := by
          simp only [List.filter_cons, h1, List.filter_nil]
          rfl
        rw [h2, List.map_nil, List.append_nil]
        simp [hc]
      · have h1 : decide (a.1.toList.head? ≠ some '(') = true := by
          rw [hn]
          simpa using hc
        have h2 : List.filter (fun e : String × Value => decide (e.1.toList.head? ≠ some '('))
            [a] = [a] := by
          simp only [List.filter_cons, h1, if_true, List.filter_nil]
        rw [h2, List.map_singleton, join_append_singleton, printVar_name]
        simp [hc]

theorem localFold_eq (name : String) (nameLen : Nat) (L : Stack) :
    ∀ (l : List (String × Value)) (o : Option Value),
      l.foldl
        (fun (acc : Bool × Stack) e =>
          if strncmpEq e.1 name nameLen then (true, lua_replace2 (e.2 :: acc.2))
          else (acc.1, (e.2 :: acc.2).drop 1))
        (o.isSome, o.getD Value.nil :: L) =
      ((l.foldl (fun found e => if strncmpEq e.1 name nameLen then some e.2 else found) o).isSome,
        (l.foldl (fun found e => if strncmpEq e.1 name nameLen then some e.2 else found)
          o).getD Value.nil :: L) := by
  intro l
  induction l with
  | nil => intro o; rfl
  | cons e es ih =>
    intro o
    rw [List.foldl_cons, List.foldl_cons]
    by_cases h : strncmpEq e.1 name nameLen = true
    · rw [if_pos h, if_pos h]
      exact ih (some e.2)
    · rw [if_neg h, if_neg h]
      exact ih o

theorem upvalueLoop_eq (name : String) (nameLen : Nat) :
    ∀ (es : List (String × Value)) (L : Stack),
      upvalueLoop name nameLen es L =
        match es.find? fun e => strncmpEq e.1 name nameLen with
        | some e => (true, e.2 :: L)
        | none => (false, L) := by
  intro es
  induction es with
  | nil => intro L; rfl
  | cons e es ih =>
    intro L
    rw [upvalueLoop]
    by_cases h : strncmpEq e.1 name nameLen = true
    · rw [if_pos h]
      simp only [List.find?_cons, h]
    · rw [if_neg h]
      simp only [List.find?_cons, h]
      exact ih L

/-- The function `lookupVar` keeps its contract on the stack: the value found
is pushed on top, and a failed lookup leaves the stack as it was. -/
theorem lookupVarStack_eq (vm : LuaVM) (level : Int) (scope : Char) (name : String)
    (nameLen : Nat) (L : Stack) :
    lookupVarStack vm level scope name nameLen L =
      match lookupVar vm level scope name nameLen with
      | some (some v) => some (true, v :: L)
      | some none => some (false, L)
      | none => none := by
  unfold lookupVarStack lookupVar
  by_cases h0 : level ≠ 1 ∧ (!vm.getstack (level - 1)) = true
  · rw [if_pos h0, if_pos h0]
  rw [if_neg h0, if_neg h0]
  by_cases hl : scope = 'l'
  · rw [if_pos hl, if_pos hl]
    have h := localFold_eq name nameLen L (vm.locals (level - 1)) none
    simp only [Option.isSome_none, Option.getD_none] at h
    simp only [h]
    cases (vm.locals (level - 1)).foldl
      (fun found e => if strncmpEq e.1 name nameLen then some e.2 else found) none with
    | none => rfl
    | some v => rfl
  rw [if_neg hl, if_neg hl]
  by_cases hu : scope = 'u'
  · rw [if_pos hu, if_pos hu]
    simp only [upvalueLoop_eq]
    cases (vm.upvalues (level - 1)).find? fun e => strncmpEq e.1 name nameLen with
    | none => rfl
    | some e => rfl
  rw [if_neg hu, if_neg hu]
  cases vm.func (level - 1) with
  | function p =>
    simp only [List.headD_cons]
    by_cases hg : vm.getglobal (level - 1) (String.mk (name.toList.take nameLen)) = Value.nil
    · rw [if_pos hg, if_pos hg]
      rfl
    · rw [if_neg hg, if_neg hg]
      rfl
  | nil => rfl
  | boolean _ => rfl
  | number _ => rfl
  | string _ _ => rfl
  | table _ => rfl
  | userdata _ => rfl
  | lightuserdata _ => rfl
  | thread _ => rfl

theorem lookupFieldLoopStack_eq (env : Env) (vm : LuaVM) :
    ∀ (fuel : Nat) (cur : Value) (L : Stack) (field : List Char),
      lookupFieldLoopStack env vm fuel (cur :: L) field =
        ((lookupFieldLoop env vm fuel cur field).1 :: L,
          (lookupFieldLoop env vm fuel cur field).2) := by
  intro fuel
  induction fuel with
  | zero => intro cur L field; rfl
  | succ fuel ih =>
    intro cur L field
    rw [lookupFieldLoopStack, lookupFieldLoop]
    cases hn : nextField field with
    | none => rfl
    | some sr =>
      obtain ⟨sub, rest⟩ := sr
      simp only [List.headD_cons]
      by_cases hm : sub.head? = some 'm'
      · simp only [hm, if_true]
        cases vm.getmetatable cur with
        | none => rfl
        | some m => exact ih m L rest
      · simp only [hm, if_false]
        cases cur with
        | table p =>
          simp only
          cases getFieldValue env vm p sub with
          | none => rfl
          | some v => exact ih v L rest
        | nil => rfl
        | boolean b => rfl
        | number n => rfl
        | string a bs => rfl
        | function p => rfl
        | userdata p => rfl
        | lightuserdata p => rfl
        | thread p => rfl

/-- The function `lookupField` keeps its contract on the stack: the value
reached is pushed above the value it started from, and a failed walk leaves
the stack as it was. -/
theorem lookupFieldStack_eq (env : Env) (vm : LuaVM) (field : String) (v : Value) (L : Stack) :
    lookupFieldStack env vm field (v :: L) =
      match lookupField env vm v field with
      | some (some r) => some (true, r :: v :: L)
      | some none => some (false, v :: L)
      | none => none := by
  unfold lookupFieldStack lookupField
  by_cases h0 : field = ""
  · rw [if_pos h0, if_pos h0]
  · rw [if_neg h0, if_neg h0]
    simp only [List.headD_cons, lookupFieldLoopStack_eq]
    by_cases h : (lookupFieldLoop env vm field.length v field.toList).2 ≠ [] ∧
        (lookupFieldLoop env vm field.length v field.toList).2 ≠ ['|']
    · rw [if_pos h, if_pos h]
      rfl
    · rw [if_neg h, if_neg h]

theorem watchTailStack_eq (env : Env) (vm : LuaVM) (fields : Option String) (remember : Bool)
    (s : Int) (w : World) (v : Value) (rest : Stack) :
    watchTailStack env vm fields remember s w (v :: Value.table vm.debugger :: rest) =
      (watchReply env vm v fields remember s w, Value.table vm.debugger :: rest) := by
  have e2 : ∀ a : Value, (lua_insert2 (cacheValueKey :: a :: Value.table vm.debugger ::
      rest)).getD 2 Value.nil = Value.table vm.debugger := fun _ => rfl
  have e3 : ∀ a b : Value, (lua_insert2 (cacheValueKey :: a :: b :: Value.table vm.debugger ::
      rest)).getD 3 Value.nil = Value.table vm.debugger := fun _ _ => rfl
  unfold watchTailStack watchReply
  cases fields with
  | none =>
    simp only [List.headD_cons, e2, if_true]
    by_cases hr : remember = true
    · simp only [hr, if_true]
      rfl
    · simp only [hr]
      rfl
  | some f =>
    simp only [lookupFieldStack_eq]
    cases lookupField env vm v f with
    | none => rfl
    | some o =>
      cases o with
      | none => rfl
      | some r =>
        simp only [List.headD_cons, e3, if_true]
        by_cases hr : remember = true
        · simp only [hr, if_true]
          rfl
        · simp only [hr]
          rfl

theorem getLast_luaStack (x : Value) (d : Nat) (l : List Value) :
    (x :: Value.table d :: l.reverse).getLast? = some Value.nil ↔ l.head? = some Value.nil := by
  cases l with
  | nil => simp
  | cons a as =>
    rw [List.reverse_cons]
    show ((x :: Value.table d :: as.reverse) ++ [a]).getLast? = _ ↔ _
    rw [List.getLast?_concat]
    simp

/-- The function `watch` on the stack of a command handler: the reply and the
session are those of `watch`, and the stack comes back as it was. -/
theorem watchStack_eq (env : Env) (vm : LuaVM) (argv : List String) (argc : Int) (s : Int)
    (w : World) :
    watchStack env vm argv argc s w (luaStack vm) = (watch env vm argv argc s w, luaStack vm) := by
  unfold watchStack watch luaStack
  by_cases h3 : argc ≥ 3
  · rw [if_pos h3, if_pos h3]
    by_cases h1 : strtol (argv.getD 0 "") < 1 ∨ (argv.getD 1 "").length > 1 ∨
        ¬ ((argv.getD 1 "").front = 'l' ∨ (argv.getD 1 "").front = 'u' ∨
          (argv.getD 1 "").front = 'g')
    · rw [if_pos h1, if_pos h1]
    · rw [if_neg h1, if_neg h1]
      simp only [lookupVarStack_eq]
      generalize lookupVar vm _ _ _ _ = lv
      cases lv with
      | none => rfl
      | some o =>
        cases o with
        | none => rfl
        | some v => exact watchTailStack_eq _ _ _ _ _ _ _ _
  · rw [if_neg h3, if_neg h3]
    simp only [List.headD_cons, if_true, getLast_luaStack]
    by_cases hn : vm.stack.head? = some Value.nil
    · rw [if_pos hn, if_pos hn]
      rfl
    · rw [if_neg hn, if_neg hn]
      exact watchTailStack_eq _ _ _ _ _ _ _ _

theorem watchReply_cases (env : Env) (vm : LuaVM) (root : Value) (fields : Option String)
    (remember : Bool) (s : Int) (w : World) :
    (∃ t, watchReply env vm root fields remember s w = SendErr s w t) ∨
    (∃ v, watchWalk env vm root fields = some v ∧
      watchReply env vm root fields remember s w =
        if remember = true then
          ((SendOK s w (RLdb.w env vm v)).1,
            { (SendOK s w (RLdb.w env vm v)).2 with
              cacheValue := if v = Value.nil then none else some v })
        else SendOK s w (RLdb.w env vm v)) ∨
    watchReply env vm root fields remember s w = lose w := by
  unfold watchReply
  cases fields with
  | none => exact Or.inr (Or.inl ⟨root, rfl, rfl⟩)
  | some f =>
    simp only [watchWalk]
    cases lookupField env vm root f with
    | none => exact Or.inr (Or.inr rfl)
    | some o =>
      cases o with
      | none => exact Or.inl ⟨_, rfl⟩
      | some v => exact Or.inr (Or.inl ⟨v, rfl, rfl⟩)

theorem watch_cases (env : Env) (vm : LuaVM) (argv : List String) (argc : Int) (s : Int)
    (w : World) :
    (∃ t, watch env vm argv argc s w = SendErr s w t) ∨
    (∃ v, watchResolved env vm argv argc w = some v ∧
      watch env vm argv argc s w =
        if watchRemember argv argc = true then
          ((SendOK s w (RLdb.w env vm v)).1,
            { (SendOK s w (RLdb.w env vm v)).2 with
              cacheValue := if v = Value.nil then none else some v })
        else SendOK s w (RLdb.w env vm v)) ∨
    watch env vm argv argc s w = lose w := by
  unfold watch watchResolved watchRoot watchFields watchRemember
  by_cases h3 : argc ≥ 3
  · simp only [if_pos h3]
    by_cases h1 : strtol (argv.getD 0 "") < 1 ∨ (argv.getD 1 "").length > 1 ∨
        ¬ ((argv.getD 1 "").front = 'l' ∨ (argv.getD 1 "").front = 'u' ∨
          (argv.getD 1 "").front = 'g')
    · rw [if_pos h1]
      exact Or.inl ⟨_, rfl⟩
    · rw [if_neg h1]
      generalize lookupVar vm _ _ _ _ = lv
      cases lv with
      | none => exact Or.inr (Or.inr rfl)
      | some o =>
        cases o with
        | none => exact Or.inl ⟨_, rfl⟩
        | some root =>
          dsimp only
          exact watchReply_cases env vm root _ _ s w
  · simp only [if_neg h3]
    by_cases hn : vm.stack.head? = some Value.nil
    · rw [if_pos hn]
      exact Or.inl ⟨_, rfl⟩
    · rw [if_neg hn]
      exact watchReply_cases env vm _ _ _ s w

theorem send_cacheValue (s : Int) (w : World) (f : Frame) :
    (send s w f).2.cacheValue = w.cacheValue := by
  obtain ⟨ok, sends', h⟩ := send_eq s w f
  rw [h]

/-- C23: the stack of the command handler is the same after `watch` as before
(and the reply and the session are those of `watch`, whose functions are
followed push by pop); after a reply ER, and after a WATCH without the `r`
suffix, `cacheValue` is as before; after a reply OK to a WATCH with `r`, the
payload is that of the resolved value and `cacheValue` is the resolved value
(nil clearing the field), whatever was cached before. -/
theorem watch_cache_effect (env : Env) (vm : LuaVM) (argv : List String) (argc : Int)
    (s : Int) (w : World) :
    watchStack env vm argv argc s w (luaStack vm) = (watch env vm argv argc s w, luaStack vm) ∧
    (∀ t ok, (watch env vm argv argc s w).2.out = w.out ++ [(Frame.ER t, ok)] →
      (watch env vm argv argc s w).2.cacheValue = w.cacheValue) ∧
    (watchRemember argv argc = false →
      (watch env vm argv argc s w).2.cacheValue = w.cacheValue) ∧
    (watchRemember argv argc = true →
      ∀ payload ok, (watch env vm argv argc s w).2.out = w.out ++ [(Frame.OK payload, ok)] →
        ∃ v, watchResolved env vm argv argc w = some v ∧ payload = RLdb.w env vm v ∧
          (watch env vm argv argc s w).2.cacheValue =
            if v = Value.nil then none else some v) := by
  refine ⟨watchStack_eq env vm argv argc s w, ?_, ?_, ?_⟩
  · intro t ok hout
    rcases watch_cases env vm argv argc s w with ⟨t2, h⟩ | ⟨v, _, h⟩ | h
    · rw [h]
      exact send_cacheValue _ _ _
    · exfalso
      rw [h] at hout
      obtain ⟨ok2, h2⟩ := send_out s w (Frame.OK (RLdb.w env vm v))
      by_cases hr : watchRemember argv argc = true
      · rw [if_pos hr] at hout
        have h3 : (SendOK s w (RLdb.w env vm v)).2.out = w.out ++ [(Frame.ER t, ok)] := hout
        rw [SendOK, h2] at h3
        have h4 := List.append_cancel_left h3
        simp at h4
      · rw [if_neg hr] at hout
        rw [SendOK, h2] at hout
        have h4 := List.append_cancel_left hout
        simp at h4
    · rw [h]
      rfl
  · intro hr
    rcases watch_cases env vm argv argc s w with ⟨t2, h⟩ | ⟨v, _, h⟩ | h
    · rw [h]
      exact send_cacheValue _ _ _
    · rw [h, hr]
      exact send_cacheValue _ _ _
    · rw [h]
      rfl
  · intro hr payload ok hout
    rcases watch_cases env vm argv argc s w with ⟨t2, h⟩ | ⟨v, hv, h⟩ | h
    · exfalso
      rw [h] at hout
      obtain ⟨ok2, h2⟩ := send_out s w (Frame.ER t2)
      rw [SendErr, h2] at hout
      have h4 := List.append_cancel_left hout
      simp at h4
    · refine ⟨v, hv, ?_, ?_⟩
      · rw [h, if_pos hr] at hout
        have h3 : (SendOK s w (RLdb.w env vm v)).2.out = w.out ++ [(Frame.OK payload, ok)] := hout
        obtain ⟨ok2, h2⟩ := send_out s w (Frame.OK (RLdb.w env vm v))
        rw [SendOK, h2] at h3
        have h4 := List.append_cancel_left h3
        simp at h4
        exact h4.1.symm
      · rw [h, if_pos hr]
    · exfalso
      rw [h] at hout
      have h3 : w.out = w.out ++ [(Frame.OK payload, ok)] := hout
      have h4 := congrArg List.length h3
      simp at h4

/-- C21 fails on this input: the local `t` is a table with no entry under the
key `true`, and the command `w 1 l t|b1`, whose path ends with that selector,
is answered with an `OK` frame for nil instead of `Field is not found!`; with a
further selector after it the walk does fail. -/
theorem watch_missing_key_resolves_nil :
    tableVM.gettable 16 (Key.boolean true) = Value.nil ∧
    (watch sampleEnv tableVM ["1", "l", "t|b1"] 3 3 (luaopen_RLdb 3 [] [])).2.out =
      [(Frame.OK "l\n", true)] ∧
    (watch sampleEnv tableVM ["1", "l", "t|b1|m"] 3 3 (luaopen_RLdb 3 [] [])).2.out =
      [(Frame.ER "Field is not found!", true)] := by
  decide

/-- C22 fails on this input: the table `t` holds one value, the function at
address 32, and no table; the command `w 1 l t|t32`, which asks for a table at
that address, is answered with the function instead of `Field is not found!`. -/
theorem watch_identity_selector_ignores_kind :
    tableVM.next 16 = [(Value.string 48 [102], Value.function 32)] ∧
    (watch sampleEnv tableVM ["1", "l", "t|t32"] 3 3 (luaopen_RLdb 3 [] [])).2.out =
      [(Frame.OK "f0x00000020\n0\nLua\nfoo.lua\n1\n9\n", true)] := by
  decide

/-- The identity selectors never look at the kind asked for: the four letters
give the same result. -/
theorem getFieldValue_identity_letters (env : Env) (vm : LuaVM) (p : Nat) (r : List Char) :
    getFieldValue env vm p ('u' :: r) = getFieldValue env vm p ('t' :: r) ∧
    getFieldValue env vm p ('f' :: r) = getFieldValue env vm p ('t' :: r) ∧
    getFieldValue env vm p ('d' :: r) = getFieldValue env vm p ('t' :: r) := by
  refine ⟨?_, ?_, ?_⟩ <;> simp [getFieldValue]

/-- A level for which `lua_getstack` reports no frame is answered by `ll`,
`lu` and `lg` with one ER frame, and the session is otherwise as before. -/
theorem listing_no_frame (env : Env) (vm : LuaVM) (argv : List String) (argc : Int) (s : Int)
    (w : World)
    (h0 : toInt32 ((if argc > 0 then strtol (argv.getD 0 "") else 1) - 1) ≠ 0)
    (hg : vm.getstack (toInt32 ((if argc > 0 then strtol (argv.getD 0 "") else 1) - 1)) = false) :
    (∃ t, listLocals env vm argv argc s w = SendErr s w t) ∧
    (∃ t, listUpVars env vm argv argc s w = SendErr s w t) ∧
    (∃ t, listGlobals env vm argv argc s w = SendErr s w t) := by
  refine ⟨?_, ?_, ?_⟩
  · unfold listLocals
    simp only [if_pos h0, hg, Bool.not_false, if_true]
    exact ⟨_, rfl⟩
  · unfold listUpVars
    simp only [if_pos h0, hg, Bool.not_false, if_true]
    exact ⟨_, rfl⟩
  · unfold listGlobals
    simp only [if_pos h0, hg, Bool.not_false, if_true]
    exact ⟨_, rfl⟩

/-- C24 fails on this input: with a VM that reports a frame for a negative
level, as Lua 5.1 does, the command `ll 0` is answered with an `OK` frame (an
empty listing) instead of an ER frame, while the addressed `w 0 l x` is
answered with `Invalid argument!`. -/
theorem list_level_zero_replies_ok :
    tailCallVM.getstack (-1) = true ∧
    (listLocals sampleEnv tailCallVM ["0"] 1 3 (luaopen_RLdb 3 [] [])).2.out =
      [(Frame.OK "", true)] ∧
    (watch sampleEnv tailCallVM ["0", "l", "x"] 3 3 (luaopen_RLdb 3 [] [])).2.out =
      [(Frame.ER "Invalid argument!", true)] := by
  decide

/-- C25: for every frame and every stack, `ll` writes, in slot order, the pair
`name\n<value line>` of each local whose name does not begin with `(`, nothing
for the others, and leaves the stack as it was; this text is the payload of
the reply of `ll` for a level that names a frame. -/
theorem ll_lists_named_locals (env : Env) (vm : LuaVM) :
    (∀ (level : Int) (L : Stack),
      ll env (vm.locals level) L =
        (String.join (((vm.locals level).filter fun e =>
          decide (e.1.toList.head? ≠ some '(')).map
            fun e => e.1 ++ "\n" ++ printVar env none e.2), L)) ∧
    (∀ (argv : List String) (argc s : Int) (w : World),
      toInt32 ((if argc > 0 then strtol (argv.getD 0 "") else 1) - 1) = 0 ∨
        vm.getstack (toInt32 ((if argc > 0 then strtol (argv.getD 0 "") else 1) - 1)) = true →
      ∃ ok, (listLocals env vm argv argc s w).2.out = w.out ++
        [(Frame.OK (String.join (((vm.locals
          (toInt32 ((if argc > 0 then strtol (argv.getD 0 "") else 1) - 1))).filter fun e =>
            decide (e.1.toList.head? ≠ some '(')).map
              fun e => e.1 ++ "\n" ++ printVar env none e.2)), ok)]) := by
  refine ⟨fun level L => ll_eq env (vm.locals level) L, ?_⟩
  intro argv argc s w h
  unfold listLocals
  simp only [ll_eq]
  by_cases h0 : toInt32 ((if argc > 0 then strtol (argv.getD 0 "") else 1) - 1) = 0
  · simp only [h0, ne_eq, not_true_eq_false, if_false]
    exact send_out s w _
  · rcases h with h | h
    · exact absurd h h0
    · simp only [ne_eq, h0, not_false_eq_true, if_true, h, Bool.not_true, Bool.false_eq_true,
        if_false]
      exact send_out s w _

theorem takeWhile_ne_self (c : Char) (l : List Char) (h : c ∉ l) :
    l.takeWhile (· ≠ c) = l := by
  induction l with
  | nil => rfl
  | cons a as ih =>
    have ha : a ≠ c := fun e => h (by rw [e]; exact List.mem_cons_self _ _)
    have has : c ∉ as := fun e => h (List.mem_cons_of_mem _ e)
    simp only [List.takeWhile_cons, ne_eq, ha, not_false_eq_true, decide_True, if_true, ih has]

theorem length_takeWhile_ne (c : Char) (l : List Char) :
    (l.takeWhile (· ≠ c)).length = l.length ↔ c ∉ l := by
  constructor
  · intro h hc
    induction l with
    | nil => exact absurd hc (List.not_mem_nil _)
    | cons a as ih =>
      by_cases ha : a = c
      · simp [List.takeWhile_cons, ha] at h
      · simp only [List.takeWhile_cons, ne_eq, ha, not_false_eq_true, decide_True, if_true,
          List.length_cons, add_left_inj] at h
        rcases List.mem_cons.1 hc with e | e
        · exact ha e.symm
        · exact ih h e
  · intro h
    rw [takeWhile_ne_self c l h]

/-- The function `isID` accepts exactly the names that start with a letter or
`_` and go on with letters, digits and `_`. -/
theorem isID_iff (cs : List Char) :
    isID cs = true ↔
      ∃ c rest, cs = c :: rest ∧ (isalpha c = true ∨ c = '_') ∧
        ∀ d ∈ rest, isalnum d = true ∨ d = '_' := by
  cases cs with
  | nil => simp [isID]
  | cons c rest =>
    have hd : (rest.dropWhile fun d => isalnum d || decide (d = '_')).isEmpty = true ↔
        ∀ d ∈ rest, isalnum d = true ∨ d = '_' := by
      rw [List.isEmpty_iff, List.dropWhile_eq_nil_iff]
      simp only [Bool.or_eq_true, decide_eq_true_eq]
    constructor
    · intro h
      simp only [isID, Bool.and_eq_true, Bool.or_eq_true, decide_eq_true_eq] at h
      exact ⟨c, rest, rfl, h.1, hd.1 h.2⟩
    · rintro ⟨c2, rest2, he, h1, h2⟩
      obtain ⟨rfl, rfl⟩ := List.cons.inj he
      simp only [isID, Bool.and_eq_true, Bool.or_eq_true, decide_eq_true_eq]
      exact ⟨h1, hd.2 h2⟩

/-- Text `lg` writes for one pair of the traversal. -/
theorem lgStep_eq (env : Env) (t : String) (k : Value) (L : Stack) (kv : Value × Value) :
    lgStep env (t, k :: L) kv =
      (t ++ (match keyText env kv.1 with
        | some name =>
          if '\x00' ∉ name ∧ isID name = true then
            String.mk name ++ "\n" ++ printVar env none kv.2
          else ""
        | none => ""), kv.1 :: L) := by
  unfold lgStep
  simp only [List.drop_succ_cons, List.drop_zero, List.headD_cons]
  cases hk : keyText env kv.1 with
  | none => simp
  | some name =>
    simp only [length_takeWhile_ne]
    by_cases h0 : '\x00' ∉ name
    · rw [takeWhile_ne_self _ _ h0]
      by_cases hi : isID name = true
      · simp only [h0, hi, not_false_eq_true, and_self, if_true, printVar_name]
      · simp [h0, hi]
    · simp [h0]

theorem join_cons (a : String) (l : List String) :
    String.join (a :: l) = a ++ String.join l := by
  induction l using List.reverseRecOn with
  | nil =>
    simp only [String.join, List.foldl_cons, List.foldl_nil, String.empty_append,
      String.append_empty]
  | append_singleton l b ih =>
    rw [← List.cons_append, join_append_singleton, ih, join_append_singleton,
      String.append_assoc]

/-- The loop of `lg` over pairs none of whose keys is a number returns, with
the text of the pairs appended and the key popped. -/
theorem lgLoop_eq (env : Env) (pairs : List (Value × Value))
    (hn : ∀ kv ∈ pairs, ∀ n, kv.1 ≠ Value.number n) (t : String) (k : Value) (L : Stack) :
    lgLoop env none pairs (t, k :: L) =
      (t ++ String.join (pairs.map fun kv =>
        match keyText env kv.1 with
        | some name =>
          if '\x00' ∉ name ∧ isID name = true then
            String.mk name ++ "\n" ++ printVar env none kv.2
          else ""
        | none => ""), some L) := by
  induction pairs generalizing t k with
  | nil =>
    simp only [lgLoop, List.map_nil, String.join, List.foldl_nil, String.append_empty,
      List.drop_succ_cons, List.drop_zero]
  | cons a rest ih =>
    have ha : (match a.1 with
        | Value.number n => some (env.fmtNumber n).toList
        | _ => (none : Option (List Char))) = none := by
      have h1 := hn a (List.mem_cons_self _ _)
      cases h : a.1 with
      | number n => exact absurd h (h1 n)
      | nil => rfl
      | boolean _ => rfl
      | lightuserdata _ => rfl
      | string _ _ => rfl
      | table _ => rfl
      | function _ => rfl
      | userdata _ => rfl
      | thread _ => rfl
    rw [lgLoop, ha, lgStep_eq, ih (fun kv h => hn kv (List.mem_cons_of_mem _ h)),
      List.map_cons, join_cons, String.append_assoc]

/-- Over a table without number keys `lg` returns with the stack it started
from and the text of the pairs whose key is a string without NUL inside that
is an identifier. -/
theorem lg_eq (env : Env) (pairs : List (Value × Value)) (L : Stack)
    (hn : ∀ kv ∈ pairs, ∀ n, kv.1 ≠ Value.number n) :
    lg env pairs L =
      (String.join (pairs.map fun kv =>
        match keyText env kv.1 with
        | some name =>
          if '\x00' ∉ name ∧ isID name = true then
            String.mk name ++ "\n" ++ printVar env none kv.2
          else ""
        | none => ""), some L) := by
  unfold lg
  rw [lgLoop_eq env pairs hn, String.empty_append]

/-- C26 fails on this input: the traversal visits a pair whose key is the
number +infinity, which `lua_isstring` accepts and `lua_tolstring` renders as
`inf`, an identifier, so `lg` writes a pair for a key that is not a string;
the next `lua_next` then finds a string in the place of the key, which is no
key of the table, and raises. -/
theorem lg_emits_number_key :
    keyText infEnv (Value.number ⟨9218868437227405312⟩) = some ['i', 'n', 'f'] ∧
    isID ['i', 'n', 'f'] = true ∧
    lg infEnv [(Value.number ⟨9218868437227405312⟩, Value.number ⟨1⟩)] [Value.table 8192] =
      ("inf\nn1\n", none) := by
  decide

/-- C27: a received command line that is empty (`getCmd` returns 0) or whose
first token is none of the dispatched commands is answered with the one frame
ER `Invalid command!`; `cmd`, `level`, `breakpoints` and `cacheValue` are as
before, and when the frame is sent the loop goes on to the next command (a
failed send ends the prompt with -1, as for every reply). -/
theorem unknown_command_reply (env : Env) (vm : LuaVM) (ar : lua_Debug) (s : Int)
    (line : String) (rest : List (Option String)) (w : World)
    (hs : s ≠ INVALID_SOCKET)
    (h : (getCmd env.PROT_MAX_ARGS line).1 = 0 ∨
      (getCmd env.PROT_MAX_ARGS line).2.getD 0 "" ∉
        ["s", "o", "f", "r", "ll", "lu", "lg", "w", "ps", "sb", "db", "lb", "e", "m"]) :
    ∃ ok sends' w1,
      w1 = { w with sends := sends', out := w.out ++ [(Frame.ER "Invalid command!", ok)] } ∧
      w1.info.cmd = w.info.cmd ∧ w1.info.level = w.info.level ∧
      w1.breakpoints = w.breakpoints ∧ w1.cacheValue = w.cacheValue ∧
      promptLoop env vm ar s (some line :: rest) w =
        if ok = true then promptLoop env vm ar s rest w1
        else (-1, { w1 with recvs := rest }) := by
  obtain ⟨ok, sends', hsend⟩ := send_eq s w (Frame.ER "Invalid command!")
  refine ⟨ok, sends', _, rfl, rfl, rfl, rfl, rfl, ?_⟩
  have hd : dispatch env vm ar s (getCmd env.PROT_MAX_ARGS line).1
      (getCmd env.PROT_MAX_ARGS line).2 w =
      Dispatch.handled (SendErr s w "Invalid command!") := by
    unfold dispatch
    rcases h with h | h
    · rw [if_pos h]
    · simp only [List.mem_cons, List.mem_singleton, not_or, List.not_mem_nil, not_false_eq_true,
        and_true] at h
      obtain ⟨h1, h2, h3, h4, h5, h6, h7, h8, h9, h10, h11, h12, h13, h14⟩ := h
      by_cases h0 : (getCmd env.PROT_MAX_ARGS line).1 = 0
      · rw [if_pos h0]
      · rw [if_neg h0, if_neg h1, if_neg h2, if_neg h3, if_neg h4]
        unfold handle
        rw [if_neg h5, if_neg h6, if_neg h7, if_neg h8, if_neg h9, if_neg h10, if_neg h11,
          if_neg h12, if_neg h13, if_neg h14]
  have ha : abandoned w (SendErr s w "Invalid command!") = false := abandoned_send _ _ _
  rw [promptLoop_cons env vm ar s hs, hd]
  simp only [ha, Bool.false_eq_true, if_false]
  simp only [SendErr, hsend]
  cases ok with
  | true => simp
  | false => simp

/-- C27 at a concrete input: the line `xyz` received after loading. -/
theorem unknown_command_reply_witness :
    ∃ ok sends' w1,
      w1 = { luaopen_RLdb 3 [] [] with
        sends := sends',
        out := (luaopen_RLdb 3 [] []).out ++ [(Frame.ER "Invalid command!", ok)] } ∧
      w1.info.cmd = (luaopen_RLdb 3 [] []).info.cmd ∧
      w1.info.level = (luaopen_RLdb 3 [] []).info.level ∧
      w1.breakpoints = (luaopen_RLdb 3 [] []).breakpoints ∧
      w1.cacheValue = (luaopen_RLdb 3 [] []).cacheValue ∧
      promptLoop sampleEnv sampleVM (lineAt "foo.lua" 1).ar 3 (some "xyz" :: [])
          (luaopen_RLdb 3 [] []) =
        if ok = true then promptLoop sampleEnv sampleVM (lineAt "foo.lua" 1).ar 3 [] w1
        else (-1, { w1 with recvs := [] }) :=
  unknown_command_reply sampleEnv sampleVM (lineAt "foo.lua" 1).ar 3 "xyz" []
    (luaopen_RLdb 3 [] []) (by decide) (by decide)

/-- C28 fails on this input: in the line `w "a"b c` the character after the
closing quote is overwritten and skipped, so `b` is in no token; when white
space follows the closing quote the tokens are those of the split. -/
theorem extractArgs_drops_char_after_quote :
    Controller.extractArgs "w \"a\"b c\n" = some (3, ["w", "\"a\"", "c"]) ∧
    Controller.extractArgs "w \"a\" b c\n" = some (4, ["w", "\"a\"", "b", "c"]) ∧
    Controller.extractArgs "w \"a b\n" = some (-1, ["w", "\"a b\n"]) ∧
    Controller.extractArgs " \t\n" = some (0, []) := by
  decide

theorem allDigits_iff (str : String) :
    Controller.allDigits str = true ↔ ∀ c ∈ str.toList, '0' ≤ c ∧ c ≤ '9' := by
  unfold Controller.allDigits
  rw [List.isEmpty_iff, List.dropWhile_eq_nil_iff]
  simp only [isdigit, Bool.decide_and, Bool.and_eq_true, decide_eq_true_eq]

/-- C29 (amended): for `ll`, `lu` and `lg`, `validateArgs` returns the
command type exactly when there are two tokens and the second consists of
decimal digits only, whatever its value, and CMD_INVALID for every other
form. -/
theorem validateArgs_listing (N : String) (rest : List String) (argc : Int) :
    (Controller.validateArgs ("ll" :: N :: rest) argc =
      if argc = 2 ∧ ∀ c ∈ N.toList, '0' ≤ c ∧ c ≤ '9' then Controller.CmdType.CMD_LISTL
      else Controller.CmdType.CMD_INVALID) ∧
    (Controller.validateArgs ("lu" :: N :: rest) argc =
      if argc = 2 ∧ ∀ c ∈ N.toList, '0' ≤ c ∧ c ≤ '9' then Controller.CmdType.CMD_LISTU
      else Controller.CmdType.CMD_INVALID) ∧
    (Controller.validateArgs ("lg" :: N :: rest) argc =
      if argc = 2 ∧ ∀ c ∈ N.toList, '0' ≤ c ∧ c ≤ '9' then Controller.CmdType.CMD_LISTG
      else Controller.CmdType.CMD_INVALID) ∧
    Controller.validateArgs ["ll"] 1 = Controller.CmdType.CMD_INVALID ∧
    Controller.validateArgs ["lu"] 1 = Controller.CmdType.CMD_INVALID ∧
    Controller.validateArgs ["lg"] 1 = Controller.CmdType.CMD_INVALID := by
  have hll : ("ll" : String) ≠ "s" ∧ ("ll" : String) ≠ "o" ∧ ("ll" : String) ≠ "r" := by decide
  have hlu : ("lu" : String) ≠ "s" ∧ ("lu" : String) ≠ "o" ∧ ("lu" : String) ≠ "r" ∧
      ("lu" : String) ≠ "ll" := by decide
  have hlg : ("lg" : String) ≠ "s" ∧ ("lg" : String) ≠ "o" ∧ ("lg" : String) ≠ "r" ∧
      ("lg" : String) ≠ "ll" ∧ ("lg" : String) ≠ "lu" := by decide
  refine ⟨?_, ?_, ?_, by decide, by decide, by decide⟩
  · unfold Controller.validateArgs
    simp only [List.getD_cons_zero, List.getD_cons_succ, hll.1, hll.2.1, hll.2.2, if_false,
      if_true, allDigits_iff]
    by_cases h0 : argc > 0
    · rw [if_pos h0]
    · rw [if_neg h0, if_neg (fun h => h0 (by omega))]
  · unfold Controller.validateArgs
    simp only [List.getD_cons_zero, List.getD_cons_succ, hlu.1, hlu.2.1, hlu.2.2.1, hlu.2.2.2,
      if_false, if_true, allDigits_iff]
    by_cases h0 : argc > 0
    · rw [if_pos h0]
    · rw [if_neg h0, if_neg (fun h => h0 (by omega))]
  · unfold Controller.validateArgs
    simp only [List.getD_cons_zero, List.getD_cons_succ, hlg.1, hlg.2.1, hlg.2.2.1,
      hlg.2.2.2.1, hlg.2.2.2.2, if_false, if_true, allDigits_iff]
    by_cases h0 : argc > 0
    · rw [if_pos h0]
    · rw [if_neg h0, if_neg (fun h => h0 (by omega))]

/-- C29 as stated fails: `ll 0`, `lu 0` and `lg 0` are accepted. -/
theorem validateArgs_accepts_level_zero :
    Controller.validateArgs ["ll", "0"] 2 = Controller.CmdType.CMD_LISTL ∧
    Controller.validateArgs ["lu", "0"] 2 = Controller.CmdType.CMD_LISTU ∧
    Controller.validateArgs ["lg", "0"] 2 = Controller.CmdType.CMD_LISTG := by
  decide

/-- C30 (amended): `validateArgs` returns CMD_WATCH for `w <fieldpath>` and
`w <fieldpath> r`, where the field path begins with `|`, and for
`w <N> <l|u|g> <name>` with or without a trailing `r`, where `N` consists of
decimal digits. -/
theorem validateArgs_watch (fp N sc name : String)
    (hfp : fp.toList.head? = some '|')
    (hN : ∀ c ∈ N.toList, '0' ≤ c ∧ c ≤ '9')
    (hsc : sc = "l" ∨ sc = "u" ∨ sc = "g") :
    Controller.validateArgs ["w", fp] 2 = Controller.CmdType.CMD_WATCH ∧
    Controller.validateArgs ["w", fp, "r"] 3 = Controller.CmdType.CMD_WATCH ∧
    Controller.validateArgs ["w", N, sc, name] 4 = Controller.CmdType.CMD_WATCH ∧
    Controller.validateArgs ["w", N, sc, name, "r"] 5 = Controller.CmdType.CMD_WATCH := by
  have hw : ("w" : String) ≠ "s" ∧ ("w" : String) ≠ "o" ∧ ("w" : String) ≠ "r" ∧
      ("w" : String) ≠ "ll" ∧ ("w" : String) ≠ "lu" ∧ ("w" : String) ≠ "lg" := by decide
  have hN2 : Controller.allDigits N = true := (allDigits_iff N).2 hN
  have hfp0 : Controller.charAt fp 0 = '|' := by
    unfold Controller.charAt
    cases hl : fp.toList with
    | nil => rw [hl] at hfp; simp at hfp
    | cons c cs =>
      rw [hl] at hfp
      simp only [List.head?_cons, Option.some.injEq] at hfp
      rw [hfp]
      rfl
  have hfpd3 : Controller.allDigits fp = false := by
    cases hd : Controller.allDigits fp with
    | false => rfl
    | true =>
      exfalso
      have h := (allDigits_iff fp).1 hd
      cases hl : fp.toList with
      | nil => rw [hl] at hfp; simp at hfp
      | cons c cs =>
        rw [hl] at hfp h
        simp only [List.head?_cons, Option.some.injEq] at hfp
        have hc := h c (List.mem_cons_self _ _)
        rw [hfp] at hc
        exact absurd hc (by decide)
  have hsc1 : Controller.charAt sc 1 = '\x00' ∧ (Controller.charAt sc 0 = 'l' ∨
      Controller.charAt sc 0 = 'u' ∨ Controller.charAt sc 0 = 'g') := by
    rcases hsc with h | h | h <;> subst h <;> decide
  have hr : Controller.charAt "r" 0 = 'r' ∧ Controller.charAt "r" 1 = '\x00' := by decide
  refine ⟨?_, ?_, ?_, ?_⟩
  · unfold Controller.validateArgs
    simp [hw.1, hw.2.1, hw.2.2.1, hw.2.2.2.1, hw.2.2.2.2.1, hw.2.2.2.2.2, hfpd3, hfp0]
  · unfold Controller.validateArgs
    simp [hw.1, hw.2.1, hw.2.2.1, hw.2.2.2.1, hw.2.2.2.2.1, hw.2.2.2.2.2, hfpd3, hfp0, hr.1,
      hr.2]
  · unfold Controller.validateArgs
    simp [hw.1, hw.2.1, hw.2.2.1, hw.2.2.2.1, hw.2.2.2.2.1, hw.2.2.2.2.2, hN2, hsc1.1, hsc1.2]
  · unfold Controller.validateArgs
    simp [hw.1, hw.2.1, hw.2.2.1, hw.2.2.2.1, hw.2.2.2.2.1, hw.2.2.2.2.2, hN2, hsc1.1, hsc1.2,
      hr.1, hr.2]

/-- C30 (amended) at a concrete input: the field path `|n1` and the variable
`x` of level 1 with the path `|m`. -/
theorem validateArgs_watch_witness :
    Controller.validateArgs ["w", "|n1"] 2 = Controller.CmdType.CMD_WATCH ∧
    Controller.validateArgs ["w", "|n1", "r"] 3 = Controller.CmdType.CMD_WATCH ∧
    Controller.validateArgs ["w", "1", "l", "x|m"] 4 = Controller.CmdType.CMD_WATCH ∧
    Controller.validateArgs ["w", "1", "l", "x|m", "r"] 5 = Controller.CmdType.CMD_WATCH :=
  validateArgs_watch "|n1" "1" "l" "x|m" (by decide) (by decide) (Or.inl rfl)

/-- C30 as stated fails: `w` alone and `w r` are rejected. -/
theorem validateArgs_rejects_bare_watch :
    Controller.validateArgs ["w"] 1 = Controller.CmdType.CMD_INVALID ∧
    Controller.validateArgs ["w", "r"] 2 = Controller.CmdType.CMD_INVALID := by
  decide

/-- C31: `mainloop` calls `sendCmd` for an input line only when `extractArgs`
returned at least one token and `validateArgs` gave a command type other than
CMD_INVALID and CMD_HELP; a line with no token or with one of these two
types is dealt with locally, with no call of `sendCmd`: so are `ll x`, `ll`, the
blank line and `h`. -/
theorem mainloop_sends_only_valid (buf : String) :
    (∀ t bytes, Controller.mainloopStep buf = some (Controller.Step.send t bytes) →
      ∃ argc argv, Controller.extractArgs buf = some (argc, argv) ∧ 1 ≤ argc ∧
        t = Controller.validateArgs argv argc ∧ t ≠ Controller.CmdType.CMD_INVALID ∧
        t ≠ Controller.CmdType.CMD_HELP ∧ bytes = Controller.sendCmd t argv argc) ∧
    (∀ argc argv, Controller.extractArgs buf = some (argc, argv) →
      (argc < 1 ∨ Controller.validateArgs argv argc = Controller.CmdType.CMD_INVALID →
        Controller.mainloopStep buf = some Controller.Step.invalid) ∧
      (1 ≤ argc → Controller.validateArgs argv argc = Controller.CmdType.CMD_HELP →
        Controller.mainloopStep buf = some Controller.Step.help)) ∧
    Controller.mainloopStep "ll x\n" = some Controller.Step.invalid ∧
    Controller.mainloopStep "ll\n" = some Controller.Step.invalid ∧
    Controller.mainloopStep "\n" = some Controller.Step.invalid ∧
    Controller.mainloopStep "h\n" = some Controller.Step.help := by
  refine ⟨?_, ?_, by decide, by decide, by decide, by decide⟩
  · intro t bytes h
    unfold Controller.mainloopStep at h
    cases hx : Controller.extractArgs buf with
    | none => rw [hx] at h; exact absurd h (by simp)
    | some r =>
      rw [hx] at h
      simp only at h
      by_cases h1 : r.1 < 1 ∨ Controller.validateArgs r.2 r.1 = Controller.CmdType.CMD_INVALID
      · rw [if_pos h1] at h
        exact absurd h (by simp)
      · rw [if_neg h1] at h
        by_cases h2 : Controller.validateArgs r.2 r.1 = Controller.CmdType.CMD_HELP
        · rw [if_pos h2] at h
          exact absurd h (by simp)
        · rw [if_neg h2] at h
          simp only [Option.some.injEq, Controller.Step.send.injEq] at h
          obtain ⟨ht, hb⟩ := h
          refine ⟨r.1, r.2, rfl, ?_, ht.symm, ?_, ?_, ?_⟩
          · exact not_lt.1 fun hlt => h1 (Or.inl hlt)
          · rw [← ht]; exact fun he => h1 (Or.inr he)
          · rw [← ht]; exact h2
          · rw [← hb, ← ht]
  · intro argc argv hx
    unfold Controller.mainloopStep
    rw [hx]
    constructor
    · intro h1
      simp only
      rw [if_pos h1]
    · intro h1 h2
      simp only
      rw [if_neg (by
        rintro (h | h)
        · omega
        · rw [h2] at h; exact absurd h (by decide)), if_pos h2]


/-- C33 (amended): `waitForBreakOrQuit` returns 1 with the file and the line
text for a message `BR\n<path>\n<line>\n` (whatever follows it), 0 for the
message `QT\n\n`, and -1 for a wrong prefix, for a message without its two
newline delimiters, and when the read failed; the line text is not parsed. -/
theorem waitForBreakOrQuit_frames :
    (∀ path line rest : List Char, '\n' ∉ path → '\n' ∉ line →
      Controller.waitForBreakOrQuit
          (some ('B' :: 'R' :: '\n' :: (path ++ '\n' :: (line ++ '\n' :: rest)))) =
        (1, some (String.mk path, String.mk line))) ∧
    Controller.waitForBreakOrQuit (some ['Q', 'T', '\n', '\n']) = (0, none) ∧
    (∀ p : List Char, p.take 3 ≠ ['B', 'R', '\n'] → p ≠ ['Q', 'T', '\n', '\n'] →
      (Controller.waitForBreakOrQuit (some p)).1 = -1) ∧
    (∀ path : List Char, '\n' ∉ path →
      (Controller.waitForBreakOrQuit (some ('B' :: 'R' :: '\n' :: path))).1 = -1) ∧
    (∀ path line : List Char, '\n' ∉ path → '\n' ∉ line →
      (Controller.waitForBreakOrQuit
        (some ('B' :: 'R' :: '\n' :: (path ++ '\n' :: line)))).1 = -1) ∧
    (Controller.waitForBreakOrQuit none).1 = -1 := by
  have tw : ∀ a x : List Char, '\n' ∉ a → (a ++ '\n' :: x).takeWhile (· ≠ '\n') = a := by
    intro a x ha
    induction a with
    | nil => simp
    | cons c a ih =>
      have hc : c ≠ '\n' := fun h => ha (by simp [h])
      have h := ih fun h => ha (List.mem_cons_of_mem _ h)
      simp only [List.cons_append, List.takeWhile_cons, hc, ne_eq, not_false_eq_true,
        decide_True, if_true, h]
  have dw : ∀ a x : List Char, '\n' ∉ a →
      (a ++ '\n' :: x).dropWhile (· ≠ '\n') = '\n' :: x := by
    intro a x ha
    induction a with
    | nil => simp
    | cons c a ih =>
      have hc : c ≠ '\n' := fun h => ha (by simp [h])
      have h := ih fun h => ha (List.mem_cons_of_mem _ h)
      simp only [List.cons_append, List.dropWhile_cons, hc, ne_eq, not_false_eq_true,
        decide_True, if_true, h]
  refine ⟨?_, by decide, ?_, ?_, ?_, rfl⟩
  · intro path line rest hp hl
    unfold Controller.waitForBreakOrQuit
    have m1 : '\n' ∈ path ++ '\n' :: (line ++ '\n' :: rest) :=
      List.mem_append_right _ (List.mem_cons_self _ _)
    have m2 : '\n' ∈ line ++ '\n' :: rest := List.mem_append_right _ (List.mem_cons_self _ _)
    simp only [List.take_succ_cons, List.take_zero, List.drop_succ_cons, List.drop_zero,
      if_true, tw _ _ hp, dw _ _ hp, List.tail_cons, tw _ _ hl, m1, m2]
  · intro p h1 h2
    unfold Controller.waitForBreakOrQuit
    simp only [h1, h2, if_false]
  · intro path hp
    unfold Controller.waitForBreakOrQuit
    simp only [List.take_succ_cons, List.take_zero, List.drop_succ_cons, List.drop_zero,
      if_true, hp, if_false]
  · intro path line hp hl
    unfold Controller.waitForBreakOrQuit
    have m1 : '\n' ∈ path ++ '\n' :: line := List.mem_append_right _ (List.mem_cons_self _ _)
    simp only [List.take_succ_cons, List.take_zero, List.drop_succ_cons, List.drop_zero,
      if_true, dw _ _ hp, List.tail_cons, m1, hl, if_false]

/-- C33 as stated fails: a break message whose line field is no number is
accepted, with that text as the line. -/
theorem waitForBreakOrQuit_accepts_any_line :
    Controller.waitForBreakOrQuit (some "BR\nfoo.lua\nabc\n".toList) =
      (1, some ("foo.lua", "abc")) := by
  decide

/-- C34 fails on this input: for the value `:` of REMOTE_LDB the port is what
`atoi` makes of the empty text, 0, and not 2679; the other shapes give the
host and the port of the claim. -/
theorem remoteEndpoint_colon_alone :
    remoteEndpoint (some ":") = ("127.0.0.1", 0) ∧
    remoteEndpoint (some "10.0.0.5:") = ("10.0.0.5", 2679) ∧
    remoteEndpoint (some "10.0.0.5:6688") = ("10.0.0.5", 6688) ∧
    remoteEndpoint (some "10.0.0.5") = ("10.0.0.5", 2679) ∧
    remoteEndpoint (some ":6688") = ("127.0.0.1", 6688) ∧
    remoteEndpoint none = ("127.0.0.1", 2679) := by
  decide

/-- C36 fails on this input: the line `s "x`, whose quoted token has no
closing quote, makes `getCmd` return -2, and the prompt loop still dispatches
on its first token: the loop ends with 0 and `cmd` goes from RUN to STEP. -/
theorem unclosed_quote_is_dispatched :
    getCmd sampleEnv.PROT_MAX_ARGS "s \"x" = (-2, ["s", "x"]) ∧
    (promptLoop sampleEnv sampleVM (lineAt "foo.lua" 1).ar 3 [some "s \"x"]
      { luaopen_RLdb 3 [] [] with
        info := { (luaopen_RLdb 3 [] []).info with cmd := CMD.RUN } }).1 = 0 ∧
    (promptLoop sampleEnv sampleVM (lineAt "foo.lua" 1).ar 3 [some "s \"x"]
      { luaopen_RLdb 3 [] [] with
        info := { (luaopen_RLdb 3 [] []).info with cmd := CMD.RUN } }).2.info.cmd =
      CMD.STEP := by
  decide

/-- C38 fails on this input: in the directory `/home/u`, with room for 16
bytes, the relative path `some/long/file.lua` does not fit, and the result is
not null: it is the directory with a `/`; the absolute path of the same length
gives null. -/
theorem fullpath_relative_overflow :
    sampleEnv.cwd = some "/home/u" ∧
    _fullpath sampleEnv "some/long/file.lua" 16 = some "/home/u/" ∧
    _fullpath sampleEnv "/some/long/file.lua" 16 = none ∧
    _fullpath sampleEnv "a.lua" 16 = some "/home/u/a.lua" := by
  decide

/-- C39 fails on this input: when the closing quote of a quoted token is the
last character of the buffer, as in `w 1 l "a"` without a newline, the scan
moves past the terminating NUL; with the newline it stays inside. -/
theorem extractArgs_leaves_buffer :
    Controller.extractArgs "w 1 l \"a\"" = none ∧
    Controller.extractArgs "w 1 l \"a\"\n" = some (4, ["w", "1", "l", "\"a\""]) ∧
    Controller.extractArgs "w 1 l a" = some (4, ["w", "1", "l", "a"]) := by
  decide

/-- C35 fails on this input: with every socket operation succeeding, the
command `e` makes `exec` return -2, `prompt` return -1 after the one frame BR,
and the hook detach. -/
theorem exec_ends_prompt :
    (prompt sampleEnv sampleVM (lineAt "foo.lua" 1).ar
      (luaopen_RLdb 3 [some "e", some "s"] [])).1 = -1 ∧
    (prompt sampleEnv sampleVM (lineAt "foo.lua" 1).ar
      (luaopen_RLdb 3 [some "e", some "s"] [])).2.out =
      [(Frame.BR "foo.lua" 1, true)] ∧
    (hook sampleEnv sampleVM (lineAt "foo.lua" 1).ar
      (luaopen_RLdb 3 [some "e", some "s"] [])).info.s = INVALID_SOCKET := by
  decide

theorem takeWhile_ne_append (c : Char) (a x : List Char) (ha : c ∉ a) :
    (a ++ c :: x).takeWhile (· ≠ c) = a := by
  induction a with
  | nil => simp
  | cons d a ih =>
    have hd : d ≠ c := fun h => ha (by simp [h])
    have h := ih fun h => ha (List.mem_cons_of_mem _ h)
    simp only [List.cons_append, List.takeWhile_cons, hd, ne_eq, not_false_eq_true,
      decide_True, if_true, h]

theorem dropWhile_ne_append (c : Char) (a x : List Char) (ha : c ∉ a) :
    (a ++ c :: x).dropWhile (· ≠ c) = c :: x := by
  induction a with
  | nil => simp
  | cons d a ih =>
    have hd : d ≠ c := fun h => ha (by simp [h])
    have h := ih fun h => ha (List.mem_cons_of_mem _ h)
    simp only [List.cons_append, List.dropWhile_cons, hd, ne_eq, not_false_eq_true,
      decide_True, if_true, h]

theorem dropWhile_ne_self (c : Char) (a : List Char) (ha : c ∉ a) :
    a.dropWhile (· ≠ c) = [] := by
  rw [List.dropWhile_eq_nil_iff]
  intro d hd
  simp only [ne_eq, decide_not, Bool.not_eq_true', decide_eq_false_iff_not]
  exact fun h => ha (h ▸ hd)

/-- Tokens after the first, each behind its space. -/
theorem wire_cons (t : Controller.Token) (ts : List Controller.Token) :
    Controller.wire (t :: ts) =
      t.text.toList ++ ts.flatMap fun k => ' ' :: k.text.toList := by
  induction ts generalizing t with
  | nil => simp [Controller.wire]
  | cons k ks ih =>
    rw [Controller.wire, ih k, List.flatMap_cons]
    rfl
    intro h; cases h

theorem space_not_mem_plain (cs : List Char)
    (h : ∀ d ∈ cs, isspace d = false ∧ d ≠ '\x00') : ' ' ∉ cs := by
  intro hm
  have := (h ' ' hm).1
  exact absurd this (by decide)

theorem getCmdLoop_quoted (maxArgs fuel : Nat) (p q : List Char) (acc : List String)
    (hp : p.dropWhile (· = ' ') = '"' :: q) (hmax : acc.length < maxArgs) (hq : '"' ∈ q) :
    getCmdLoop maxArgs (fuel + 1) p acc =
      getCmdLoop maxArgs fuel ((q.dropWhile (· ≠ '"')).tail)
        (acc ++ [String.mk (q.takeWhile (· ≠ '"'))]) := by
  have hne : p ≠ [] := by
    intro h
    rw [h] at hp
    simp at hp
  rw [getCmdLoop, if_neg (by
    rintro (h | h)
    · exact hne h
    · omega), hp]
  simp only [hq, if_true]

theorem getCmdLoop_plain (maxArgs fuel : Nat) (p : List Char) (c : Char) (cs : List Char)
    (acc : List String) (hp : p.dropWhile (· = ' ') = c :: cs) (hc : c ≠ '"')
    (hmax : acc.length < maxArgs) :
    getCmdLoop maxArgs (fuel + 1) p acc =
      if (c :: cs).dropWhile (· ≠ ' ') = [] then
        ((acc.length : Int) + 1, acc ++ [String.mk ((c :: cs).takeWhile (· ≠ ' '))])
      else
        getCmdLoop maxArgs fuel (((c :: cs).dropWhile (· ≠ ' ')).tail)
          (acc ++ [String.mk ((c :: cs).takeWhile (· ≠ ' '))]) := by
  have hne : p ≠ [] := by
    intro h
    rw [h] at hp
    simp at hp
  rw [getCmdLoop, if_neg (by
    rintro (h | h)
    · exact hne h
    · omega), hp]
  split
  · rename_i q heq
    exact absurd (List.cons.inj heq).1 hc
  · rfl

theorem getCmdLoop_nil (maxArgs fuel : Nat) (acc : List String) :
    getCmdLoop maxArgs fuel [] acc = ((acc.length : Int), acc) := by
  cases fuel with
  | zero => rfl
  | succ k => rw [getCmdLoop, if_pos (Or.inl rfl)]

/-- Head of the text of a well-formed token: never a space. -/
theorem dropWhile_space_token (t : Controller.Token) (ht : t.WF) (sp x : List Char)
    (hsp : sp = [] ∨ sp = [' ']) :
    (sp ++ t.text.toList ++ x).dropWhile (· = ' ') = t.text.toList ++ x := by
  have hhead : ∀ l : List Char, (t.text.toList ++ l).dropWhile (· = ' ') = t.text.toList ++ l := by
    intro l
    cases t with
    | plain cs =>
      obtain ⟨hne, _, hall⟩ := ht
      cases cs with
      | nil => exact absurd rfl hne
      | cons c cs =>
        have hc : c ≠ ' ' := fun h =>
          absurd (hall c (List.mem_cons_self _ _)).1 (by rw [h]; decide)
        simp [Controller.Token.text, List.dropWhile_cons, hc]
    | quoted body => simp [Controller.Token.text, List.dropWhile_cons]
  rcases hsp with h | h
  · rw [h, List.nil_append]
    exact hhead x
  · rw [h]
    simp only [List.singleton_append, List.cons_append, List.dropWhile_cons, decide_True,
      if_true]
    exact hhead x

theorem getCmdLoop_tokens (maxArgs : Nat) :
    ∀ (ts : List Controller.Token) (t : Controller.Token) (sp : List Char) (acc : List String)
      (fuel : Nat), (sp = [] ∨ sp = [' ']) → t.WF → (∀ k ∈ ts, Controller.Token.WF k) →
      ts.length < fuel → acc.length + ts.length + 1 ≤ maxArgs →
      getCmdLoop maxArgs fuel
          (sp ++ t.text.toList ++ ts.flatMap fun k => ' ' :: k.text.toList) acc =
        (((acc.length + ts.length + 1 : Nat) : Int),
          acc ++ (t :: ts).map Controller.Token.arg) := by
  intro ts
  induction ts with
  | nil =>
    intro t sp acc fuel hsp ht _ hf hm
    cases fuel with
    | zero => exact absurd hf (Nat.not_lt_zero _)
    | succ fuel =>
      have hd := dropWhile_space_token t ht sp [] hsp
      simp only [List.flatMap_nil, List.append_nil] at hd ⊢
      cases t with
      | plain cs =>
        obtain ⟨hne, hq, hall⟩ := ht
        cases cs with
        | nil => exact absurd rfl hne
        | cons c cs =>
          have hc : c ≠ '"' := fun h => hq (by rw [h]; rfl)
          have hs := space_not_mem_plain (c :: cs) hall
          rw [getCmdLoop_plain maxArgs fuel _ c cs acc hd hc (by simp at hm; omega),
            if_pos (dropWhile_ne_self ' ' _ hs)]
          have htw : (c :: cs).takeWhile (· ≠ ' ') = c :: cs := by
            rw [List.takeWhile_eq_self_iff]
            intro d hd
            simp only [ne_eq, decide_not, Bool.not_eq_true', decide_eq_false_iff_not]
            exact fun h => hs (h ▸ hd)
          rw [htw]
          simp [Controller.Token.arg]
      | quoted body =>
        obtain ⟨hq, _⟩ := ht
        have hd2 : (sp ++ (Controller.Token.quoted body).text.toList).dropWhile (· = ' ') =
            '"' :: (body ++ ['"']) := hd
        rw [getCmdLoop_quoted maxArgs fuel _ (body ++ ['"']) acc hd2 (by simp at hm; omega)
          (List.mem_append_right _ (List.mem_singleton_self _)),
          takeWhile_ne_append '"' body [] hq, dropWhile_ne_append '"' body [] hq,
          List.tail_cons, getCmdLoop_nil]
        simp [Controller.Token.arg]
  | cons k ks ih =>
    intro t sp acc fuel hsp ht hks hf hm
    cases fuel with
    | zero => exact absurd hf (Nat.not_lt_zero _)
    | succ fuel =>
      have hk : k.WF := hks k (List.mem_cons_self _ _)
      have hks2 : ∀ x ∈ ks, Controller.Token.WF x := fun x hx => hks x (List.mem_cons_of_mem _ hx)
      have hlen : ks.length < fuel := by
        simp only [List.length_cons] at hf
        omega
      have hd := dropWhile_space_token t ht sp
        ((k :: ks).flatMap fun k => ' ' :: k.text.toList) hsp
      rw [List.flatMap_cons] at hd ⊢
      cases t with
      | plain cs =>
        obtain ⟨hne, hq, hall⟩ := ht
        cases cs with
        | nil => exact absurd rfl hne
        | cons c cs =>
          have hc : c ≠ '"' := fun h => hq (by rw [h]; rfl)
          have hs := space_not_mem_plain (c :: cs) hall
          have hd2 : (sp ++ (Controller.Token.plain (c :: cs)).text.toList ++
              ((' ' :: k.text.toList) ++ ks.flatMap fun k => ' ' :: k.text.toList)).dropWhile
                (· = ' ') =
              c :: (cs ++ ' ' :: (k.text.toList ++ ks.flatMap fun k => ' ' :: k.text.toList)) :=
            hd
          rw [getCmdLoop_plain maxArgs fuel _ c _ acc hd2 hc
            (by simp only [List.length_cons] at hm; omega)]
          have e1 : c :: (cs ++ ' ' :: (k.text.toList ++ ks.flatMap fun k =>
              ' ' :: k.text.toList)) =
              (c :: cs) ++ ' ' :: (k.text.toList ++ ks.flatMap fun k => ' ' :: k.text.toList) :=
            rfl
          rw [e1, dropWhile_ne_append ' ' _ _ hs, takeWhile_ne_append ' ' _ _ hs,
            if_neg (by simp), List.tail_cons]
          have := ih k [] (acc ++ [String.mk (c :: cs)]) fuel (Or.inl rfl) hk hks2 hlen
            (by simp only [List.length_append, List.length_cons, List.length_nil] at hm ⊢; omega)
          rw [List.nil_append] at this
          rw [this]
          simp only [List.length_append, List.length_cons, List.length_nil, List.map_cons,
            Controller.Token.arg, List.append_assoc, List.singleton_append, Prod.mk.injEq,
            and_true]
          push_cast
          ring
      | quoted body =>
        obtain ⟨hq, _⟩ := ht
        have hd2 : (sp ++ (Controller.Token.quoted body).text.toList ++
            ((' ' :: k.text.toList) ++ ks.flatMap fun k => ' ' :: k.text.toList)).dropWhile
              (· = ' ') =
            '"' :: (body ++ '"' :: ' ' :: (k.text.toList ++ ks.flatMap fun k =>
              ' ' :: k.text.toList)) := by
          rw [hd]
          simp [Controller.Token.text]
        rw [getCmdLoop_quoted maxArgs fuel _ _ acc hd2
          (by simp only [List.length_cons] at hm; omega)
          (List.mem_append_right _ (List.mem_cons_self _ _)),
          takeWhile_ne_append '"' body _ hq, dropWhile_ne_append '"' body _ hq, List.tail_cons]
        have := ih k [' '] (acc ++ [String.mk body]) fuel (Or.inr rfl) hk hks2 hlen
          (by simp only [List.length_append, List.length_cons, List.length_nil] at hm ⊢; omega)
        rw [show [' '] ++ k.text.toList ++ (ks.flatMap fun k => ' ' :: k.text.toList) =
          ' ' :: (k.text.toList ++ ks.flatMap fun k => ' ' :: k.text.toList) from rfl] at this
        rw [this]
        simp only [List.length_append, List.length_cons, List.length_nil, List.map_cons,
          Controller.Token.arg, List.append_assoc, List.singleton_append, Prod.mk.injEq,
          and_true]
        push_cast
        ring

theorem dropWhile_head_false (f : Char → Bool) (c : Char) (q : List Char) :
    ∀ l : List Char, l.dropWhile f = c :: q → f c = false := by
  intro l
  induction l with
  | nil => intro h; cases h
  | cons d l ih =>
    intro h
    rw [List.dropWhile_cons] at h
    by_cases hd : f d = true
    · rw [if_pos hd] at h
      exact ih h
    · rw [if_neg hd] at h
      have := (List.cons.inj h).1
      rw [← this]
      simpa using hd

theorem length_take_drop_while (f : Char → Bool) (l : List Char) :
    (l.takeWhile f).length + (l.dropWhile f).length = l.length := by
  rw [← List.length_append, List.takeWhile_append_dropWhile]

theorem mem_of_mem_dropWhile (f : Char → Bool) (l : List Char) (c : Char)
    (h : c ∈ l.dropWhile f) : c ∈ l :=
  (List.dropWhile_suffix f).sublist.subset h

theorem mem_of_mem_takeWhile (f : Char → Bool) (l : List Char) (c : Char)
    (h : c ∈ l.takeWhile f) : c ∈ l :=
  (List.takeWhile_prefix f).sublist.subset h

theorem takeWhile_all (f : Char → Bool) (l : List Char) :
    ∀ c ∈ l.takeWhile f, f c = true := by
  induction l with
  | nil => intro c h; cases h
  | cons d l ih =>
    intro c h
    rw [List.takeWhile_cons] at h
    by_cases hd : f d = true
    · rw [if_pos hd] at h
      rcases List.mem_cons.1 h with h | h
      · rw [h]; exact hd
      · exact ih c h
    · rw [if_neg hd] at h
      cases h

/-- The tokens that `extractArgs` stores are plain or quoted tokens of the
shape `Token.WF`, and joined by spaces they are no longer than the line. -/
theorem extractArgsLoop_tokens (L : Nat) :
    ∀ (fuel : Nat) (p : List Char) (toks0 : List Controller.Token) (n : Int)
      (argv : List String),
      (∀ k ∈ toks0, Controller.Token.WF k) → '\x00' ∉ p →
      (toks0.flatMap fun k => ' ' :: k.text.toList).length + p.length ≤ L + 1 →
      (p ≠ [] → (toks0.flatMap fun k => ' ' :: k.text.toList).length + p.length ≤ L) →
      Controller.extractArgsLoop fuel p (toks0.map Controller.Token.text) = some (n, argv) →
      0 ≤ n →
      ∃ toks : List Controller.Token, (∀ k ∈ toks, Controller.Token.WF k) ∧
        argv = toks.map Controller.Token.text ∧ n = toks.length ∧
        (toks.flatMap fun k => ' ' :: k.text.toList).length ≤ L + 1 := by
  intro fuel
  induction fuel with
  | zero =>
    intro p toks0 n argv hwf _ hl _ h _
    simp only [Controller.extractArgsLoop, Option.some.injEq, Prod.mk.injEq] at h
    exact ⟨toks0, hwf, h.2.symm, by rw [← h.1]; simp, by omega⟩
  | succ fuel ih =>
    intro p toks0 n argv hwf hnul hl hl2 h hn
    have hsame : some (((toks0.map Controller.Token.text).length : Int),
        toks0.map Controller.Token.text) = some (n, argv) →
        ∃ toks : List Controller.Token, (∀ k ∈ toks, Controller.Token.WF k) ∧
          argv = toks.map Controller.Token.text ∧ n = toks.length ∧
          (toks.flatMap fun k => ' ' :: k.text.toList).length ≤ L + 1 := by
      intro h
      simp only [Option.some.injEq, Prod.mk.injEq] at h
      exact ⟨toks0, hwf, h.2.symm, by rw [← h.1]; simp, by omega⟩
    rw [Controller.extractArgsLoop] at h
    by_cases h0 : p = [] ∨ Controller.MAX_ARGS ≤ (toks0.map Controller.Token.text).length
    · rw [if_pos h0] at h
      exact hsame h
    · rw [if_neg h0] at h
      have hp : p ≠ [] := fun e => h0 (Or.inl e)
      have hlp := hl2 hp
      have hdl : (p.dropWhile isspace).length ≤ p.length :=
        (List.dropWhile_suffix isspace).sublist.length_le
      split at h
      · exact hsame h
      · rename_i q hq
        by_cases hqq : '"' ∈ q
        · rw [if_pos hqq] at h
          have hqn : '\x00' ∉ q := fun hm =>
            hnul (mem_of_mem_dropWhile isspace p _ (by rw [hq]; exact List.mem_cons_of_mem _ hm))
          have hlen := length_take_drop_while (· ≠ '"') q
          have hbq : '"' ∉ q.takeWhile (· ≠ '"') := fun hm => by
            have := takeWhile_all (· ≠ '"') q _ hm
            simp at this
          have hbn : '\x00' ∉ q.takeWhile (· ≠ '"') := fun hm =>
            hqn (mem_of_mem_takeWhile _ q _ hm)
          have hdq : ∃ x, q.dropWhile (· ≠ '"') = '"' :: x := by
            cases hdw : q.dropWhile (· ≠ '"') with
            | nil =>
              rw [List.dropWhile_eq_nil_iff] at hdw
              have := hdw _ hqq
              simp at this
            | cons d x =>
              have := dropWhile_head_false (· ≠ '"') d x q hdw
              simp only [ne_eq, decide_not, Bool.not_eq_false', decide_eq_true_eq] at this
              exact ⟨x, by rw [this]⟩
          obtain ⟨x, hx⟩ := hdq
          rw [hx] at h hlen
          rw [hq] at hdl
          simp only [List.tail_cons] at h
          cases x with
          | nil => exact absurd h (by simp)
          | cons d rest =>
            have hrn : '\x00' ∉ rest := fun hm =>
              hqn (mem_of_mem_dropWhile (· ≠ '"') q _ (by
                rw [hx]
                exact List.mem_cons_of_mem _ (List.mem_cons_of_mem _ hm)))
            have hmap : (toks0 ++ [Controller.Token.quoted (q.takeWhile (· ≠ '"'))]).map
                Controller.Token.text =
                toks0.map Controller.Token.text ++
                  [String.mk ('"' :: (q.takeWhile (· ≠ '"') ++ ['"']))] := by
              simp [Controller.Token.text]
            rw [← hmap] at h
            have hcost : ((toks0 ++ [Controller.Token.quoted (q.takeWhile (· ≠ '"'))]).flatMap
                fun k => ' ' :: k.text.toList).length + rest.length ≤ L := by
              have hc1 : ((toks0 ++ [Controller.Token.quoted (q.takeWhile (· ≠ '"'))]).flatMap
                  fun k => ' ' :: k.text.toList).length =
                  (toks0.flatMap fun k => ' ' :: k.text.toList).length +
                    ((q.takeWhile (· ≠ '"')).length + 3) := by
                simp only [List.flatMap_append, List.flatMap_cons, List.flatMap_nil,
                  List.append_nil, List.length_append, List.length_cons]
                show _ + (('"' :: (q.takeWhile (· ≠ '"') ++ ['"'])).length + 1) = _
                simp only [List.length_append, List.length_cons, List.length_nil]
              simp only [List.length_cons] at hlen hdl
              rw [hc1]
              omega
            refine ih rest _ n argv ?_ hrn (by omega) (fun _ => hcost) h hn
            intro k hk
            rcases List.mem_append.1 hk with hk | hk
            · exact hwf k hk
            · rw [List.mem_singleton.1 hk]
              exact ⟨hbq, hbn⟩
        · rw [if_neg hqq] at h
          simp only [Option.some.injEq, Prod.mk.injEq] at h
          omega
      · rename_i c q hnq hq
        have hcs : isspace c = false := dropWhile_head_false isspace c q p hq
        have hcq : c ≠ '"' := hnq
        have hlen := length_take_drop_while (fun d => !isspace d) (c :: q)
        have htk : ∃ y, (c :: q).takeWhile (fun d => !isspace d) = c :: y := by
          rw [List.takeWhile_cons]
          simp [hcs]
        obtain ⟨y, hy⟩ := htk
        have hmap : (toks0 ++ [Controller.Token.plain
            ((c :: q).takeWhile fun d => !isspace d)]).map Controller.Token.text =
            toks0.map Controller.Token.text ++
              [String.mk ((c :: q).takeWhile fun d => !isspace d)] := by
          simp [Controller.Token.text]
        rw [← hmap] at h
        have hcn : '\x00' ∉ c :: q := fun hm =>
          hnul (mem_of_mem_dropWhile isspace p _ (by rw [hq]; exact hm))
        have hrn : '\x00' ∉ ((c :: q).dropWhile fun d => !isspace d).tail := fun hm =>
          hcn (mem_of_mem_dropWhile _ _ _ (List.mem_of_mem_tail hm))
        rw [hq] at hdl
        have hc1 : ((toks0 ++ [Controller.Token.plain
            ((c :: q).takeWhile fun d => !isspace d)]).flatMap
              fun k => ' ' :: k.text.toList).length =
            (toks0.flatMap fun k => ' ' :: k.text.toList).length +
              (((c :: q).takeWhile fun d => !isspace d).length + 1) := by
          simp only [List.flatMap_append, List.flatMap_cons, List.flatMap_nil,
            List.append_nil, List.length_append, List.length_cons]
          rfl
        have hrl : (((c :: q).dropWhile fun d => !isspace d).tail).length =
            ((c :: q).dropWhile fun d => !isspace d).length - 1 := List.length_tail _
        refine ih _ _ n argv ?_ hrn ?_ ?_ h hn
        · intro k hk
          rcases List.mem_append.1 hk with hk | hk
          · exact hwf k hk
          · rw [List.mem_singleton.1 hk]
            refine ⟨by rw [hy]; simp, by rw [hy]; simpa using hcq, ?_⟩
            intro d hd
            constructor
            · have := takeWhile_all (fun d => !isspace d) (c :: q) d hd
              simpa using this
            · intro e
              exact hcn (e ▸ mem_of_mem_takeWhile _ _ _ hd)
        · rw [hc1, hrl]
          omega
        · intro hne
          have : 0 < (((c :: q).dropWhile fun d => !isspace d).tail).length :=
            List.length_pos.2 hne
          rw [hc1, hrl]
          omega

theorem extractArgs_tokens (buf : String) (n : Int) (argv : List String)
    (h : Controller.extractArgs buf = some (n, argv)) (hn : 0 ≤ n) :
    ∃ toks : List Controller.Token, (∀ k ∈ toks, Controller.Token.WF k) ∧
      argv = toks.map Controller.Token.text ∧ n = toks.length ∧
      (toks.flatMap fun k => ' ' :: k.text.toList).length ≤ buf.length + 1 := by
  have hnul : '\x00' ∉ buf.toList.takeWhile (· ≠ '\x00') := fun hm => by
    have := takeWhile_all (· ≠ '\x00') _ _ hm
    simp at this
  have hle : (buf.toList.takeWhile (· ≠ '\x00')).length ≤ buf.length :=
    (List.takeWhile_prefix _).sublist.length_le
  refine extractArgsLoop_tokens buf.length (buf.length + 1) _ [] n argv
    (fun k hk => absurd hk (List.not_mem_nil _)) hnul ?_ ?_ h hn
  · simp only [List.flatMap_nil, List.length_nil]
    omega
  · intro _
    simp only [List.flatMap_nil, List.length_nil]
    omega

/-- The name `g_cmds[t]` of a validated command is its first token. -/
theorem validateArgs_name (argv : List String) (argc : Int) (t : Controller.CmdType)
    (ht : Controller.validateArgs argv argc = t) (hv : t ≠ Controller.CmdType.CMD_INVALID) :
    Controller.g_cmds.getD t.toInt.toNat "" = argv.getD 0 "" ∧ 0 ≤ t.toInt ∧ 0 < argc := by
  unfold Controller.validateArgs at ht
  by_cases hc : argc > 0
  swap
  · rw [if_neg hc] at ht
    exact absurd ht.symm hv
  rw [if_pos hc] at ht
  by_cases hs : argv.getD 0 "" = "s"
  · rw [if_pos hs] at ht
    split_ifs at ht <;> subst ht <;>
      first
      | exact absurd rfl hv
      | exact ⟨by rw [hs]; rfl, by decide, hc⟩
  rw [if_neg hs] at ht
  by_cases ho : argv.getD 0 "" = "o"
  · rw [if_pos ho] at ht
    split_ifs at ht <;> subst ht <;>
      first
      | exact absurd rfl hv
      | exact ⟨by rw [ho]; rfl, by decide, hc⟩
  rw [if_neg ho] at ht
  by_cases hr : argv.getD 0 "" = "r"
  · rw [if_pos hr] at ht
    split_ifs at ht <;> subst ht <;>
      first
      | exact absurd rfl hv
      | exact ⟨by rw [hr]; rfl, by decide, hc⟩
  rw [if_neg hr] at ht
  by_cases hll : argv.getD 0 "" = "ll"
  · rw [if_pos hll] at ht
    split_ifs at ht <;> subst ht <;>
      first
      | exact absurd rfl hv
      | exact ⟨by rw [hll]; rfl, by decide, hc⟩
  rw [if_neg hll] at ht
  by_cases hlu : argv.getD 0 "" = "lu"
  · rw [if_pos hlu] at ht
    split_ifs at ht <;> subst ht <;>
      first
      | exact absurd rfl hv
      | exact ⟨by rw [hlu]; rfl, by decide, hc⟩
  rw [if_neg hlu] at ht
  by_cases hlg : argv.getD 0 "" = "lg"
  · rw [if_pos hlg] at ht
    split_ifs at ht <;> subst ht <;>
      first
      | exact absurd rfl hv
      | exact ⟨by rw [hlg]; rfl, by decide, hc⟩
  rw [if_neg hlg] at ht
  by_cases hw : argv.getD 0 "" = "w"
  · rw [if_pos hw] at ht
    split_ifs at ht <;> subst ht <;>
      first
      | exact absurd rfl hv
      | exact ⟨by rw [hw]; rfl, by decide, hc⟩
  rw [if_neg hw] at ht
  by_cases hps : argv.getD 0 "" = "ps"
  · rw [if_pos hps] at ht
    split_ifs at ht <;> subst ht <;>
      first
      | exact absurd rfl hv
      | exact ⟨by rw [hps]; rfl, by decide, hc⟩
  rw [if_neg hps] at ht
  by_cases hsb : argv.getD 0 "" = "sb"
  · rw [if_pos hsb] at ht
    split_ifs at ht <;> subst ht <;>
      first
      | exact absurd rfl hv
      | exact ⟨by rw [hsb]; rfl, by decide, hc⟩
  rw [if_neg hsb] at ht
  by_cases hdb : argv.getD 0 "" = "db"
  · rw [if_pos hdb] at ht
    split_ifs at ht <;> subst ht <;>
      first
      | exact absurd rfl hv
      | exact ⟨by rw [hdb]; rfl, by decide, hc⟩
  rw [if_neg hdb] at ht
  by_cases hlb : argv.getD 0 "" = "lb"
  · rw [if_pos hlb] at ht
    split_ifs at ht <;> subst ht <;>
      first
      | exact absurd rfl hv
      | exact ⟨by rw [hlb]; rfl, by decide, hc⟩
  rw [if_neg hlb] at ht
  by_cases hm : argv.getD 0 "" = "m"
  · rw [if_pos hm] at ht
    split_ifs at ht <;> subst ht <;>
      first
      | exact absurd rfl hv
      | exact ⟨by rw [hm]; rfl, by decide, hc⟩
  rw [if_neg hm] at ht
  by_cases hh : argv.getD 0 "" = "h"
  · rw [if_pos hh] at ht
    subst ht
    exact ⟨by rw [hh]; rfl, by decide, hc⟩
  rw [if_neg hh] at ht
  exact absurd ht.symm hv

theorem nul_not_mem_text (t : Controller.Token) (ht : t.WF) : '\x00' ∉ t.text.toList := by
  cases t with
  | plain cs => exact fun hm => (ht.2.2 _ hm).2 rfl
  | quoted body =>
    intro hm
    have hm2 : '\x00' ∈ '"' :: (body ++ ['"']) := hm
    rcases List.mem_cons.1 hm2 with h | h
    · exact absurd h (by decide)
    · rcases List.mem_append.1 h with h | h
      · exact ht.2 h
      · exact absurd (List.mem_singleton.1 h) (by decide)

theorem nul_not_mem_flatMap (ts : List Controller.Token)
    (h : ∀ k ∈ ts, Controller.Token.WF k) :
    '\x00' ∉ ts.flatMap fun k => ' ' :: k.text.toList := by
  intro hm
  rw [List.mem_flatMap] at hm
  obtain ⟨k, hk, hm⟩ := hm
  rcases List.mem_cons.1 hm with e | e
  · exact absurd e (by decide)
  · exact nul_not_mem_text k (h k hk) e

theorem length_le_flatMap (ts : List Controller.Token) :
    ts.length ≤ (ts.flatMap fun k => ' ' :: k.text.toList).length := by
  induction ts with
  | nil => simp
  | cons k ks ih =>
    simp only [List.flatMap_cons, List.length_append, List.length_cons]
    omega

/-- The tokens of a command: what `sendCmd` writes and what `getCmd` reads. -/
theorem sendCmd_getCmd_tokens (maxArgs : Nat) (t0 : Controller.Token)
    (ts : List Controller.Token) (t : Controller.CmdType)
    (hwf : ∀ k ∈ t0 :: ts, Controller.Token.WF k)
    (ht : Controller.validateArgs ((t0 :: ts).map Controller.Token.text)
      ((t0 :: ts).length : Nat) = t)
    (hv : t ≠ Controller.CmdType.CMD_INVALID) (hmax : (t0 :: ts).length ≤ maxArgs)
    (hlen : (Controller.wire (t0 :: ts)).length < Controller.CMD_LINE) :
    Controller.g_cmds.getD t.toInt.toNat "" = t0.text ∧
    Controller.sendCmd t ((t0 :: ts).map Controller.Token.text) ((t0 :: ts).length : Nat) =
      some (Controller.wire (t0 :: ts) ++ ['\x00']) ∧
    getCmd maxArgs (String.mk (Controller.wire (t0 :: ts) ++ ['\x00'])) =
      ((((t0 :: ts).length : Nat) : Int), (t0 :: ts).map Controller.Token.arg) := by
  obtain ⟨hname, hpos, _⟩ := validateArgs_name _ _ t ht hv
  have hname2 : Controller.g_cmds.getD t.toInt.toNat "" = t0.text := hname
  have hw := wire_cons t0 ts
  refine ⟨hname2, ?_, ?_⟩
  · unfold Controller.sendCmd
    have e1 : (((t0 :: ts).map Controller.Token.text).take
        ((((t0 :: ts).length : Nat) : Int)).toNat).drop 1 = ts.map Controller.Token.text := by
      rw [Int.toNat_ofNat, ← List.length_map (t0 :: ts) Controller.Token.text, List.take_length]
      rfl
    have e2 : ((ts.map Controller.Token.text).flatMap fun a => ' ' :: a.toList) =
        ts.flatMap fun k => ' ' :: k.text.toList := by
      rw [List.flatMap_map]
    rw [e1, e2, hname2, ← hw, if_neg]
    rintro (h | h)
    · omega
    · exact absurd hlen (by unfold Controller.CMD_LINE at *; omega)
  · unfold getCmd
    have hn : '\x00' ∉ Controller.wire (t0 :: ts) := by
      rw [hw]
      intro hm
      rcases List.mem_append.1 hm with h | h
      · exact nul_not_mem_text t0 (hwf t0 (List.mem_cons_self _ _)) h
      · exact nul_not_mem_flatMap ts (fun k hk => hwf k (List.mem_cons_of_mem _ hk)) h
    show getCmdLoop maxArgs ((Controller.wire (t0 :: ts) ++ ['\x00']).length + 1)
      ((Controller.wire (t0 :: ts) ++ ['\x00']).takeWhile (· ≠ '\x00')) [] = _
    rw [takeWhile_ne_append '\x00' _ [] hn, hw]
    have hl := length_le_flatMap ts
    have := getCmdLoop_tokens maxArgs ts t0 [] []
      ((t0.text.toList ++ (ts.flatMap fun k => ' ' :: k.text.toList) ++ ['\x00']).length + 1)
      (Or.inl rfl) (hwf t0 (List.mem_cons_self _ _))
      (fun k hk => hwf k (List.mem_cons_of_mem _ hk))
      (by simp only [List.length_append, List.length_cons, List.length_nil]; omega)
      (by simp only [List.length_cons, List.length_nil] at hmax ⊢; omega)
    rw [List.nil_append] at this
    rw [this]
    simp

/-- C32: for every input line of the controller shorter than the command
buffer whose tokens `validateArgs` accepts, at most `PROT_MAX_ARGS` of them,
the tokens are plain or quoted tokens; `sendCmd` writes the first token, which
is the name `g_cmds[t]`, then a space and the token for each further token,
then one NUL; and `getCmd` of the debuggee on these bytes returns the number of
tokens and the tokens in order, the quotes of a quoted token removed. -/
theorem sendCmd_getCmd_roundtrip (env : Env) (buf : String) (argc : Int)
    (argv : List String) (t : Controller.CmdType)
    (hbuf : buf.length < Controller.CMD_LINE)
    (hx : Controller.extractArgs buf = some (argc, argv))
    (ht : Controller.validateArgs argv argc = t)
    (hv : t ≠ Controller.CmdType.CMD_INVALID)
    (hmax : argc ≤ env.PROT_MAX_ARGS) :
    ∃ toks : List Controller.Token,
      (∀ k ∈ toks, Controller.Token.WF k) ∧
      argv = toks.map Controller.Token.text ∧ argc = toks.length ∧
      Controller.g_cmds.getD t.toInt.toNat "" = argv.getD 0 "" ∧
      Controller.sendCmd t argv argc =
        some ((argv.getD 0 "").toList ++
          ((argv.drop 1).flatMap fun a => ' ' :: a.toList) ++ ['\x00']) ∧
      Controller.wire toks =
        (argv.getD 0 "").toList ++ ((argv.drop 1).flatMap fun a => ' ' :: a.toList) ∧
      getCmd env.PROT_MAX_ARGS (String.mk (Controller.wire toks ++ ['\x00'])) =
        (argc, toks.map Controller.Token.arg) := by
  obtain ⟨_, _, hpos⟩ := validateArgs_name argv argc t ht hv
  obtain ⟨toks, hwf, hargv, hargc, hcost⟩ := extractArgs_tokens buf argc argv hx (by omega)
  cases toks with
  | nil =>
    simp only [List.length_nil, Nat.cast_zero] at hargc
    omega
  | cons t0 ts =>
    subst hargv
    subst hargc
    have hw := wire_cons t0 ts
    have hlen : (Controller.wire (t0 :: ts)).length < Controller.CMD_LINE := by
      rw [hw]
      simp only [List.flatMap_cons, List.length_append, List.length_cons] at hcost ⊢
      omega
    obtain ⟨h1, h2, h3⟩ := sendCmd_getCmd_tokens env.PROT_MAX_ARGS t0 ts t hwf ht hv
      (by exact_mod_cast hmax) hlen
    have hw2 : Controller.wire (t0 :: ts) =
        (((t0 :: ts).map Controller.Token.text).getD 0 "").toList ++
          ((((t0 :: ts).map Controller.Token.text).drop 1).flatMap
            fun a => ' ' :: a.toList) := by
      rw [hw]
      simp only [List.map_cons, List.getD_cons_zero, List.drop_succ_cons, List.drop_zero,
        List.flatMap_map]
    refine ⟨t0 :: ts, hwf, rfl, rfl, h1, ?_, hw2, h3⟩
    rw [h2, hw2]

/-- C32 at the line `sb "my file.lua" 10`. -/
theorem sendCmd_getCmd_roundtrip_witness :
    ∃ toks : List Controller.Token,
      (∀ k ∈ toks, Controller.Token.WF k) ∧
      ["sb", "\"my file.lua\"", "10"] = toks.map Controller.Token.text ∧
      (3 : Int) = toks.length ∧
      Controller.g_cmds.getD Controller.CmdType.CMD_SETB.toInt.toNat "" =
        ["sb", "\"my file.lua\"", "10"].getD 0 "" ∧
      Controller.sendCmd Controller.CmdType.CMD_SETB ["sb", "\"my file.lua\"", "10"] 3 =
        some (("sb" : String).toList ++
          ((["sb", "\"my file.lua\"", "10"].drop 1).flatMap fun a => ' ' :: a.toList) ++
            ['\x00']) ∧
      Controller.wire toks =
        (["sb", "\"my file.lua\"", "10"].getD 0 "").toList ++
          ((["sb", "\"my file.lua\"", "10"].drop 1).flatMap fun a => ' ' :: a.toList) ∧
      getCmd sampleEnv.PROT_MAX_ARGS (String.mk (Controller.wire toks ++ ['\x00'])) =
        (3, toks.map Controller.Token.arg) :=
  sendCmd_getCmd_roundtrip sampleEnv "sb \"my file.lua\" 10\n" 3
    ["sb", "\"my file.lua\"", "10"] Controller.CmdType.CMD_SETB (by decide) (by decide)
    (by decide) (by decide) (by decide)

theorem payloadLines_line (l x : List Char) (hl : '\n' ∉ l) :
    Controller.payloadLines (l ++ '\n' :: x) = String.mk l :: Controller.payloadLines x := by
  induction l with
  | nil =>
    show Controller.payloadLines ('\n' :: x) = _
    rw [Controller.payloadLines, if_pos rfl]
  | cons c l ih =>
    have hc : c ≠ '\n' := fun h => hl (by simp [h])
    have h := ih fun h => hl (List.mem_cons_of_mem _ h)
    rw [List.cons_append, Controller.payloadLines, if_neg hc, h]
    rfl

theorem payloadLines_lines (lines : List String) (h : ∀ l ∈ lines, '\n' ∉ l.toList) :
    Controller.payloadLines (lines.flatMap fun l => l.toList ++ ['\n']) = lines := by
  induction lines with
  | nil => rfl
  | cons l ls ih =>
    rw [List.flatMap_cons, List.append_assoc, List.singleton_append,
      payloadLines_line _ _ (h l (List.mem_cons_self _ _)),
      ih fun k hk => h k (List.mem_cons_of_mem _ hk)]
    rfl

theorem toList_append (a b : String) : (a ++ b).toList = a.toList ++ b.toList :=
  String.data_append a b

theorem toList_join (l : List String) :
    (String.join l).toList = l.flatMap String.toList := by
  induction l using List.reverseRecOn with
  | nil => rfl
  | append_singleton l a ih =>
    rw [join_append_singleton, toList_append, List.flatMap_append,
      List.flatMap_cons, List.flatMap_nil, List.append_nil, ← ih]

theorem empty_append (s : String) : "" ++ s = s := by
  cases s
  rfl

theorem printVar_valueLine (env : Env) (v : Value) :
    printVar env none v = valueLine env v ++ "\n" := by
  cases v <;> simp only [printVar, valueLine] <;> exact empty_append _

theorem toList_printVar (env : Env) (v : Value) :
    (printVar env none v).toList = (valueLine env v).toList ++ ['\n'] := by
  rw [printVar_valueLine, toList_append]
  rfl

theorem newline_toList : "\n".toList = ['\n'] := rfl

theorem toList_line (a : String) : (a ++ "\n").toList = a.toList ++ ['\n'] :=
  toList_append a "\n"

theorem toList_pairs (env : Env) (pairs : List (Value × Value)) :
    (String.join (pairs.map fun kv =>
      printVar env none kv.1 ++ printVar env none kv.2)).toList =
    (pairs.flatMap fun kv => [valueLine env kv.1, valueLine env kv.2]).flatMap
      fun l => l.toList ++ ['\n'] := by
  rw [toList_join]
  induction pairs with
  | nil => rfl
  | cons kv rest ih =>
    rw [List.map_cons, List.flatMap_cons, ih, List.flatMap_cons, List.flatMap_append,
      toList_append, toList_printVar, toList_printVar]
    simp only [List.flatMap_cons, List.flatMap_nil, List.append_nil, List.append_assoc]

theorem lines_two (pv h : String) :
    (pv ++ "\n" ++ (h ++ "\n")).toList =
      [pv, h].flatMap fun l => l.toList ++ ['\n'] := by
  simp only [toList_append, List.flatMap_cons, List.flatMap_nil, List.append_nil,
    List.append_assoc, newline_toList]

theorem lines_three (pv h a : String) :
    (pv ++ "\n" ++ (h ++ "\n" ++ a ++ "\n")).toList =
      [pv, h, a].flatMap fun l => l.toList ++ ['\n'] := by
  simp only [toList_append, List.flatMap_cons, List.flatMap_nil, List.append_nil,
    List.append_assoc, newline_toList]

theorem lines_six (pv h a b c d : String) :
    (pv ++ "\n" ++ (h ++ "\n" ++ a ++ "\n" ++ b ++ "\n" ++ c ++ "\n" ++ d ++ "\n")).toList =
      [pv, h, a, b, c, d].flatMap fun l => l.toList ++ ['\n'] := by
  simp only [toList_append, List.flatMap_cons, List.flatMap_nil, List.append_nil,
    List.append_assoc, newline_toList]

/-- The payload of the writer `w` is its lines, each with its newline. -/
theorem w_lines (env : Env) (vm : LuaVM) (v : Value) :
    (w env vm v).toList = (wLines env vm v).flatMap fun l => l.toList ++ ['\n'] := by
  cases v with
  | table p =>
    simp only [w, wLines]
    generalize (if (vm.getmetatable (Value.table p)).isSome = true then "1" else "0") = h
    rw [toList_append, toList_printVar, toList_append, toList_pairs, List.flatMap_cons,
      List.flatMap_cons, toList_line, List.append_assoc]
  | nil =>
    simp only [w, wLines, printVar_valueLine]
    generalize valueLine env Value.nil = pv
    rw [toList_append, toList_line, List.flatMap_cons, List.flatMap_nil]
    rfl
  | number n =>
    simp only [w, wLines, printVar_valueLine]
    exact lines_two _ _
  | string a b =>
    simp only [w, wLines, printVar_valueLine]
    exact lines_two _ _
  | boolean b =>
    simp only [w, wLines, printVar_valueLine]
    exact lines_two _ _
  | lightuserdata p =>
    simp only [w, wLines, printVar_valueLine]
    exact lines_two _ _
  | userdata p =>
    simp only [w, wLines, printVar_valueLine]
    exact lines_three _ _ _
  | thread p =>
    simp only [w, wLines, printVar_valueLine]
    exact lines_three _ _ _
  | function p =>
    simp only [w, wLines, printVar_valueLine]
    exact lines_six _ _ _ _ _ _

theorem mem_toDigits (b : Nat) (hb : 2 ≤ b) (n : Nat) :
    ∀ c ∈ Nat.toDigits b n, ∃ d, d < b ∧ c = Nat.digitChar d := by
  induction n using Nat.strong_induction_on with
  | _ n ih =>
    intro c hc
    rw [toDigits_step b hb n] at hc
    split_ifs at hc with h0
    · exact ⟨n % b, Nat.mod_lt _ (by omega), by simpa using hc⟩
    · have hlt : n / b < n := by
        have hn : 0 < n := by
          rcases Nat.eq_zero_or_pos n with h | h
          · rw [h] at h0; simp at h0
          · exact h
        exact Nat.div_lt_self hn (by omega)
      rcases List.mem_append.1 hc with h | h
      · exact ih (n / b) hlt c h
      · exact ⟨n % b, Nat.mod_lt _ (by omega), by simpa using h⟩

theorem digitChar_hex_facts : ∀ d, d < 16 →
    Nat.digitChar d ≠ ':' ∧ Nat.digitChar d ≠ '\n' := by
  decide

theorem hexDigit_facts : ∀ d, d < 16 → hexDigit d ≠ '\n' := by
  decide

theorem hex8_facts (p : Nat) : ':' ∉ (hex8 p).toList ∧ '\n' ∉ (hex8 p).toList := by
  have key : ∀ c ∈ (hex8 p).toList, c ≠ ':' ∧ c ≠ '\n' := by
    intro c hc
    have hc2 : c ∈ List.replicate (8 - (Nat.toDigits 16 p).length) '0' ++ Nat.toDigits 16 p := hc
    rcases List.mem_append.1 hc2 with h | h
    · rw [(List.mem_replicate.1 h).2]
      decide
    · obtain ⟨d, hd, e⟩ := mem_toDigits 16 (by decide) p c h
      rw [e]
      exact digitChar_hex_facts d hd
  exact ⟨fun h => (key _ h).1 rfl, fun h => (key _ h).2 rfl⟩

theorem newline_not_mem_hexBytes (l : List Nat) : '\n' ∉ l.flatMap hexByte := by
  intro h
  rw [List.mem_flatMap] at h
  obtain ⟨b, _, hb⟩ := h
  simp only [hexByte, List.mem_cons, List.mem_singleton, List.not_mem_nil, or_false] at hb
  rcases hb with e | e
  · exact hexDigit_facts _ (Nat.mod_lt _ (by decide)) e.symm
  · exact hexDigit_facts _ (Nat.mod_lt _ (by decide)) e.symm

theorem toString_nat (n : Nat) : (toString n).toList = Nat.toDigits 10 n := rfl

theorem toString_int_facts (i : Int) :
    ':' ∉ (toString i).toList ∧ '\n' ∉ (toString i).toList := by
  have key : ∀ n : Nat, ∀ c ∈ Nat.toDigits 10 n, c ≠ ':' ∧ c ≠ '\n' := by
    intro n c hc
    obtain ⟨d, hd, e⟩ := mem_toDigits 10 (by decide) n c hc
    rw [e]
    exact digitChar_hex_facts d (by omega)
  cases i with
  | ofNat m =>
    have e : (toString (Int.ofNat m)).toList = Nat.toDigits 10 m := rfl
    rw [e]
    exact ⟨fun h => (key m _ h).1 rfl, fun h => (key m _ h).2 rfl⟩
  | negSucc m =>
    have e : (toString (Int.negSucc m)).toList = '-' :: Nat.toDigits 10 (m + 1) := rfl
    rw [e]
    constructor
    · intro h
      rcases List.mem_cons.1 h with h | h
      · exact absurd h (by decide)
      · exact (key _ _ h).1 rfl
    · intro h
      rcases List.mem_cons.1 h with h | h
      · exact absurd h (by decide)
      · exact (key _ _ h).2 rfl

theorem outputEncStr_some (rest : List Char) :
    ∀ (n : Nat) (l : List Char), l.length = 2 * n →
      ∃ b, Controller.outputEncStr (l ++ rest) ((2 * n : Nat) : Int) = some b := by
  intro n
  induction n with
  | zero =>
    intro l _
    exact ⟨[], outputEncStr_zero _⟩
  | succ n ih =>
    intro l hl
    match l, hl with
    | c0 :: c1 :: l2, hl =>
      have hl2 : l2.length = 2 * n := by
        simp only [List.length_cons] at hl
        omega
      obtain ⟨b, hb⟩ := ih l2 hl2
      have hpos : (0 : Int) < ((2 * (n + 1) : Nat) : Int) := by omega
      have hsub : ((2 * (n + 1) : Nat) : Int) - 2 = ((2 * n : Nat) : Int) := by omega
      refine ⟨Controller.decode c0 c1 :: b, ?_⟩
      show Controller.outputEncStr (c0 :: c1 :: (l2 ++ rest)) _ = _
      rw [Controller.outputEncStr, if_pos hpos, hsub, hb]
      rfl
    | [], hl => simp at hl
    | [_], hl =>
      simp only [List.length_cons, List.length_nil] at hl
      omega

theorem length_toList (s : String) : s.length = s.toList.length := by
  cases s
  rfl

theorem sline_toList (a b c d : String) :
    ("s0x" ++ a ++ ":" ++ b ++ ":" ++ c ++ ":" ++ d).toList =
      's' :: (('0' :: 'x' :: a.toList) ++ ':' :: (b.toList ++ ':' :: (c.toList ++
        ':' :: d.toList))) := by
  simp only [toList_append, List.append_assoc]
  rfl

/-- The value line of a string of fewer than 2^31 bytes, character by
character. -/
theorem valueLine_string (env : Env) (addr : Nat) (bytes : List Nat)
    (hlen : bytes.length < 2147483648) :
    (valueLine env (Value.string addr bytes)).toList =
      's' :: (('0' :: 'x' :: (hex8 addr).toList) ++ ':' :: (Nat.toDigits 10 bytes.length ++
        ':' :: (Nat.toDigits 10 (min bytes.length env.PROT_MAX_STR_LEN) ++
          ':' :: (bytes.take (min bytes.length env.PROT_MAX_STR_LEN)).flatMap hexByte))) := by
  have h32 : toInt32 (bytes.length : Int) = (bytes.length : Int) :=
    toInt32_of_range _ (by omega) (by omega)
  have ht : (if (bytes.length : Int) > (env.PROT_MAX_STR_LEN : Int)
      then (env.PROT_MAX_STR_LEN : Int) else (bytes.length : Int)) =
      ((min bytes.length env.PROT_MAX_STR_LEN : Nat) : Int) := by
    split_ifs with h
    · rw [Nat.min_eq_right (by omega)]
    · rw [Nat.min_eq_left (by omega)]
  simp only [valueLine, h32, ht]
  generalize min bytes.length env.PROT_MAX_STR_LEN = t
  generalize bytes.length = n
  rw [sline_toList]
  simp only [hexDump, Int.toNat_ofNat]
  rfl

theorem typestr_tag (c : Char) (hc : c ∈ ['n', 't', 'f', 'u', 'U', 'b', 'd', 'l']) :
    Controller.typestr c ≠ "" ∧ c ≠ 's' := by
  simp only [List.mem_cons, List.mem_singleton, List.not_mem_nil, or_false] at hc
  rcases hc with h | h | h | h | h | h | h | h <;> rw [h] <;> decide

theorem printVar_tag (c : Char) (str : List Char) (length : Int)
    (hc : c ∈ ['n', 't', 'f', 'u', 'U', 'b', 'd', 'l']) :
    ∃ o, Controller.printVar (c :: str) length = some (0, o) := by
  obtain ⟨h1, h2⟩ := typestr_tag c hc
  unfold Controller.printVar
  simp only [List.headD_cons]
  rw [if_neg h1, if_neg h2]
  by_cases h3 : c = 'l'
  · rw [if_pos h3]
    exact ⟨_, rfl⟩
  · rw [if_neg h3]
    exact ⟨_, rfl⟩

theorem printVar_string_line (env : Env) (addr : Nat) (bytes : List Nat) (rest : List Char)
    (hlen : bytes.length < 2147483648) (hmax : env.PROT_MAX_STR_LEN < 1073741824) :
    ∃ o, Controller.printVar ((valueLine env (Value.string addr bytes)).toList ++ '\n' :: rest)
      (valueLine env (Value.string addr bytes)).length = some (0, o) := by
  rw [length_toList, valueLine_string env addr bytes hlen]
  generalize htd : min bytes.length env.PROT_MAX_STR_LEN = t
  have ht30 : t < 1073741824 := by omega
  have hhex : ((bytes.take t).flatMap hexByte).length = 2 * t := by
    rw [length_flatMap_hexByte, List.length_take]
    omega
  generalize hh : (bytes.take t).flatMap hexByte = h at hhex
  have ha : ':' ∉ '0' :: 'x' :: (hex8 addr).toList := by
    intro hm
    rcases List.mem_cons.1 hm with e | hm
    · exact absurd e (by decide)
    · rcases List.mem_cons.1 hm with e | hm
      · exact absurd e (by decide)
      · exact (hex8_facts addr).1 hm
  have hr := colon_not_mem_toDigits bytes.length
  generalize Nat.toDigits 10 bytes.length = raw at hr
  generalize '0' :: 'x' :: (hex8 addr).toList = ad at ha
  have hf := outputStr_fields ad raw t h ('\n' :: rest) ha hr
    ((ad.length : Int) + 1 + raw.length + 1 + (Nat.toDigits 10 t).length + 1 + h.length) rfl
  have h32 : toInt32 (min INT_MAX (t : Int) * 2) = (h.length : Int) := by
    rw [min_eq_right (by unfold INT_MAX; omega)]
    rw [toInt32_of_range _ (by omega) (by omega), hhex]
    push_cast
    ring
  rw [h32, if_neg (by simp)] at hf
  obtain ⟨b, hb⟩ := outputEncStr_some ('\n' :: rest) t h hhex
  rw [← hhex] at hb
  rw [hb] at hf
  unfold Controller.printVar
  simp only [List.cons_append, List.headD_cons, List.tail_cons, List.length_cons]
  rw [if_neg (by decide), if_pos trivial]
  have e1 : (ad ++ ':' :: (raw ++ ':' :: (Nat.toDigits 10 t ++ ':' :: h))) ++ '\n' :: rest =
      ad ++ ':' :: (raw ++ ':' :: (Nat.toDigits 10 t ++ ':' :: (h ++ '\n' :: rest))) := by
    simp only [List.append_assoc, List.cons_append]
  have e2 : (((ad ++ ':' :: (raw ++ ':' :: (Nat.toDigits 10 t ++ ':' :: h))).length + 1 :
      Nat) : Int) - 1 =
      (ad.length : Int) + 1 + raw.length + 1 + (Nat.toDigits 10 t).length + 1 + h.length := by
    simp only [List.length_append, List.length_cons]
    push_cast
    ring
  rw [e1, e2, hf]
  exact ⟨_, rfl⟩

theorem ptrLine_toList (tag : Char) (a : String) :
    (String.mk [tag, '0', 'x'] ++ a).toList = tag :: '0' :: 'x' :: a.toList :=
  toList_append _ a

theorem ptrLine_facts (tag : Char) (p : Nat) (ht : tag ≠ '\n') :
    '\n' ∉ tag :: '0' :: 'x' :: (hex8 p).toList := by
  intro hm
  rcases List.mem_cons.1 hm with e | hm
  · exact ht e.symm
  · rcases List.mem_cons.1 hm with e | hm
    · exact absurd e (by decide)
    · rcases List.mem_cons.1 hm with e | hm
      · exact absurd e (by decide)
      · exact (hex8_facts p).2 hm

/-- The value line begins with the kind tag. -/
theorem valueLine_head (env : Env) (v : Value) :
    ∃ body, (valueLine env v).toList = kindTag v :: body := by
  cases v with
  | string addr bytes =>
    simp only [valueLine, kindTag]
    rw [sline_toList]
    exact ⟨_, rfl⟩
  | number n => exact ⟨(env.fmtNumber n).toList, toList_append "n" _⟩
  | table p => exact ⟨_, ptrLine_toList 't' (hex8 p)⟩
  | function p => exact ⟨_, ptrLine_toList 'f' (hex8 p)⟩
  | userdata p => exact ⟨_, ptrLine_toList 'u' (hex8 p)⟩
  | lightuserdata p => exact ⟨_, ptrLine_toList 'U' (hex8 p)⟩
  | thread p => exact ⟨_, ptrLine_toList 'd' (hex8 p)⟩
  | boolean b => cases b <;> exact ⟨_, rfl⟩
  | nil => exact ⟨_, rfl⟩

/-- The value line of a value within the limits holds no newline. -/
theorem valueLine_no_newline (env : Env) (v : Value) (hfit : valueFits env v = true) :
    '\n' ∉ (valueLine env v).toList := by
  cases v with
  | string addr bytes =>
    have hlen : bytes.length < 2147483648 := by simpa [valueFits] using hfit
    rw [valueLine_string env addr bytes hlen]
    have hd : ∀ n : Nat, '\n' ∉ Nat.toDigits 10 n := fun n hm => by
      obtain ⟨d, hd, e⟩ := mem_toDigits 10 (by decide) n _ hm
      exact (digitChar_hex_facts d (by omega)).2 e.symm
    intro hm
    rcases List.mem_cons.1 hm with e | hm
    · exact absurd e (by decide)
    · rcases List.mem_append.1 hm with hm | hm
      · exact ptrLine_facts '0' addr (by decide) (List.mem_cons_of_mem _ hm)
      · rcases List.mem_cons.1 hm with e | hm
        · exact absurd e (by decide)
        · rcases List.mem_append.1 hm with hm | hm
          · exact hd _ hm
          · rcases List.mem_cons.1 hm with e | hm
            · exact absurd e (by decide)
            · rcases List.mem_append.1 hm with hm | hm
              · exact hd _ hm
              · rcases List.mem_cons.1 hm with e | hm
                · exact absurd e (by decide)
                · exact newline_not_mem_hexBytes _ hm
  | number n =>
    have hn : '\n' ∉ (env.fmtNumber n).toList := by simpa [valueFits] using hfit
    have e : (valueLine env (Value.number n)).toList = 'n' :: (env.fmtNumber n).toList :=
      toList_append "n" _
    rw [e]
    intro hm
    rcases List.mem_cons.1 hm with e | hm
    · exact absurd e (by decide)
    · exact hn hm
  | table p =>
    rw [show (valueLine env (Value.table p)).toList = _ from ptrLine_toList 't' (hex8 p)]
    exact ptrLine_facts _ p (by decide)
  | function p =>
    rw [show (valueLine env (Value.function p)).toList = _ from ptrLine_toList 'f' (hex8 p)]
    exact ptrLine_facts _ p (by decide)
  | userdata p =>
    rw [show (valueLine env (Value.userdata p)).toList = _ from ptrLine_toList 'u' (hex8 p)]
    exact ptrLine_facts _ p (by decide)
  | lightuserdata p =>
    rw [show (valueLine env (Value.lightuserdata p)).toList = _ from
      ptrLine_toList 'U' (hex8 p)]
    exact ptrLine_facts _ p (by decide)
  | thread p =>
    rw [show (valueLine env (Value.thread p)).toList = _ from ptrLine_toList 'd' (hex8 p)]
    exact ptrLine_facts _ p (by decide)
  | boolean b =>
    cases b
    · show '\n' ∉ ['b', '0']
      decide
    · show '\n' ∉ ['b', '1']
      decide
  | nil =>
    show '\n' ∉ ['l']
    decide

/-- The controller's `printVar` accepts the value line of every value within
the limits, whatever follows the line in the buffer. -/
theorem printVar_valueLine_ok (env : Env) (v : Value) (rest : List Char)
    (hfit : valueFits env v = true) (hmax : env.PROT_MAX_STR_LEN < 1073741824) :
    ∃ o, Controller.printVar ((valueLine env v).toList ++ '\n' :: rest)
      (valueLine env v).length = some (0, o) := by
  by_cases hs : ∃ addr bytes, v = Value.string addr bytes
  · obtain ⟨addr, bytes, e⟩ := hs
    subst e
    exact printVar_string_line env addr bytes rest (by simpa [valueFits] using hfit) hmax
  · obtain ⟨body, hb⟩ := valueLine_head env v
    rw [hb, List.cons_append]
    refine printVar_tag _ _ _ ?_
    cases v with
    | string addr bytes => exact absurd ⟨addr, bytes, rfl⟩ hs
    | _ => simp [kindTag]

theorem parseW_step (args a2 : Controller.Arg_w) (line : String) (rest : List String)
    (o : List Nat)
    (h : Controller.w args (line.toList ++ '\n' :: (rest.flatMap fun l => l.toList ++ ['\n']))
      line.length = some (0, a2, o)) :
    Controller.parseW args (line :: rest) = Controller.parseW a2 rest := by
  rw [Controller.parseW, h]
  simp

theorem w_key (s2 : Option Controller.State_w) (word : List Char) (length : Int) (o : List Nat)
    (h : Controller.printVar word length = some (0, o)) :
    ∃ o2, Controller.w { st := some Controller.State_w.W_KEY, st2 := s2 } word length =
      some (0, { st := some Controller.State_w.W_VAL, st2 := s2 }, o2) := by
  simp only [Controller.w, h]
  exact ⟨_, rfl⟩

theorem w_val (s2 : Option Controller.State_w) (word : List Char) (length : Int) (o : List Nat)
    (h : Controller.printVar word length = some (0, o)) :
    ∃ o2, Controller.w { st := some Controller.State_w.W_VAL, st2 := s2 } word length =
      some (0, { st := some Controller.State_w.W_KEY, st2 := s2 }, o2) := by
  simp only [Controller.w, h]
  exact ⟨_, rfl⟩

theorem w_var (s2 : Option Controller.State_w) (c : Char) (body : List Char) (length : Int)
    (o : List Nat) (h : Controller.printVar (c :: body) length = some (0, o)) :
    ∃ o2, Controller.w { st := some Controller.State_w.W_VAR, st2 := s2 } (c :: body) length =
      some (0, { st := some Controller.State_w.W_META,
                 st2 := if c = 't' then some Controller.State_w.W_KEY
                   else if c = 'u' then some Controller.State_w.W_SIZE
                   else if c = 'f' then some Controller.State_w.W_WHAT
                   else if c = 'd' then some Controller.State_w.W_STATUS
                   else none }, o2) := by
  simp only [Controller.w, h, List.headD_cons]
  exact ⟨_, rfl⟩

/-- The pairs of a table, from the state W_KEY back to the state W_KEY. -/
theorem parseW_pairs (env : Env) (hmax : env.PROT_MAX_STR_LEN < 1073741824)
    (s2 : Option Controller.State_w) (tail : List String) :
    ∀ pairs : List (Value × Value),
      (∀ kv ∈ pairs, valueFits env kv.1 = true ∧ valueFits env kv.2 = true) →
      Controller.parseW { st := some Controller.State_w.W_KEY, st2 := s2 }
          ((pairs.flatMap fun kv => [valueLine env kv.1, valueLine env kv.2]) ++ tail) =
        Controller.parseW { st := some Controller.State_w.W_KEY, st2 := s2 } tail := by
  intro pairs
  induction pairs with
  | nil => intro _; rfl
  | cons kv rest ih =>
    intro hfit
    obtain ⟨hk, hv⟩ := hfit kv (List.mem_cons_self _ _)
    have ih2 := ih fun x hx => hfit x (List.mem_cons_of_mem _ hx)
    rw [List.flatMap_cons]
    simp only [List.cons_append, List.nil_append, List.append_assoc]
    obtain ⟨o1, h1⟩ := printVar_valueLine_ok env kv.1
      ((valueLine env kv.2 :: ((rest.flatMap fun kv =>
        [valueLine env kv.1, valueLine env kv.2]) ++ tail)).flatMap fun l => l.toList ++ ['\n'])
      hk hmax
    obtain ⟨o2, h2⟩ := w_key s2 _ _ o1 h1
    rw [parseW_step _ _ _ _ _ h2]
    obtain ⟨o3, h3⟩ := printVar_valueLine_ok env kv.2
      ((((rest.flatMap fun kv =>
        [valueLine env kv.1, valueLine env kv.2]) ++ tail)).flatMap fun l => l.toList ++ ['\n'])
      hv hmax
    obtain ⟨o4, h4⟩ := w_val s2 _ _ o3 h3
    rw [parseW_step _ _ _ _ _ h4]
    exact ih2

/-- The root value line and the metatable line, up to the state that the kind
selects. -/
theorem parseW_root (env : Env) (hmax : env.PROT_MAX_STR_LEN < 1073741824) (v : Value)
    (hfit : valueFits env v = true) (m : Bool) (tail : List String) :
    Controller.parseW { st := some Controller.State_w.W_VAR, st2 := none }
        (valueLine env v :: (if m = true then "1" else "0") :: tail) =
      Controller.parseW
        { st := if kindTag v = 't' then some Controller.State_w.W_KEY
            else if kindTag v = 'u' then some Controller.State_w.W_SIZE
            else if kindTag v = 'f' then some Controller.State_w.W_WHAT
            else if kindTag v = 'd' then some Controller.State_w.W_STATUS
            else none,
          st2 := if kindTag v = 't' then some Controller.State_w.W_KEY
            else if kindTag v = 'u' then some Controller.State_w.W_SIZE
            else if kindTag v = 'f' then some Controller.State_w.W_WHAT
            else if kindTag v = 'd' then some Controller.State_w.W_STATUS
            else none } tail := by
  obtain ⟨o1, h1⟩ := printVar_valueLine_ok env v
    ((((if m = true then "1" else "0") :: tail)).flatMap fun l => l.toList ++ ['\n']) hfit hmax
  obtain ⟨body, hb⟩ := valueLine_head env v
  rw [hb, List.cons_append] at h1
  obtain ⟨o2, h2⟩ := w_var none _ _ _ o1 h1
  rw [← List.cons_append, ← hb] at h2
  rw [parseW_step _ _ _ _ _ h2]
  generalize (if kindTag v = 't' then some Controller.State_w.W_KEY
            else if kindTag v = 'u' then some Controller.State_w.W_SIZE
            else if kindTag v = 'f' then some Controller.State_w.W_WHAT
            else if kindTag v = 'd' then some Controller.State_w.W_STATUS
            else none) = s2
  cases m
  · exact parseW_step _ _ "0" tail _ rfl
  · exact parseW_step _ _ "1" tail _ rfl

theorem metaLine_no_newline (m : Bool) : '\n' ∉ (if m = true then "1" else "0").toList := by
  cases m <;> decide

/-- The lines of a payload within the limits hold no newline. -/
theorem wLines_no_newline (env : Env) (vm : LuaVM) (v : Value)
    (hfit : watchFits env vm v = true) :
    ∀ l ∈ wLines env vm v, '\n' ∉ l.toList := by
  unfold watchFits at hfit
  rw [Bool.and_eq_true] at hfit
  obtain ⟨hv, hk⟩ := hfit
  have h0 := valueLine_no_newline env v hv
  intro l hl
  unfold wLines at hl
  rcases List.mem_cons.1 hl with e | hl
  · rw [e]; exact h0
  · cases v with
    | nil => exact absurd hl (List.not_mem_nil _)
    | table p =>
      simp only at hl hk
      rcases List.mem_cons.1 hl with e | hl
      · rw [e]; exact metaLine_no_newline _
      · rw [List.mem_flatMap] at hl
        obtain ⟨kv, hkv, hl⟩ := hl
        have := List.all_eq_true.1 hk kv hkv
        rw [Bool.and_eq_true] at this
        rcases List.mem_cons.1 hl with e | hl
        · rw [e]; exact valueLine_no_newline env _ this.1
        · rw [List.mem_singleton.1 hl]; exact valueLine_no_newline env _ this.2
    | userdata p =>
      simp only at hl
      rcases List.mem_cons.1 hl with e | hl
      · rw [e]; exact metaLine_no_newline _
      · rw [List.mem_singleton.1 hl]; exact (toString_int_facts _).2
    | thread p =>
      simp only at hl
      rcases List.mem_cons.1 hl with e | hl
      · rw [e]; exact metaLine_no_newline _
      · rw [List.mem_singleton.1 hl]; exact (toString_int_facts _).2
    | function p =>
      simp only at hl hk
      have hk2 := of_decide_eq_true hk
      rcases List.mem_cons.1 hl with e | hl
      · rw [e]; exact metaLine_no_newline _
      · rcases List.mem_cons.1 hl with e | hl
        · rw [e]; exact hk2.1
        · rcases List.mem_cons.1 hl with e | hl
          · rw [e]; exact hk2.2
          · rcases List.mem_cons.1 hl with e | hl
            · rw [e]; exact (toString_int_facts _).2
            · rw [List.mem_singleton.1 hl]; exact (toString_int_facts _).2
    | number n =>
      simp only at hl
      rw [List.mem_singleton.1 hl]; exact metaLine_no_newline _
    | string a b =>
      simp only at hl
      rw [List.mem_singleton.1 hl]; exact metaLine_no_newline _
    | boolean b =>
      simp only at hl
      rw [List.mem_singleton.1 hl]; exact metaLine_no_newline _
    | lightuserdata p =>
      simp only at hl
      rw [List.mem_singleton.1 hl]; exact metaLine_no_newline _

theorem parseW_nil (args : Controller.Arg_w) : Controller.parseW args [] = some (0, args) := rfl

theorem parseW_size (s2 : Option Controller.State_w) (line : String) (rest : List String) :
    Controller.parseW { st := some Controller.State_w.W_SIZE, st2 := s2 } (line :: rest) =
      Controller.parseW { st := none, st2 := s2 } rest :=
  parseW_step _ _ line rest _ rfl

theorem parseW_status (s2 : Option Controller.State_w) (line : String) (rest : List String) :
    Controller.parseW { st := some Controller.State_w.W_STATUS, st2 := s2 } (line :: rest) =
      Controller.parseW { st := none, st2 := s2 } rest :=
  parseW_step _ _ line rest _ rfl

theorem parseW_what (s2 : Option Controller.State_w) (line : String) (rest : List String) :
    Controller.parseW { st := some Controller.State_w.W_WHAT, st2 := s2 } (line :: rest) =
      Controller.parseW { st := some Controller.State_w.W_SRC, st2 := s2 } rest :=
  parseW_step _ _ line rest _ rfl

theorem parseW_src (s2 : Option Controller.State_w) (line : String) (rest : List String) :
    Controller.parseW { st := some Controller.State_w.W_SRC, st2 := s2 } (line :: rest) =
      Controller.parseW { st := some Controller.State_w.W_FIRSTLINE, st2 := s2 } rest :=
  parseW_step _ _ line rest _ rfl

theorem parseW_firstline (s2 : Option Controller.State_w) (line : String) (rest : List String) :
    Controller.parseW { st := some Controller.State_w.W_FIRSTLINE, st2 := s2 } (line :: rest) =
      Controller.parseW { st := some Controller.State_w.W_LASTLINE, st2 := s2 } rest :=
  parseW_step _ _ line rest _ rfl

theorem parseW_lastline (s2 : Option Controller.State_w) (line : String) (rest : List String) :
    Controller.parseW { st := some Controller.State_w.W_LASTLINE, st2 := s2 } (line :: rest) =
      Controller.parseW { st := none, st2 := s2 } rest :=
  parseW_step _ _ line rest _ rfl

theorem parseW_kind (env : Env) (hmax : env.PROT_MAX_STR_LEN < 1073741824) (v : Value)
    (hfit : valueFits env v = true) (m : Bool) (tail : List String)
    (s : Option Controller.State_w)
    (hs : (if kindTag v = 't' then some Controller.State_w.W_KEY
      else if kindTag v = 'u' then some Controller.State_w.W_SIZE
      else if kindTag v = 'f' then some Controller.State_w.W_WHAT
      else if kindTag v = 'd' then some Controller.State_w.W_STATUS
      else none) = s) :
    Controller.parseW { st := some Controller.State_w.W_VAR, st2 := none }
        (valueLine env v :: (if m = true then "1" else "0") :: tail) =
      Controller.parseW { st := s, st2 := s } tail := by
  rw [parseW_root env hmax v hfit m tail, hs]

/-- The controller's parser takes the lines of a payload within the limits to
the end with code 0. -/
theorem watch_wLines (env : Env) (vm : LuaVM) (v : Value)
    (hmax : env.PROT_MAX_STR_LEN < 1073741824) (hfit : watchFits env vm v = true) :
    ∃ a, Controller.watch (wLines env vm v) = some (0, a) := by
  unfold watchFits at hfit
  rw [Bool.and_eq_true] at hfit
  obtain ⟨hv, hk⟩ := hfit
  unfold Controller.watch wLines
  cases v with
  | nil =>
    obtain ⟨o1, h1⟩ := printVar_valueLine_ok env Value.nil
      (([] : List String).flatMap fun l => l.toList ++ ['\n']) hv hmax
    obtain ⟨body, hb⟩ := valueLine_head env Value.nil
    rw [hb, List.cons_append] at h1
    obtain ⟨o2, h2⟩ := w_var none _ _ _ o1 h1
    rw [← List.cons_append, ← hb] at h2
    simp only
    rw [parseW_step _ _ _ _ _ h2]
    exact ⟨_, rfl⟩
  | table p =>
    simp only at hk ⊢
    rw [parseW_kind env hmax _ hv _ _ (some Controller.State_w.W_KEY) rfl]
    have := parseW_pairs env hmax (some Controller.State_w.W_KEY) [] (vm.next p)
      (fun kv hkv => by
        have := List.all_eq_true.1 hk kv hkv
        rw [Bool.and_eq_true] at this
        exact this)
    rw [List.append_nil] at this
    rw [this]
    exact ⟨_, rfl⟩
  | userdata p =>
    simp only at hk ⊢
    rw [parseW_kind env hmax _ hv _ _ (some Controller.State_w.W_SIZE) rfl]
    rw [parseW_size]
    exact ⟨_, rfl⟩
  | thread p =>
    simp only at hk ⊢
    rw [parseW_kind env hmax _ hv _ _ (some Controller.State_w.W_STATUS) rfl]
    rw [parseW_status]
    exact ⟨_, rfl⟩
  | function p =>
    simp only at hk ⊢
    rw [parseW_kind env hmax _ hv _ _ (some Controller.State_w.W_WHAT) rfl]
    rw [parseW_what, parseW_src, parseW_firstline, parseW_lastline]
    exact ⟨_, rfl⟩
  | number n =>
    simp only at hk ⊢
    rw [parseW_kind env hmax _ hv _ _ (none) rfl]
    exact ⟨_, rfl⟩
  | string a b =>
    simp only at hk ⊢
    rw [parseW_kind env hmax _ hv _ _ (none) rfl]
    exact ⟨_, rfl⟩
  | boolean b =>
    simp only at hk ⊢
    rw [parseW_kind env hmax _ hv _ _ (none) rfl]
    exact ⟨_, rfl⟩
  | lightuserdata p =>
    simp only at hk ⊢
    rw [parseW_kind env hmax _ hv _ _ (none) rfl]
    exact ⟨_, rfl⟩

theorem typestr_kindTag (v : Value) : Controller.typestr (kindTag v) ≠ "" := by
  cases v <;> simp only [kindTag] <;> decide

theorem hexDump_negative (bytes : List Nat) : hexDump bytes (-2147483643) = "" := rfl

theorem wLines_long_string (bytes : List Nat)
    (h : toInt32 (bytes.length : Int) = -2147483643) :
    wLines sampleEnv sampleVM (Value.string 0 bytes) =
      ["s0x00000000:-2147483643:-2147483643:", "0"] := by
  have hh : hex8 0 = "00000000" := by decide
  simp only [wLines, valueLine, h, hh]
  rw [if_neg (by decide), hexDump_negative]
  rfl

/-- C37 (amended): for every value whose payload keeps within the limits of
the wire (every string written has fewer than 2^31 bytes, the text of every
number written and `what` and `short_src` of a function hold no newline) and
`PROT_MAX_STR_LEN` below 2^30, the controller's `watch`, fed the lines of the
payload that the debuggee's writer `w` emits, ends with code 0, never -3; the
lines of the payload are the lines the writer printed; and every value line
begins with a kind tag that `typestr` of the controller knows. -/
theorem watch_accepts_payload (env : Env) (vm : LuaVM) (v : Value)
    (hmax : env.PROT_MAX_STR_LEN < 1073741824) (hfit : watchFits env vm v = true) :
    (∃ a, Controller.watch (Controller.payloadLines (w env vm v).toList) = some (0, a)) ∧
    Controller.payloadLines (w env vm v).toList = wLines env vm v ∧
    (∀ x : Value, ∃ body, (valueLine env x).toList = kindTag x :: body ∧
      Controller.typestr (kindTag x) ≠ "") := by
  have hl : Controller.payloadLines (w env vm v).toList = wLines env vm v := by
    rw [w_lines, payloadLines_lines _ (wLines_no_newline env vm v hfit)]
  refine ⟨?_, hl, fun x => ?_⟩
  · rw [hl]
    exact watch_wLines env vm v hmax hfit
  · obtain ⟨body, hb⟩ := valueLine_head env x
    exact ⟨body, hb, typestr_kindTag x⟩

/-- C37 (amended) at the table of the examples, which holds the pair
`"f"` ↦ a function. -/
theorem watch_accepts_payload_witness :
    (∃ a, Controller.watch (Controller.payloadLines
      (w sampleEnv tableVM (Value.table 16)).toList) = some (0, a)) ∧
    Controller.payloadLines (w sampleEnv tableVM (Value.table 16)).toList =
      wLines sampleEnv tableVM (Value.table 16) ∧
    (∀ x : Value, ∃ body, (valueLine sampleEnv x).toList = kindTag x :: body ∧
      Controller.typestr (kindTag x) ≠ "") :=
  watch_accepts_payload sampleEnv tableVM (Value.table 16) (by decide) (by decide)

/-- C37 as stated fails. For a function of a chunk named `=a\nb` the field
`short_src` holds a newline, the payload has one line more than the parser
expects, and the last line meets the state 0: `watch` returns -3. For a
string of 2^31 + 5 bytes the length read into the `int` is negative, the
value line is `s0x00000000:-2147483643:-2147483643:`, and `printVar` of the
controller rejects it: `watch` returns -3. -/
theorem watch_rejects_payload :
    Controller.payloadLines (w sampleEnv chunkNameVM (Value.function 4096)).toList =
      ["f0x00001000", "0", "Lua", "a", "b", "1", "1"] ∧
    Controller.watch (Controller.payloadLines
      (w sampleEnv chunkNameVM (Value.function 4096)).toList) =
      some (-3, { st := none, st2 := some Controller.State_w.W_WHAT }) ∧
    (Controller.watch (Controller.payloadLines
      (w sampleEnv sampleVM (Value.string 0 (List.replicate 2147483653 0))).toList)).map
        Prod.fst = some (-3) := by
  have h32 : toInt32 ((List.replicate 2147483653 (0 : Nat)).length : Int) = -2147483643 := by
    rw [List.length_replicate]
    decide
  refine ⟨by decide, by decide, ?_⟩
  rw [w_lines, wLines_long_string _ h32]
  decide

end RLdb
